import Mathlib

/-!
# Finite-field transform (`src/cpp/ntt.cpp`) and prime sieve
(`src/cpp/primeSieve.cpp`): embedding and verification

The C++ program is embedded shallowly.  Machine integers are natural numbers
(unsigned types) or integers (signed types) with every narrowing written out:

* `rep_t` is an unsigned type of `bits` bits, one of `uint8_t`, `uint16_t`,
  `uint32_t`, `uint64_t`;
* `ubig_t` is `uprod_t<rep_t>::type`;
* `srep_t` is the signed type of the same width as `rep_t`, two's complement,
  narrowing conversions and arithmetic wrap modulo `2 ^ bits`;
* `size_t` has 64 bits and `int` has 32 bits (LP64).

A field element is its stored value `val : Nat`.  A sequence (`bigint_t<Fp>`) is a
`List Nat`; in-place updates are `List.set`, reads are `List.getD _ _ 0`.
-/

namespace NTT

/-! ## Representation types and field arithmetic -/

/-- The unsigned representation types `_rep_t` the field template is used with. -/
inductive RepType where
  | u8 | u16 | u32 | u64
  deriving DecidableEq, Repr

/-- Width in bits of `rep_t` (and of `srep_t`). -/
def RepType.bits : RepType → Nat
  | .u8 => 8
  | .u16 => 16
  | .u32 => 32
  | .u64 => 64

/-- Width in bits of `ubig_t = uprod_t<rep_t>::type` (ntt.cpp lines 52-56). -/
def RepType.bigBits : RepType → Nat
  | .u8 => 16
  | .u16 => 32
  | .u32 => 64
  | .u64 => 128

/-- Narrowing conversion of a mathematical integer to the signed type of `w` bits. -/
def toSigned (w : Nat) (x : Int) : Int :=
  (x + 2 ^ (w - 1)) % 2 ^ w - 2 ^ (w - 1)

/-- Conversion of a signed value to the unsigned type of `w` bits. -/
def toUnsigned (w : Nat) (x : Int) : Nat :=
  (x % 2 ^ w).toNat

/-- The error values thrown by the program, and the outcome of a shift whose
count is not below the width of `int`. -/
inductive Error where
  | nonInvertible      -- `std::domain_error("Non-invertible element")`
  | invalidLength      -- `std::invalid_argument("Vector length not power of 2.")`
  | invalidRootOrder   -- `std::invalid_argument("Omega is wrong order root of 2.")`
  | moduliMismatch     -- `std::logic_error("Moduli don't match.")`
  | undefinedShift     -- `1 << q` with `q >= 32`: no behaviour defined
  deriving DecidableEq, Repr

deriving instance DecidableEq for Except

/-- Template parameters of `zmod_t<_rep_t, _modulus>`. -/
structure zmod_t where
  rep : RepType
  modulus : Nat
  deriving DecidableEq, Repr

namespace zmod_t

/-- Width of `rep_t`. -/
def w (F : zmod_t) : Nat := F.rep.bits

/-- Width of `ubig_t`. -/
def wbig (F : zmod_t) : Nat := F.rep.bigBits

/-- `newUnchecked(rep_t v)`: the argument is converted to `rep_t`. -/
def newUnchecked (F : zmod_t) (v : Nat) : Nat := v % 2 ^ F.w

/-- `zmod_t(rep_t v) : val(0 <= v && v < modulus ? v : v % modulus)`. -/
def ofRep (F : zmod_t) (v : Nat) : Nat :=
  if v < F.modulus then v else v % F.modulus

/-- `operator +` (ntt.cpp lines 88-92). -/
def add (F : zmod_t) (x y : Nat) : Nat :=
  let r := (x + y) % 2 ^ F.wbig
  let r := if r ≥ F.modulus then (r + 2 ^ F.wbig - F.modulus) % 2 ^ F.wbig else r
  F.newUnchecked r

/-- Binary `operator -` (ntt.cpp lines 93-97): `r` is a `rep_t`. -/
def sub (F : zmod_t) (x y : Nat) : Nat :=
  let r := if x < y then (x + F.modulus) % 2 ^ F.w else x
  F.newUnchecked (toUnsigned F.w ((r : Int) - (y : Int)))

/-- Unary `operator -` (ntt.cpp line 99). -/
def neg (F : zmod_t) (x : Nat) : Nat :=
  F.newUnchecked (if x ≠ 0 then toUnsigned F.w ((F.modulus : Int) - (x : Int)) else 0)

/-- `operator *` (ntt.cpp lines 101-104). -/
def mul (F : zmod_t) (x y : Nat) : Nat :=
  let r := (x * y) % 2 ^ F.wbig
  F.newUnchecked (r % F.modulus)

/-- The `while (b != 0)` loop of `inv` (ntt.cpp lines 111-116).  `a`, `b` are `rep_t`,
`s`, `t` and the locals `q`, `r` are `srep_t`.  Returns the final `(a, s)`.
The first argument bounds the number of iterations. -/
def invLoop (w : Nat) : Nat → Nat → Nat → Int → Int → Nat × Int
  | 0, a, _, s, _ => (a, s)
  | fuel + 1, a, b, s, t =>
    if b = 0 then (a, s)
    else
      let q : Int := toSigned w ((a / b : Nat) : Int)
      let r : Int := toSigned w ((a % b : Nat) : Int)
      let r2 : Int := toSigned w (s - q * t)
      invLoop w fuel b (toUnsigned w r) t r2

/-- `inv(bool check)` (ntt.cpp lines 108-120).  `b` starts at `modulus` and strictly
decreases, so `modulus + 1` iterations always reach `b == 0`. -/
def inv (F : zmod_t) (x : Nat) (check : Bool) : Except Error Nat :=
  let (a, s) := invLoop F.w (F.modulus + 1) x F.modulus 1 0
  if check && a ≠ 1 then .error .nonInvertible
  else
    let s := if s < 0 then toSigned F.w (s + F.modulus) else s
    .ok (F.newUnchecked (toUnsigned F.w s))

/-- `y.inv()` with the default `check = false`, which never throws. -/
def invU (F : zmod_t) (x : Nat) : Nat :=
  match F.inv x false with
  | .ok v => v
  | .error _ => 0

/-- `operator /` (ntt.cpp lines 105-107). -/
def div (F : zmod_t) (x y : Nat) : Nat := F.mul x (F.invU y)

/-- The `for ( ; n > 1; n >>= 1)` loop of `pow` (ntt.cpp line 125); returns `(a, b)`. -/
def powLoop (F : zmod_t) : Nat → Nat → Nat → Nat → Nat × Nat
  | 0, _, a, b => (a, b)
  | fuel + 1, n, a, b =>
    if n > 1 then
      let b := if n % 2 = 1 then F.mul a b else b
      powLoop F fuel (n / 2) (F.mul a a) b
    else (a, b)

/-- `pow(rep_t n)` (ntt.cpp lines 122-127).  The loop halves `n`, so `n` iterations
always reach `n <= 1`. -/
def pow (F : zmod_t) (x n : Nat) : Nat :=
  if n = 0 then F.ofRep 1
  else
    let (a, b) := powLoop F n n x (F.ofRep 1)
    F.mul a b

end zmod_t

/-! ## Miscellaneous utilities (ntt.cpp lines 19-44) -/

/-- The loop of `bitReverse` for a `uint_t` of `W` bits: `nb` iterations of
`r = (r << 1) | (j & 1)` followed by `j >>= 1`. -/
def bitReverseLoop (W : Nat) : Nat → Nat → Nat → Nat
  | 0, _, r => r
  | nb + 1, j, r => bitReverseLoop W nb (j / 2) (((r * 2) % 2 ^ W) ||| (j % 2))

/-- `bitReverse(j, nb)` (ntt.cpp lines 22-27) for a `uint_t` of `W` bits. -/
def bitReverse (W : Nat) (j nb : Nat) : Nat := bitReverseLoop W nb j 0

/-- The loop of `is2pow`; the first argument bounds the number of iterations. -/
def is2powLoop : Nat → Nat → Bool → Bool
  | 0, _, seen1 => seen1
  | fuel + 1, n, seen1 =>
    if n ≠ 0 then
      if n % 2 = 1 then
        if seen1 then false else is2powLoop fuel (n / 2) true
      else is2powLoop fuel (n / 2) seen1
    else seen1

/-- `is2pow(n)` (ntt.cpp lines 29-34).  The loop halves `n`, so `n` iterations
always reach `n == 0`. -/
def is2pow (n : Nat) : Bool := is2powLoop n n false

/-- The loop of `ceilLg` with state `i`, `n`, `lastSeen`, `numSeen`; returns
`(lastSeen, numSeen)`.  The first argument bounds the number of iterations. -/
def ceilLgLoop : Nat → Nat → Nat → Nat → Nat → Nat × Nat
  | 0, _, _, lastSeen, numSeen => (lastSeen, numSeen)
  | fuel + 1, i, n, lastSeen, numSeen =>
    if n ≠ 0 then
      if n % 2 = 1 then ceilLgLoop fuel (i + 1) (n / 2) i (numSeen + 1)
      else ceilLgLoop fuel (i + 1) (n / 2) lastSeen numSeen
    else (lastSeen, numSeen)

/-- `ceilLg(n)` (ntt.cpp lines 37-44).  The loop halves `n`, so `n` iterations
always reach `n == 0`. -/
def ceilLg (n : Nat) : Nat :=
  let (lastSeen, numSeen) := ceilLgLoop n 0 n 0 0
  if numSeen > 1 then lastSeen + 1 else lastSeen

/-- The expression `1 << q` of lines 259, 290 and 323: the literal `1` is an `int`
(32 bits), and the result is converted to `size_t` (64 bits, in the comparison of line
259 and in the initialisations of lines 290 and 323).  For `q < 31` it is `2 ^ q`.  For
`q = 31` the shift gives `INT_MIN` (the value `2 ^ 31` taken to `int` modulo `2 ^ 32`,
as the C++ standard has it since C++20 and two's-complement compilers before), whose
conversion to `size_t` is `2 ^ 64 - 2 ^ 31`.  For `q >= 32` the shift count is not
below the width of `int` and the shift has no defined behaviour (`none`). -/
def shlInt (q : Nat) : Option Nat :=
  if q < 31 then some (2 ^ q)
  else if q = 31 then some (2 ^ 64 - 2 ^ 31)
  else none

/-! ## Parameters for fft-friendly prime fields (ntt.cpp lines 147-182) -/

/-- One specialisation of `FftPrime<uint_t>`. -/
structure FftPrime where
  rep : RepType
  n : Nat
  k : Nat
  p : Nat
  g : Nat
  base : Nat
  deriving DecidableEq, Repr

/-- `FftPrime<uint64_t>`. -/
def FftPrime64 : FftPrime := ⟨.u64, 57, 29, 4179340454199820289, 21, 100⟩
/-- `FftPrime<uint32_t>`. -/
def FftPrime32 : FftPrime := ⟨.u32, 30, 3, 3221225473, 13, 2 ^ 15⟩
/-- `FftPrime<uint16_t>`. -/
def FftPrime16 : FftPrime := ⟨.u16, 13, 5, 40961, 12, 1000000000⟩

/-- `zmod_t<uint16_t, FftPrime<uint16_t>::p>`. -/
def Fp16 : zmod_t := ⟨.u16, FftPrime16.p⟩
/-- `zmod_t<uint32_t, FftPrime<uint32_t>::p>`. -/
def Fp32 : zmod_t := ⟨.u32, FftPrime32.p⟩
/-- `zmod_t<uint64_t, FftPrime<uint64_t>::p>`. -/
def Fp64 : zmod_t := ⟨.u64, FftPrime64.p⟩

/-! ## In-place FFT (ntt.cpp lines 239-356)

A call that mutates the sequence in place returns the final contents of the
sequence together with the error thrown, if any. -/

/-- One iteration of the loop of `permute` (ntt.cpp lines 251-252). -/
def permuteStep (t : Nat) (x : List Nat) (k : Nat) : List Nat :=
  let j := bitReverse 64 k t
  if j > k then
    let tmp := x.getD j 0
    let x1 := x.set j (x.getD k 0)
    x1.set k tmp
  else x

/-- `permute(x)` (ntt.cpp lines 247-254). -/
def permute (x : List Nat) : List Nat :=
  let n := x.length
  let t := ceilLg n
  (List.range n).foldl (permuteStep t) x

/-- `checkParameters(n, t, omega)` (ntt.cpp lines 257-274); `none` when it returns
without throwing. -/
def checkParameters (F : zmod_t) (n t omega : Nat) : Option Error :=
  match shlInt t with
  | none => some .undefinedShift
  | some v =>
    if n ≠ v then some .invalidLength
    else
      let o_nby2 := F.pow omega ((n / 2) % 2 ^ F.w)
      let one := F.ofRep 1
      if o_nby2 = one || F.mul o_nby2 o_nby2 ≠ one then some .invalidRootOrder
      else none

/-- The butterfly of lines 297-300 (and 328-331) at `kLj = k*L + j`, `half = L/2`. -/
def butterfly (F : zmod_t) (omegaPow kLj half : Nat) (x : List Nat) : List Nat :=
  let tau := F.mul omegaPow (x.getD (kLj + half) 0)
  let x1 := x.set (kLj + half) (F.sub (x.getD kLj 0) tau)
  x1.set kLj (F.add (x1.getD kLj 0) tau)

/-- The body of the `q` loop of `forwardFFT1` (ntt.cpp lines 290-302) for a given
value `L` of `1 << q`.  The state of the `j` loop is `(omegaPow, x)`. -/
def stage1 (F : zmod_t) (omega n L : Nat) (x : List Nat) : List Nat :=
  let r := n / L
  let omegaStep := F.pow omega (r % 2 ^ F.w)
  ((List.range (L / 2)).foldl (fun (st : Nat × List Nat) j =>
      let omegaPow := if j > 0 then F.mul st.1 omegaStep else st.1
      (omegaPow, (List.range r).foldl
        (fun y k => butterfly F omegaPow (k * L + j) (L / 2) y) st.2))
    (F.ofRep 1, x)).2

/-- The body of the `q` loop of `forwardFFT2` (ntt.cpp lines 323-333) for a given
value `L` of `1 << q`.  The state of the `j` loop is `(omegaPow, x)`. -/
def stage2 (F : zmod_t) (omega n L : Nat) (x : List Nat) : List Nat :=
  let r := n / L
  (List.range r).foldl (fun y k =>
      let omegaStep := F.pow omega (r % 2 ^ F.w)
      ((List.range (L / 2)).foldl (fun (st : Nat × List Nat) j =>
          let omegaPow := if j > 0 then F.mul st.1 omegaStep else st.1
          (omegaPow, butterfly F omegaPow (k * L + j) (L / 2) st.2))
        (F.ofRep 1, y)).2) x

/-- The loop `for (unsigned q = 1; q <= t; q++)` with `cnt` iterations left. -/
def stageLoop (stage : Nat → List Nat → List Nat) :
    Nat → Nat → List Nat → List Nat × Option Error
  | 0, _, x => (x, none)
  | cnt + 1, q, x =>
    match shlInt q with
    | none => (x, some .undefinedShift)
    | some L => stageLoop stage cnt (q + 1) (stage L x)

/-- `forwardFFT1(x, omega, check)` (ntt.cpp lines 282-304). -/
def forwardFFT1 (F : zmod_t) (x : List Nat) (omega : Nat) (check : Bool) :
    List Nat × Option Error :=
  let n := x.length
  let t := ceilLg n
  match (if check then checkParameters F n t omega else none) with
  | some e => (x, some e)
  | none => stageLoop (stage1 F omega n) t 1 (permute x)

/-- `forwardFFT2(x, omega, check)` (ntt.cpp lines 313-336). -/
def forwardFFT2 (F : zmod_t) (x : List Nat) (omega : Nat) (check : Bool) :
    List Nat × Option Error :=
  let n := x.length
  let t := ceilLg n
  match (if check then checkParameters F n t omega else none) with
  | some e => (x, some e)
  | none => stageLoop (stage2 F omega n) t 1 (permute x)

/-- `inverseFFT(forward, x, omega, check)` (ntt.cpp lines 340-348). -/
def inverseFFT (F : zmod_t) (forward : List Nat → Nat → Bool → List Nat × Option Error)
    (x : List Nat) (omega : Nat) (check : Bool) : List Nat × Option Error :=
  let n := x.length
  let nInv := F.invU (F.ofRep (n % 2 ^ F.w))
  match forward x (F.invU omega) check with
  | (y, some e) => (y, some e)
  | (y, none) =>
    ((List.range n).foldl (fun z i => z.set i (F.mul nInv (z.getD i 0))) y, none)

/-- `inverseFFT1` (ntt.cpp lines 350-352). -/
def inverseFFT1 (F : zmod_t) (x : List Nat) (omega : Nat) (check : Bool) :
    List Nat × Option Error :=
  inverseFFT F (forwardFFT1 F) x omega check

/-- `inverseFFT2` (ntt.cpp lines 353-355). -/
def inverseFFT2 (F : zmod_t) (x : List Nat) (omega : Nat) (check : Bool) :
    List Nat × Option Error :=
  inverseFFT F (forwardFFT2 F) x omega check

/-! ## Test driver (ntt.cpp lines 417-470) -/

/-- The root computed at line 427 of `checkFFT_single`:
`Fp(Prime::g).pow((uint_t) 1 << (Prime::n - ceilLg(n)))`. -/
def testRoot (F : zmod_t) (P : FftPrime) (n : Nat) : Nat :=
  F.pow (F.ofRep P.g) ((2 ^ (P.n - ceilLg n)) % 2 ^ F.w)

/-- The sequence `f3` at the end of `checkFFT_single` (ntt.cpp lines 417-453), which
the function compares slot by slot with the expected output `v3`, together with the
error thrown, if any; `fft` and `ift` are the transforms passed in.  The sequence is
empty when the moduli do not match. -/
def checkFFT_single (F : zmod_t) (P : FftPrime)
    (fft ift : List Nat → Nat → Bool → List Nat × Option Error)
    (n : Nat) (v1 v2 : List Nat) : List Nat × Option Error :=
  if F.modulus ≠ P.p then ([], some .moduliMismatch)
  else
    let g := testRoot F P n
    let f1 := (List.range n).map (fun i => F.ofRep (v1.getD i 0))
    let f2 := (List.range n).map (fun i => F.ofRep (v2.getD i 0))
    match fft f1 g true with
    | (f1, some e) => (f1, some e)
    | (f1, none) =>
      match fft f2 g true with
      | (f2, some e) => (f2, some e)
      | (f2, none) =>
        let f3 := (List.range n).map (fun i => F.mul (f1.getD i 0) (f2.getD i 0))
        ift f3 g true

/-- The array `in1_16`. -/
def in1_16 : List Nat := [38, 0, 44, 87, 6, 45, 22, 93, 0, 0, 0, 0, 0, 0, 0, 0]
/-- The array `in2_16`. -/
def in2_16 : List Nat := [80, 18, 62, 90, 17, 96, 27, 97, 0, 0, 0, 0, 0, 0, 0, 0]
/-- The array `out_16`. -/
def out_16 : List Nat :=
  [3040, 684, 5876, 11172, 5420, 16710, 12546, 20555,
   16730, 15704, 21665, 5490, 13887, 4645, 9021, 0]

/-- The value held by `omegaPow` during iteration `j` of a `j` loop: `1` in the first
iteration, then multiplied by `omegaStep` at the start of every later iteration. -/
def omegaPowAt (F : zmod_t) (omegaStep : Nat) : Nat → Nat
  | 0 => F.ofRep 1
  | j + 1 => F.mul (omegaPowAt F omegaStep j) omegaStep

/-- The butterfly performed for the pair `(j, k)` of loop indices. -/
def stageOp (F : zmod_t) (omegaStep L : Nat) (y : List Nat) (p : Nat × Nat) : List Nat :=
  butterfly F (omegaPowAt F omegaStep p.1) (p.2 * L + p.1) (L / 2) y

/-- The element of `Z/pZ` stored in slot `i` of a sequence. -/
def slot (F : zmod_t) (x : List Nat) (i : Nat) : ZMod F.modulus :=
  ((x.getD i 0 : Nat) : ZMod F.modulus)

/-- Every slot of the sequence holds a reduced value. -/
def Reduced (F : zmod_t) (x : List Nat) : Prop := ∀ i, x.getD i 0 < F.modulus

/-- The state of the sequence after `qd` stages of a transform of length `2 ^ t` started
on `x0`: every block of `2 ^ qd` slots holds the transform, with root
`omega ^ (2 ^ (t - qd))`, of the block of `x0` read in bit-reversed order. -/
def StageInv (F : zmod_t) (t : Nat) (om : ZMod F.modulus) (x0 : List Nat) (qd : Nat)
    (y : List Nat) : Prop :=
  ∀ b j, b < 2 ^ (t - qd) → j < 2 ^ qd →
    slot F y (b * 2 ^ qd + j)
      = ∑ a in Finset.range (2 ^ qd),
          slot F x0 (b * 2 ^ qd + bitReverse 64 a qd) * (om ^ (2 ^ (t - qd))) ^ (a * j)

/-- An element of order `2 ^ 31` of the 64-bit field: `21 ^ (2 ^ 26) mod p`. -/
def omega31 : Nat := 1930754592470853947

/-- A sequence of length `2 ^ 31`: `1` in slot `0` and `0` in every other slot. -/
def delta31 : List Nat := 1 :: List.replicate (2 ^ 31 - 1) 0

/-! ## The loop body of `checkZmod` (ntt.cpp lines 399-414) -/

/-- The condition of the first test of the loop body of `checkZmod` for the loop counter
`i`: `!(a == lol.inv().pow(i))` with `lol = Zp(101)` and `a = lol.pow(i).inv()`; the
message "bad power" is printed when it holds. -/
def checkZmod_badPower (F : zmod_t) (i : Nat) : Bool :=
  let lol := F.ofRep 101
  let a := F.invU (F.pow lol i)
  !(a == F.pow (F.invU lol) i)

/-- The condition of the fourth test of the loop body of `checkZmod`:
`lol.inv().pow(i)*lol.pow(i) != one` with `one = Zp(1)`; the message "bad inv" is printed
when it holds. -/
def checkZmod_badInv (F : zmod_t) (i : Nat) : Bool :=
  let lol := F.ofRep 101
  let one := F.ofRep 1
  F.mul (F.pow (F.invU lol) i) (F.pow lol i) != one

/-- `uint_t checkLimit = Zp::modulus + 4` (ntt.cpp line 394). -/
def checkLimit (F : zmod_t) : Nat := (F.modulus + 4) % 2 ^ F.w

/-! ## Slots accessed by the transforms

The subscripts `x[...]` evaluated by `permute` and by the stages, in the order of the
loops; a subscript is a `size_t`, so it is taken modulo `2 ^ 64`. -/

/-- The subscripts of one iteration of the loop of `permute` (ntt.cpp lines 251-252):
`t = x[j]; x[j] = x[k]; x[k] = t` when `j > k`. -/
def permuteStepIndices (t k : Nat) : List Nat :=
  let j := bitReverse 64 k t
  if j > k then [j, k, j, k] else []

/-- The subscripts of `permute` on a sequence of length `n`. -/
def permuteIndices (n : Nat) : List Nat :=
  let t := ceilLg n
  (List.range n).flatMap (permuteStepIndices t)

/-- The subscripts of the butterfly of lines 296-299 (and 328-331):
`kLj = k*L+j`, then `x[kLj + L/2]`, `x[kLj]`, `x[kLj + L/2]`, `x[kLj]`, `x[kLj]`. -/
def butterflyIndices (L k j : Nat) : List Nat :=
  let kLj := (k * L + j) % 2 ^ 64
  let hi := (kLj + L / 2) % 2 ^ 64
  [hi, kLj, hi, kLj, kLj]

/-- The subscripts of one stage of `forwardFFT1`: `j` in the middle loop, `k` in the
inner loop. -/
def stage1Indices (n L : Nat) : List Nat :=
  let r := n / L
  (List.range (L / 2)).flatMap (fun j => (List.range r).flatMap (fun k =>
    butterflyIndices L k j))

/-- The subscripts of one stage of `forwardFFT2`: `k` in the middle loop, `j` in the
inner loop. -/
def stage2Indices (n L : Nat) : List Nat :=
  let r := n / L
  (List.range r).flatMap (fun k => (List.range (L / 2)).flatMap (fun j =>
    butterflyIndices L k j))

/-- The subscripts of the loop `for (unsigned q = 1; q <= t; q++)` with `cnt` iterations
left, up to the end of the loop or to a shift without defined behaviour. -/
def stageLoopIndices (stageIndices : Nat → List Nat) :
    Nat → Nat → List Nat × Option Error
  | 0, _ => ([], none)
  | cnt + 1, q =>
    match shlInt q with
    | none => ([], some .undefinedShift)
    | some L =>
      let rest := stageLoopIndices stageIndices cnt (q + 1)
      (stageIndices L ++ rest.1, rest.2)

/-- The subscripts of `forwardFFT1(x, omega, false)` on a sequence of length `n`. -/
def forwardFFT1Indices (n : Nat) : List Nat × Option Error :=
  let t := ceilLg n
  let rest := stageLoopIndices (stage1Indices n) t 1
  (permuteIndices n ++ rest.1, rest.2)

/-- The subscripts of `forwardFFT2(x, omega, false)` on a sequence of length `n`. -/
def forwardFFT2Indices (n : Nat) : List Nat × Option Error :=
  let t := ceilLg n
  let rest := stageLoopIndices (stage2Indices n) t 1
  (permuteIndices n ++ rest.1, rest.2)

end NTT

/-! ## Prime sieve (`src/cpp/primeSieve.cpp`)

The vector `std::vector<bool> primes` is a `List Bool`.  The parameter `num` is an
`int` (32 bits) and the loop counters `i`, `j` are `long long` (64 bits), all signed; a
call returns `none` when it evaluates a subscript out of range or a product that
overflows `long long`, neither of which has defined behaviour. -/

namespace PrimeSieve

/-- The read `primes[i]`; `none` when the subscript is out of range. -/
def readAt (primes : List Bool) (i : Nat) : Option Bool := primes[i]?

/-- The write `primes[i] = b`; `none` when the subscript is out of range. -/
def writeAt (primes : List Bool) (i : Nat) (b : Bool) : Option (List Bool) :=
  if i < primes.length then some (primes.set i b) else none

/-- The loop `while (i*j < num)` of lines 14-17, `i` and `j` being `long long`: a product
that does not fit 63 bits has no defined behaviour.  The first argument bounds the number
of iterations. -/
def innerLoop (num i : Nat) : Nat → Nat → List Bool → Option (List Bool)
  | 0, _, _ => none
  | fuel + 1, j, primes =>
    if 2 ^ 63 ≤ i * j then none
    else if i * j < num then
      match writeAt primes (i * j) false with
      | none => none
      | some primes => innerLoop num i fuel (j + 1) primes
    else some primes

/-- The loop `for (long long i = 2; i < num; i++)` of lines 10-19.  The first argument
bounds the number of iterations; `j` grows by one in every iteration of the inner loop,
so `num` iterations always reach `i*j >= num`. -/
def outerLoop (num : Nat) : Nat → Nat → List Bool → Option (List Bool)
  | 0, _, _ => none
  | fuel + 1, i, primes =>
    if i < num then
      match readAt primes i with
      | none => none
      | some b =>
        if b != false then
          match innerLoop num i num i primes with
          | none => none
          | some primes => outerLoop num fuel (i + 1) primes
        else outerLoop num fuel (i + 1) primes
    else some primes

/-- `primeSieve(num)` (primeSieve.cpp lines 5-21) for a non-negative `int num`; `none`
when a subscript is out of range or a product overflows.  The outer loop counts `i` up
to `num`, so `num` iterations always reach `i >= num`. -/
def primeSieve (num : Nat) : Option (List Bool) :=
  let primes := List.replicate num true
  match writeAt primes 0 false with
  | none => none
  | some primes =>
    match writeAt primes 1 false with
    | none => none
    | some primes => outerLoop num num 2 primes

/-- The state of the vector when the outer loop reaches `i`: a slot is still `true`
exactly when its index is at least 2 and has no prime divisor `p < i` with `p * p` at
most the index. -/
def SieveInv (num i : Nat) (primes : List Bool) : Prop :=
  ∀ m, primes.getD m false = true ↔
    (m < num ∧ 2 ≤ m ∧ ∀ p, Nat.Prime p → p < i → p * p ≤ m → ¬ p ∣ m)

end PrimeSieve

namespace NTT

/-! ## Field arithmetic: agreement with arithmetic modulo the modulus -/

namespace zmod_t

theorem wbig_eq (F : zmod_t) : F.wbig = 2 * F.w := by
  cases F with
  | mk rep m => cases rep <;> rfl

theorem w_pos (F : zmod_t) : 8 ≤ F.w := by
  cases F with
  | mk rep m => cases rep <;> simp [w, RepType.bits]

theorem two_pow_w_le_big (F : zmod_t) : 2 ^ F.w ≤ 2 ^ F.wbig := by
  rw [wbig_eq]
  exact Nat.pow_le_pow_right (by decide) (by omega)

theorem two_pow_big_eq (F : zmod_t) : 2 ^ F.wbig = 2 ^ F.w * 2 ^ F.w := by
  rw [wbig_eq, two_mul, pow_add]

theorem toUnsigned_of_nonneg (w : Nat) (x : Int) (h0 : 0 ≤ x) (h1 : x < 2 ^ w) :
    toUnsigned w x = x.toNat := by
  unfold toUnsigned
  rw [Int.emod_eq_of_lt h0 h1]

theorem toUnsigned_natCast (w : Nat) (n : Nat) (h1 : n < 2 ^ w) :
    toUnsigned w (n : Int) = n := by
  rw [toUnsigned_of_nonneg w n (by positivity) (by exact_mod_cast h1)]
  simp

theorem ofRep_eq (F : zmod_t) (v : Nat) : F.ofRep v = v % F.modulus := by
  unfold ofRep
  split
  · rename_i h
    exact (Nat.mod_eq_of_lt h).symm
  · rfl

theorem add_eq (F : zmod_t) (hm : F.modulus < 2 ^ F.w) (x y : Nat)
    (hx : x < F.modulus) (hy : y < F.modulus) :
    F.add x y = (x + y) % F.modulus := by
  have hB := F.two_pow_w_le_big
  have h1 : (x + y) % 2 ^ F.wbig = x + y := by
    apply Nat.mod_eq_of_lt
    have := F.two_pow_big_eq
    have h2 : 2 ≤ 2 ^ F.w := by
      calc 2 = 2 ^ 1 := by norm_num
        _ ≤ 2 ^ F.w := Nat.pow_le_pow_right (by decide) (by have := F.w_pos; omega)
    nlinarith
  unfold add newUnchecked
  simp only [h1]
  split
  · rename_i h
    have h3 : (x + y + 2 ^ F.wbig - F.modulus) % 2 ^ F.wbig = x + y - F.modulus := by
      have : x + y + 2 ^ F.wbig - F.modulus = (x + y - F.modulus) + 2 ^ F.wbig := by omega
      rw [this, Nat.add_mod_right]
      apply Nat.mod_eq_of_lt
      omega
    rw [h3, Nat.mod_eq_of_lt (by omega)]
    rw [Nat.mod_eq_sub_mod h, Nat.mod_eq_of_lt (by omega)]
  · rename_i h
    rw [Nat.mod_eq_of_lt (by omega), Nat.mod_eq_of_lt (by omega)]

theorem sub_eq (F : zmod_t) (hm : F.modulus < 2 ^ F.w) (x y : Nat)
    (hx : x < F.modulus) (hy : y < F.modulus) :
    F.sub x y = (x + F.modulus - y) % F.modulus := by
  unfold sub newUnchecked
  have hW : (0 : Int) < 2 ^ F.w := by positivity
  split
  · rename_i h
    -- the addition wraps modulo `2 ^ w`, the subtraction wraps back
    have key : toUnsigned F.w ((((x + F.modulus) % 2 ^ F.w : Nat) : Int) - (y : Int))
        = x + F.modulus - y := by
      unfold toUnsigned
      have e : ((((x + F.modulus) % 2 ^ F.w : Nat) : Int) - (y : Int)) % 2 ^ F.w
          = ((x + F.modulus - y : Nat) : Int) := by
        have hle : y ≤ x + F.modulus := by omega
        rw [Nat.cast_sub hle]
        push_cast
        rw [Int.sub_emod, Int.emod_emod_of_dvd _ (dvd_refl _), ← Int.sub_emod]
        apply Int.emod_eq_of_lt
        · omega
        · have : ((F.modulus : Nat) : Int) < 2 ^ F.w := by exact_mod_cast hm
          omega
      rw [e]
      simp
    simp only [key]
    rw [Nat.mod_eq_of_lt (by omega), Nat.mod_eq_of_lt (by omega)]
  · rename_i h
    have key : toUnsigned F.w ((x : Int) - (y : Int)) = x - y := by
      have : (x : Int) - (y : Int) = ((x - y : Nat) : Int) := by omega
      rw [this, toUnsigned_natCast]
      omega
    simp only [key]
    rw [Nat.mod_eq_of_lt (by omega)]
    have : x + F.modulus - y = (x - y) + F.modulus := by omega
    rw [this, Nat.add_mod_right, Nat.mod_eq_of_lt (by omega)]

theorem neg_eq (F : zmod_t) (hm : F.modulus < 2 ^ F.w) (x : Nat)
    (hx : x < F.modulus) :
    F.neg x = (F.modulus - x) % F.modulus := by
  unfold neg newUnchecked
  split
  · rename_i h
    have key : toUnsigned F.w ((F.modulus : Int) - (x : Int)) = F.modulus - x := by
      have : (F.modulus : Int) - (x : Int) = ((F.modulus - x : Nat) : Int) := by omega
      rw [this, toUnsigned_natCast]
      omega
    rw [key, Nat.mod_eq_of_lt (by omega), Nat.mod_eq_of_lt (by omega)]
  · rename_i h
    have : x = 0 := by
      by_contra h0
      exact h h0
    subst this
    simp

theorem mul_eq (F : zmod_t) (hm : F.modulus < 2 ^ F.w) (x y : Nat)
    (hx : x < F.modulus) (hy : y < F.modulus) :
    F.mul x y = (x * y) % F.modulus := by
  unfold mul newUnchecked
  have h1 : x * y < 2 ^ F.wbig := by
    rw [F.two_pow_big_eq]
    exact Nat.mul_lt_mul_of_lt_of_lt (by omega) (by omega)
  simp only [Nat.mod_eq_of_lt h1]
  apply Nat.mod_eq_of_lt
  have : x * y % F.modulus < F.modulus := Nat.mod_lt _ (by omega)
  omega

theorem powLoop_spec (F : zmod_t) (hm : F.modulus < 2 ^ F.w) :
    ∀ (fuel n a b : Nat), 1 ≤ n → n ≤ fuel → a < F.modulus → b < F.modulus →
      (F.powLoop fuel n a b).1 < F.modulus ∧ (F.powLoop fuel n a b).2 < F.modulus ∧
      ((F.powLoop fuel n a b).1 * (F.powLoop fuel n a b).2) % F.modulus
        = (a ^ n * b) % F.modulus := by
  intro fuel
  induction fuel with
  | zero => intro n a b h1 h2; omega
  | succ fuel ih =>
    intro n a b h1 h2 ha hb
    have hpos : 0 < F.modulus := by omega
    unfold powLoop
    by_cases hn : n > 1
    · simp only [hn, if_true]
      have haa : F.mul a a < F.modulus := by
        rw [F.mul_eq hm a a ha ha]; exact Nat.mod_lt _ hpos
      have hb1 : (if n % 2 = 1 then F.mul a b else b) < F.modulus := by
        split
        · rw [F.mul_eq hm a b ha hb]; exact Nat.mod_lt _ hpos
        · exact hb
      obtain ⟨r1, r2, r3⟩ := ih (n / 2) (F.mul a a) (if n % 2 = 1 then F.mul a b else b)
        (by omega) (by omega) haa hb1
      refine ⟨r1, r2, ?_⟩
      rw [r3, F.mul_eq hm a a ha ha]
      have hsq : ((a * a) % F.modulus) ^ (n / 2) ≡ a ^ (2 * (n / 2)) [MOD F.modulus] := by
        rw [pow_mul, pow_two]
        exact (Nat.mod_modEq _ _).pow _
      by_cases hodd : n % 2 = 1
      · simp only [hodd, if_true]
        rw [F.mul_eq hm a b ha hb]
        have e : a ^ n * b = a ^ (2 * (n / 2)) * (a * b) := by
          have : n = 2 * (n / 2) + 1 := by omega
          conv_lhs => rw [this]
          rw [pow_succ]; ring
        rw [e]
        exact hsq.mul (Nat.mod_modEq _ _)
      · simp only [hodd, if_false]
        have e : a ^ n * b = a ^ (2 * (n / 2)) * b := by
          have : n = 2 * (n / 2) := by omega
          conv_lhs => rw [this]
        rw [e]
        exact hsq.mul (Nat.ModEq.refl b)
    · simp only [hn, if_false]
      have : n = 1 := by omega
      subst this
      exact ⟨ha, hb, by simp⟩

theorem pow_eq (F : zmod_t) (hm : F.modulus < 2 ^ F.w) (x n : Nat)
    (hx : x < F.modulus) : F.pow x n = x ^ n % F.modulus := by
  have hpos : 0 < F.modulus := by omega
  unfold pow
  by_cases hn : n = 0
  · simp [hn, ofRep_eq]
  · simp only [hn, if_false]
    have h1 : F.ofRep 1 < F.modulus := by rw [ofRep_eq]; exact Nat.mod_lt _ hpos
    obtain ⟨r1, r2, r3⟩ := F.powLoop_spec hm n n x (F.ofRep 1) (by omega) le_rfl hx h1
    rw [F.mul_eq hm _ _ r1 r2, r3, ofRep_eq]
    have : x ^ n * (1 % F.modulus) ≡ x ^ n * 1 [MOD F.modulus] :=
      (Nat.ModEq.refl _).mul (Nat.mod_modEq _ _)
    rw [this, mul_one]

/-! ### The signed conversions -/

theorem two_pow_pred (w : Nat) (hw : 1 ≤ w) : (2 : Int) ^ w = 2 * 2 ^ (w - 1) := by
  obtain ⟨k, rfl⟩ : ∃ k, w = k + 1 := ⟨w - 1, by omega⟩
  simp [pow_succ]; ring

theorem toSigned_eq_self (w : Nat) (hw : 1 ≤ w) (x : Int)
    (h0 : -(2 : Int) ^ (w - 1) ≤ x) (h1 : x < 2 ^ (w - 1)) : toSigned w x = x := by
  unfold toSigned
  have := two_pow_pred w hw
  rw [Int.emod_eq_of_lt (by omega) (by omega)]
  omega

theorem toSigned_modEq (w : Nat) (x : Int) : toSigned w x ≡ x [ZMOD 2 ^ w] := by
  unfold toSigned
  have h : (x + 2 ^ (w - 1)) % 2 ^ w ≡ x + 2 ^ (w - 1) [ZMOD 2 ^ w] := Int.mod_modEq _ _
  have := h.sub_right (2 ^ (w - 1))
  simpa using this

theorem toSigned_congr (w : Nat) (x y : Int) (h : x ≡ y [ZMOD 2 ^ w]) :
    toSigned w x = toSigned w y := by
  unfold toSigned
  have : (x + 2 ^ (w - 1)) % 2 ^ w = (y + 2 ^ (w - 1)) % 2 ^ w := h.add_right _
  rw [this]

theorem toSigned_range (w : Nat) (hw : 1 ≤ w) (x : Int) :
    -(2 : Int) ^ (w - 1) ≤ toSigned w x ∧ toSigned w x < 2 ^ (w - 1) := by
  unfold toSigned
  have h2 := two_pow_pred w hw
  have hpos : (0 : Int) < 2 ^ w := by positivity
  have h0 := Int.emod_nonneg (x + 2 ^ (w - 1)) (ne_of_gt hpos)
  have h1 := Int.emod_lt_of_pos (x + 2 ^ (w - 1)) hpos
  constructor <;> omega

theorem toUnsigned_congr (w : Nat) (x y : Int) (h : x ≡ y [ZMOD 2 ^ w]) :
    toUnsigned w x = toUnsigned w y := by
  unfold toUnsigned
  rw [show x % 2 ^ w = y % 2 ^ w from h]

theorem toUnsigned_toSigned (w : Nat) (x : Int) :
    toUnsigned w (toSigned w x) = toUnsigned w x :=
  toUnsigned_congr w _ _ (toSigned_modEq w x)

/-! ### The extended Euclid loop of `inv` -/

theorem invLoop_zero_b (w fuel a : Nat) (s t : Int) : invLoop w fuel a 0 s t = (a, s) := by
  cases fuel <;> simp [invLoop]

theorem invLoop_step (w : Nat) (fuel a b : Nat) (S T : Int) (hb : 0 < b) (hba : b < a)
    (ha : a < 2 ^ w) :
    invLoop w (fuel + 1) a b (toSigned w S) (toSigned w T)
      = invLoop w fuel b (a % b) (toSigned w T) (toSigned w (S - ((a / b : Nat) : Int) * T)) := by
  have hb0 : b ≠ 0 := by omega
  rw [invLoop]
  simp only [hb0, if_false]
  have e1 : toUnsigned w (toSigned w ((a % b : Nat) : Int)) = a % b := by
    rw [toUnsigned_toSigned, toUnsigned_natCast]
    have : a % b < b := Nat.mod_lt _ hb
    omega
  have e2 : toSigned w (toSigned w S - toSigned w ((a / b : Nat) : Int) * toSigned w T)
      = toSigned w (S - ((a / b : Nat) : Int) * T) :=
    toSigned_congr w _ _
      ((toSigned_modEq w S).sub ((toSigned_modEq w _).mul (toSigned_modEq w T)))
  rw [e1, e2]

theorem invLoop_spec (w : Nat) (m v : Nat) :
    ∀ (fuel a b : Nat) (S T : Int), b < fuel → 0 < b → b < a → a < 2 ^ w →
      ((0 ≤ S ∧ T ≤ 0 ∧ S * b - T * a ≤ m) ∨ (S ≤ 0 ∧ 0 ≤ T ∧ T * a - S * b ≤ m)) →
      (a : Int) ≡ S * v [ZMOD m] → (b : Int) ≡ T * v [ZMOD m] →
      (invLoop w fuel a b (toSigned w S) (toSigned w T)).1 = Nat.gcd a b ∧
      ∃ Sf : Int, (invLoop w fuel a b (toSigned w S) (toSigned w T)).2 = toSigned w Sf ∧
        -(m : Int) ≤ 2 * Sf * (Nat.gcd a b : Nat) ∧ 2 * Sf * (Nat.gcd a b : Nat) ≤ m ∧
        ((Nat.gcd a b : Nat) : Int) ≡ Sf * v [ZMOD m] := by
  intro fuel
  induction fuel with
  | zero => intro a b S T h; omega
  | succ fuel ih =>
    intro a b S T hfuel hb hba ha hinv hA hB
    rw [invLoop_step w fuel a b S T hb hba ha]
    have hdiv : (a : Int) = (b : Int) * ((a / b : Nat) : Int) + ((a % b : Nat) : Int) := by
      have := Nat.div_add_mod a b
      exact_mod_cast this.symm
    by_cases hr : a % b = 0
    · -- the loop stops: `b` divides `a`
      rw [hr, invLoop_zero_b]
      have hdvd : b ∣ a := Nat.dvd_of_mod_eq_zero hr
      have hg : Nat.gcd a b = b := Nat.gcd_eq_right hdvd
      have h2 : 2 * b ≤ a := by
        obtain ⟨k, hk⟩ := hdvd
        have : 2 ≤ k := by
          by_contra hlt
          have : k = 0 ∨ k = 1 := by omega
          rcases this with rfl | rfl <;> simp at hk <;> omega
        calc 2 * b = b * 2 := by ring
          _ ≤ b * k := Nat.mul_le_mul_left _ this
          _ = a := hk.symm
      have h2i : (2 : Int) * b ≤ a := by exact_mod_cast h2
      have hbi : (0 : Int) < b := by exact_mod_cast hb
      refine ⟨hg.symm, T, rfl, ?_, ?_, ?_⟩
      · rw [hg]
        rcases hinv with ⟨h1, h3, h4⟩ | ⟨h1, h3, h4⟩
        · nlinarith [mul_nonneg h1 hbi.le, mul_nonneg (neg_nonneg.mpr h3) (sub_nonneg.mpr h2i)]
        · nlinarith [mul_nonneg h3 hbi.le]
      · rw [hg]
        rcases hinv with ⟨h1, h3, h4⟩ | ⟨h1, h3, h4⟩
        · nlinarith [mul_nonneg (neg_nonneg.mpr h3) hbi.le]
        · nlinarith [mul_nonneg (neg_nonneg.mpr h1) hbi.le, mul_nonneg h3 (sub_nonneg.mpr h2i)]
      · rw [hg]; exact hB
    · have hrpos : 0 < a % b := Nat.pos_of_ne_zero hr
      have hrlt : a % b < b := Nat.mod_lt _ hb
      have hq0 : (0 : Int) ≤ ((a / b : Nat) : Int) := by positivity
      have hgcd : Nat.gcd b (a % b) = Nat.gcd a b := by
        rw [Nat.gcd_comm b, ← Nat.gcd_rec, Nat.gcd_comm]
      have hinv2 : (0 ≤ T ∧ S - ((a / b : Nat) : Int) * T ≤ 0 ∧
            T * ((a % b : Nat) : Int) - (S - ((a / b : Nat) : Int) * T) * b ≤ m) ∨
          (T ≤ 0 ∧ 0 ≤ S - ((a / b : Nat) : Int) * T ∧
            (S - ((a / b : Nat) : Int) * T) * b - T * ((a % b : Nat) : Int) ≤ m) := by
        rcases hinv with ⟨h1, h3, h4⟩ | ⟨h1, h3, h4⟩
        · right
          refine ⟨h3, by nlinarith [mul_nonneg hq0 (neg_nonneg.mpr h3)], ?_⟩
          have e : (S - ((a / b : Nat) : Int) * T) * b - T * ((a % b : Nat) : Int)
              = S * b - T * a := by rw [hdiv]; ring
          rw [e]; exact h4
        · left
          refine ⟨h3, by nlinarith [mul_nonneg hq0 h3], ?_⟩
          have e : T * ((a % b : Nat) : Int) - (S - ((a / b : Nat) : Int) * T) * b
              = T * a - S * b := by rw [hdiv]; ring
          rw [e]; exact h4
      have hB2 : ((a % b : Nat) : Int) ≡ (S - ((a / b : Nat) : Int) * T) * v [ZMOD m] := by
        have e1 : ((a % b : Nat) : Int) = a - ((a / b : Nat) : Int) * b := by
          rw [hdiv]; ring
        have e2 : (S - ((a / b : Nat) : Int) * T) * v
            = S * v - ((a / b : Nat) : Int) * (T * v) := by ring
        rw [e1, e2]
        exact hA.sub ((Int.ModEq.refl _).mul hB)
      have := ih b (a % b) T (S - ((a / b : Nat) : Int) * T) (by omega) hrpos hrlt (by omega)
        hinv2 hB hB2
      rw [hgcd] at this
      exact this

theorem invLoop_top (F : zmod_t) (hm : F.modulus < 2 ^ F.w) (x : Nat) (hx : x < F.modulus) :
    (invLoop F.w (F.modulus + 1) x F.modulus 1 0).1 = Nat.gcd x F.modulus ∧
    -(F.modulus : Int) ≤ 2 * (invLoop F.w (F.modulus + 1) x F.modulus 1 0).2 ∧
    2 * (invLoop F.w (F.modulus + 1) x F.modulus 1 0).2 ≤ F.modulus ∧
    ((Nat.gcd x F.modulus : Nat) : Int)
      ≡ (invLoop F.w (F.modulus + 1) x F.modulus 1 0).2 * x [ZMOD F.modulus] := by
  have hw := F.w_pos
  have hH : (2 : Int) ^ 1 ≤ 2 ^ (F.w - 1) := pow_le_pow_right₀ (by norm_num) (by omega)
  have hm0 : F.modulus ≠ 0 := by omega
  have t0 : toSigned F.w 0 = 0 := toSigned_eq_self _ (by omega) _ (by omega) (by omega)
  have t1 : toSigned F.w 1 = 1 := toSigned_eq_self _ (by omega) _ (by omega) (by omega)
  have first : invLoop F.w (F.modulus + 1) x F.modulus 1 0
      = invLoop F.w F.modulus F.modulus x (toSigned F.w 0) (toSigned F.w 1) := by
    rw [invLoop]
    simp only [hm0, if_false]
    rw [Nat.div_eq_of_lt hx, Nat.mod_eq_of_lt hx, toUnsigned_toSigned,
      toUnsigned_natCast _ _ (by omega)]
    simp [t0, t1]
  rw [first]
  by_cases hx0 : x = 0
  · subst hx0
    rw [invLoop_zero_b, t0]
    simp [Int.ModEq]
  · have key := invLoop_spec F.w F.modulus x F.modulus F.modulus x 0 1 hx (by omega) hx hm
      (Or.inr ⟨le_rfl, by norm_num, by simp⟩) (by simp [Int.ModEq]) (by simp)
    obtain ⟨k1, Sf, k2, k3, k4, k5⟩ := key
    have hgpos : 0 < Nat.gcd F.modulus x := Nat.gcd_pos_of_pos_left _ (by omega)
    have hgi : (1 : Int) ≤ (Nat.gcd F.modulus x : Nat) := by exact_mod_cast hgpos
    have mi : (F.modulus : Int) < 2 ^ F.w := by exact_mod_cast hm
    have h2 := two_pow_pred F.w (by omega)
    have b1 : -(F.modulus : Int) ≤ 2 * Sf := by
      by_contra hc
      push_neg at hc
      have : Sf < 0 := by omega
      nlinarith
    have b2 : 2 * Sf ≤ F.modulus := by
      by_contra hc
      push_neg at hc
      have : 0 < Sf := by omega
      nlinarith
    have e : toSigned F.w Sf = Sf := toSigned_eq_self _ (by omega) _ (by omega) (by omega)
    rw [k2, e, k1, Nat.gcd_comm x]
    exact ⟨rfl, b1, b2, k5⟩

theorem inv_spec (F : zmod_t) (hm : F.modulus < 2 ^ F.w) (x : Nat) (hx : x < F.modulus)
    (check : Bool) :
    F.inv x check = (if check && decide (Nat.gcd x F.modulus ≠ 1) then .error .nonInvertible
        else .ok (F.invU x)) ∧
      F.invU x < F.modulus ∧
      (x * F.invU x) % F.modulus = Nat.gcd x F.modulus % F.modulus := by
  obtain ⟨k1, k2, k3, k4⟩ := F.invLoop_top hm x hx
  have hw := F.w_pos
  have mi : (F.modulus : Int) < 2 ^ F.w := by exact_mod_cast hm
  have mpos : (0 : Int) < F.modulus := by exact_mod_cast (show 0 < F.modulus by omega)
  generalize hres : invLoop F.w (F.modulus + 1) x F.modulus 1 0 = res at k1 k2 k3 k4
  obtain ⟨a, s⟩ := res
  simp only at k1 k2 k3 k4
  -- the value returned when nothing is thrown
  have hval : ∃ r : Nat, F.newUnchecked (toUnsigned F.w
        (if s < 0 then toSigned F.w (s + F.modulus) else s)) = r ∧
      (r : Int) = (if s < 0 then s + F.modulus else s) := by
    by_cases hs : s < 0
    · simp only [hs, if_true]
      refine ⟨(s + F.modulus).toNat, ?_, ?_⟩
      · rw [toUnsigned_toSigned, toUnsigned_of_nonneg _ _ (by omega) (by omega)]
        unfold newUnchecked
        apply Nat.mod_eq_of_lt
        omega
      · rw [Int.toNat_of_nonneg (by omega)]
    · simp only [hs, if_false]
      refine ⟨s.toNat, ?_, ?_⟩
      · rw [toUnsigned_of_nonneg _ _ (by omega) (by omega)]
        unfold newUnchecked
        apply Nat.mod_eq_of_lt
        omega
      · rw [Int.toNat_of_nonneg (by omega)]
  obtain ⟨r, hr1, hr2⟩ := hval
  have hinvU : F.invU x = r := by
    unfold invU inv
    rw [hres]
    simp only [Bool.false_and, Bool.false_eq_true, if_false]
    exact hr1
  have hrlt : r < F.modulus := by
    have : (r : Int) < F.modulus := by
      rw [hr2]; split <;> omega
    exact_mod_cast this
  refine ⟨?_, ?_, ?_⟩
  · rw [hinvU]
    unfold inv
    rw [hres]
    simp only [k1, hr1]
  · rw [hinvU]; exact hrlt
  · rw [hinvU]
    have hmod : ((x * r : Nat) : Int) ≡ ((Nat.gcd x F.modulus : Nat) : Int) [ZMOD F.modulus] := by
      push_cast
      rw [hr2]
      have hs : (if s < 0 then s + (F.modulus : Int) else s) ≡ s [ZMOD F.modulus] := by
        split
        · simp [Int.ModEq]
        · rfl
      calc (x : Int) * (if s < 0 then s + (F.modulus : Int) else s)
          ≡ x * s [ZMOD F.modulus] := (Int.ModEq.refl _).mul hs
        _ = s * x := by ring
        _ ≡ _ [ZMOD F.modulus] := k4.symm
    exact (Int.natCast_modEq_iff).mp hmod

end zmod_t

/-! ## The configured fields -/

theorem configured_modulus_lt (F : zmod_t) (hF : F = Fp16 ∨ F = Fp32 ∨ F = Fp64) :
    1 < F.modulus ∧ F.modulus < 2 ^ F.w := by
  rcases hF with rfl | rfl | rfl <;> decide

/-! ## Claims on the field arithmetic -/

/-- C5 (modular inverse): for each configured pair (`uint16_t`/40961,
`uint32_t`/3221225473, `uint64_t`/4179340454199820289) and every reduced `a` coprime to
the modulus, `inv`, run with its quotient, remainder and coefficients wrapped in the
signed type of the same width, returns (checked or unchecked) the unique `s` below the
modulus with `a * s ≡ 1`. -/
theorem inv_modular_inverse (F : zmod_t) (hF : F = Fp16 ∨ F = Fp32 ∨ F = Fp64)
    (a : Nat) (ha : a < F.modulus) (hg : Nat.gcd a F.modulus = 1) :
    ∃ s, F.inv a false = .ok s ∧ F.inv a true = .ok s ∧ s < F.modulus ∧
      (a * s) % F.modulus = 1 ∧
      ∀ s', s' < F.modulus → (a * s') % F.modulus = 1 → s' = s := by
  obtain ⟨h1, hm⟩ := configured_modulus_lt F hF
  obtain ⟨e1, e2, e3⟩ := F.inv_spec hm a ha false
  obtain ⟨e4, -, -⟩ := F.inv_spec hm a ha true
  rw [hg, Nat.mod_eq_of_lt h1] at e3
  refine ⟨F.invU a, ?_, ?_, e2, e3, ?_⟩
  · simpa using e1
  · simpa [hg] using e4
  · intro s' hs' hs
    have c1 : a * s' ≡ 1 [MOD F.modulus] := by
      rw [Nat.ModEq, hs, Nat.mod_eq_of_lt h1]
    have c2 : a * F.invU a ≡ 1 [MOD F.modulus] := by
      rw [Nat.ModEq, e3, Nat.mod_eq_of_lt h1]
    have c3 : s' ≡ F.invU a [MOD F.modulus] := by
      calc s' = s' * 1 := by ring
        _ ≡ s' * (a * F.invU a) [MOD F.modulus] := (Nat.ModEq.refl _).mul c2.symm
        _ = (a * s') * F.invU a := by ring
        _ ≡ 1 * F.invU a [MOD F.modulus] := c1.mul (Nat.ModEq.refl _)
        _ = F.invU a := by ring
    exact Nat.ModEq.eq_of_lt_of_lt c3 hs' e2

theorem inv_modular_inverse_witness :
    ∃ s, Fp32.inv 3221225472 false = .ok s ∧ Fp32.inv 3221225472 true = .ok s ∧
      s < Fp32.modulus ∧ (3221225472 * s) % Fp32.modulus = 1 ∧
      ∀ s', s' < Fp32.modulus → (3221225472 * s') % Fp32.modulus = 1 → s' = s :=
  inv_modular_inverse Fp32 (Or.inr (Or.inl rfl)) 3221225472 (by decide) (by decide)

/-- C6 (checked versus unchecked inverse): for every modulus `m > 1` that fits the
representation type, prime or composite, and every reduced `a`, `inv(true)` throws
`Non-invertible element` exactly when `gcd(a, m) ≠ 1`, in particular for `a = 0`, and
`inv(false)` returns a value for every `a`. -/
theorem inv_checked_unchecked (F : zmod_t) (h1 : 1 < F.modulus) (hm : F.modulus < 2 ^ F.w)
    (a : Nat) (ha : a < F.modulus) :
    (F.inv a true = .error .nonInvertible ↔ Nat.gcd a F.modulus ≠ 1) ∧
    (Nat.gcd a F.modulus = 1 → ∃ s, F.inv a true = .ok s) ∧
    F.inv 0 true = .error .nonInvertible ∧
    ∃ s, F.inv a false = .ok s := by
  obtain ⟨e1, -, -⟩ := F.inv_spec hm a ha false
  obtain ⟨e4, -, -⟩ := F.inv_spec hm a ha true
  obtain ⟨e0, -, -⟩ := F.inv_spec hm 0 (by omega) true
  refine ⟨?_, ?_, ?_, ⟨F.invU a, by simpa using e1⟩⟩
  · rw [e4]
    by_cases hg : Nat.gcd a F.modulus = 1 <;> simp [hg]
  · intro hg
    exact ⟨F.invU a, by simpa [hg] using e4⟩
  · rw [e0]
    have : F.modulus ≠ 1 := by omega
    simp [this]

theorem inv_checked_unchecked_witness :
    (zmod_t.inv ⟨.u8, 15⟩ 6 true = .error .nonInvertible ↔ Nat.gcd 6 15 ≠ 1) ∧
    (Nat.gcd 6 15 = 1 → ∃ s, zmod_t.inv ⟨.u8, 15⟩ 6 true = .ok s) ∧
    zmod_t.inv ⟨.u8, 15⟩ 0 true = .error .nonInvertible ∧
    ∃ s, zmod_t.inv ⟨.u8, 15⟩ 6 false = .ok s :=
  inv_checked_unchecked ⟨.u8, 15⟩ (by decide) (by decide) 6 (by decide)

/-- C7 (field operations agree with Z/pZ): for each configured pair and reduced `a`, `b`,
the machine results of `a + b`, `a - b`, `-a`, `a * b` are the representatives in
`[0, p)` of `(a+b) mod p`, `(a-b) mod p`, `(-a) mod p`, `(a*b) mod p`, and
`a - b == a + (-b)`. -/
theorem field_ops_agree (F : zmod_t) (hF : F = Fp16 ∨ F = Fp32 ∨ F = Fp64)
    (a b : Nat) (ha : a < F.modulus) (hb : b < F.modulus) :
    F.add a b = (a + b) % F.modulus ∧
    ((F.sub a b : Nat) : Int) = ((a : Int) - (b : Int)) % (F.modulus : Int) ∧
    ((F.neg a : Nat) : Int) = (-(a : Int)) % (F.modulus : Int) ∧
    F.mul a b = (a * b) % F.modulus ∧
    F.sub a b = F.add a (F.neg b) := by
  obtain ⟨h1, hm⟩ := configured_modulus_lt F hF
  have hs := F.sub_eq hm a b ha hb
  have hn := F.neg_eq hm a ha
  have hnb := F.neg_eq hm b hb
  have hnlt : F.neg b < F.modulus := by rw [hnb]; exact Nat.mod_lt _ (by omega)
  refine ⟨F.add_eq hm a b ha hb, ?_, ?_, F.mul_eq hm a b ha hb, ?_⟩
  · rw [hs]
    have : ((a + F.modulus - b : Nat) : Int) = (a : Int) - b + F.modulus := by omega
    push_cast
    rw [this, Int.add_emod_self]
  · rw [hn]
    have : ((F.modulus - a : Nat) : Int) = -(a : Int) + F.modulus := by omega
    push_cast
    rw [this, Int.add_emod_self]
  · rw [hs, F.add_eq hm a _ ha hnlt, hnb]
    have e : a + F.modulus - b = a + (F.modulus - b) := by omega
    rw [e]
    exact (Nat.ModEq.refl a).add (Nat.mod_modEq _ _).symm

theorem field_ops_agree_witness :
    Fp16.add 40000 30000 = (40000 + 30000) % Fp16.modulus ∧
    ((Fp16.sub 40000 30000 : Nat) : Int)
      = ((40000 : Int) - (30000 : Int)) % (Fp16.modulus : Int) ∧
    ((Fp16.neg 40000 : Nat) : Int) = (-(40000 : Int)) % (Fp16.modulus : Int) ∧
    Fp16.mul 40000 30000 = (40000 * 30000) % Fp16.modulus ∧
    Fp16.sub 40000 30000 = Fp16.add 40000 (Fp16.neg 30000) :=
  field_ops_agree Fp16 (Or.inl rfl) 40000 30000 (by decide) (by decide)

/-- C8 (power): for every modulus `p > 1` that fits the representation type, every
reduced `a` and every exponent `n`, `pow(a, n)` is `a ^ n mod p`; `pow(a, 0) = 1` for
every `a`, also `a = 0`. -/
theorem pow_is_power (F : zmod_t) (h1 : 1 < F.modulus) (hm : F.modulus < 2 ^ F.w)
    (a n : Nat) (ha : a < F.modulus) :
    F.pow a n = a ^ n % F.modulus ∧ F.pow a 0 = 1 ∧ F.pow 0 0 = 1 := by
  refine ⟨F.pow_eq hm a n ha, ?_, ?_⟩
  · rw [F.pow_eq hm a 0 ha, pow_zero, Nat.mod_eq_of_lt h1]
  · rw [F.pow_eq hm 0 0 (by omega), pow_zero, Nat.mod_eq_of_lt h1]

theorem pow_is_power_witness :
    Fp64.pow 21 (2 ^ 57) = 21 ^ (2 ^ 57) % Fp64.modulus ∧ Fp64.pow 21 0 = 1 ∧
      Fp64.pow 0 0 = 1 :=
  pow_is_power Fp64 (by decide) (by decide) 21 (2 ^ 57) (by decide)

/-- C9 (reduced-value invariant): for each configured pair, the stored value is below
the modulus after construction from any value of the representation type and, for
reduced operands, after `+`, `-`, unary `-`, `*`, `/`, `inv` (checked or unchecked,
also on `0`) and `pow`. -/
theorem reduced_invariant (F : zmod_t) (hF : F = Fp16 ∨ F = Fp32 ∨ F = Fp64)
    (a b : Nat) (ha : a < F.modulus) (hb : b < F.modulus) :
    (∀ v, v < 2 ^ F.w → F.ofRep v < F.modulus) ∧
    F.add a b < F.modulus ∧ F.sub a b < F.modulus ∧ F.neg a < F.modulus ∧
    F.mul a b < F.modulus ∧ F.div a b < F.modulus ∧
    (∃ s, F.inv a false = .ok s ∧ s < F.modulus) ∧
    (∀ s, F.inv a true = .ok s → s < F.modulus) ∧
    (∃ s, F.inv 0 false = .ok s ∧ s < F.modulus) ∧
    (∀ n, F.pow a n < F.modulus) := by
  obtain ⟨h1, hm⟩ := configured_modulus_lt F hF
  have hpos : 0 < F.modulus := by omega
  have hinv : ∀ y, y < F.modulus → F.invU y < F.modulus :=
    fun y hy => (F.inv_spec hm y hy false).2.1
  refine ⟨?_, ?_, ?_, ?_, ?_, ?_, ?_, ?_, ?_, ?_⟩
  · intro v _
    rw [zmod_t.ofRep_eq]; exact Nat.mod_lt _ hpos
  · rw [F.add_eq hm a b ha hb]; exact Nat.mod_lt _ hpos
  · rw [F.sub_eq hm a b ha hb]; exact Nat.mod_lt _ hpos
  · rw [F.neg_eq hm a ha]; exact Nat.mod_lt _ hpos
  · rw [F.mul_eq hm a b ha hb]; exact Nat.mod_lt _ hpos
  · unfold zmod_t.div
    rw [F.mul_eq hm a _ ha (hinv b hb)]; exact Nat.mod_lt _ hpos
  · obtain ⟨e1, e2, -⟩ := F.inv_spec hm a ha false
    exact ⟨F.invU a, by simpa using e1, e2⟩
  · intro s hs
    obtain ⟨e1, e2, -⟩ := F.inv_spec hm a ha true
    rw [e1] at hs
    split at hs
    · cases hs
    · cases hs; exact e2
  · obtain ⟨e1, e2, -⟩ := F.inv_spec hm 0 hpos false
    exact ⟨F.invU 0, by simpa using e1, e2⟩
  · intro n
    rw [F.pow_eq hm a n ha]; exact Nat.mod_lt _ hpos

theorem reduced_invariant_witness :
    (∀ v, v < 2 ^ Fp32.w → Fp32.ofRep v < Fp32.modulus) ∧
    Fp32.add 3221225472 7 < Fp32.modulus ∧ Fp32.sub 3221225472 7 < Fp32.modulus ∧
    Fp32.neg 3221225472 < Fp32.modulus ∧
    Fp32.mul 3221225472 7 < Fp32.modulus ∧ Fp32.div 3221225472 7 < Fp32.modulus ∧
    (∃ s, Fp32.inv 3221225472 false = .ok s ∧ s < Fp32.modulus) ∧
    (∀ s, Fp32.inv 3221225472 true = .ok s → s < Fp32.modulus) ∧
    (∃ s, Fp32.inv 0 false = .ok s ∧ s < Fp32.modulus) ∧
    (∀ n, Fp32.pow 3221225472 n < Fp32.modulus) :=
  reduced_invariant Fp32 (Or.inr (Or.inl rfl)) 3221225472 7 (by decide) (by decide)

/-! ## Sequences: reads and in-place writes -/

theorem getD_set (x : List Nat) (i j v : Nat) :
    (x.set i v).getD j 0 = if i = j ∧ i < x.length then v else x.getD j 0 := by
  simp only [List.getD_eq_getElem?_getD, List.getElem?_set]
  by_cases h : i = j
  · subst h
    by_cases h2 : i < x.length
    · simp [h2]
    · simp [h2, List.getElem?_eq_none (Nat.not_lt.mp h2)]
  · simp [h]

theorem list_ext_getD (x y : List Nat) (hl : x.length = y.length)
    (h : ∀ i, i < x.length → x.getD i 0 = y.getD i 0) : x = y := by
  apply List.ext_getElem hl
  intro i h1 h2
  have := h i h1
  simp only [List.getD_eq_getElem?_getD] at this
  rw [List.getElem?_eq_getElem h1, List.getElem?_eq_getElem h2] at this
  simpa using this

/-! ## `ceilLg` on powers of two -/

theorem ceilLgLoop_zero (fuel i ls ns : Nat) : ceilLgLoop fuel i 0 ls ns = (ls, ns) := by
  cases fuel <;> simp [ceilLgLoop]

theorem ceilLgLoop_two_pow : ∀ (t fuel i ls : Nat), t + 1 ≤ fuel →
    ceilLgLoop fuel i (2 ^ t) ls 0 = (i + t, 1) := by
  intro t
  induction t with
  | zero =>
    intro fuel i ls h
    obtain ⟨f, rfl⟩ : ∃ f, fuel = f + 1 := ⟨fuel - 1, by omega⟩
    simp [ceilLgLoop, ceilLgLoop_zero]
  | succ t ih =>
    intro fuel i ls h
    obtain ⟨f, rfl⟩ : ∃ f, fuel = f + 1 := ⟨fuel - 1, by omega⟩
    have h0 : (2 : Nat) ^ (t + 1) ≠ 0 := by positivity
    have h1 : (2 : Nat) ^ (t + 1) % 2 = 0 := by rw [pow_succ]; simp
    have h2 : (2 : Nat) ^ (t + 1) / 2 = 2 ^ t := by rw [pow_succ]; simp
    rw [ceilLgLoop]
    simp only [h0, h1, h2, ne_eq, not_false_eq_true, if_true]
    rw [if_neg (by decide), ih f (i + 1) ls (by omega)]
    congr 1
    omega

theorem ceilLg_two_pow (t : Nat) : ceilLg (2 ^ t) = t := by
  unfold ceilLg
  have hlt : t + 1 ≤ 2 ^ t := Nat.lt_two_pow t
  rw [ceilLgLoop_two_pow t (2 ^ t) 0 0 hlt]
  simp

/-! ## Bit reversal -/

theorem lor_bit (e b : Nat) (hb : b < 2) : (e * 2) ||| b = e * 2 + b := by
  have := Nat.mul_add_lt_is_or (i := 1) (b := b) (by simpa using hb) e
  simp only [pow_one] at this
  rw [Nat.mul_comm e 2]
  exact this.symm

/-- Without wrap-around the accumulator is shifted above the reversed bits. -/
theorem bitReverseLoop_acc (W : Nat) : ∀ (nb j r : Nat), nb ≤ W → r < 2 ^ (W - nb) →
    bitReverseLoop W nb j r = r * 2 ^ nb + bitReverseLoop W nb j 0 := by
  intro nb
  induction nb with
  | zero => intro j r _ _; simp [bitReverseLoop]
  | succ nb ih =>
    intro j r hnb hr
    have hj : j % 2 < 2 := Nat.mod_lt _ (by decide)
    have hpow : 2 ^ (W - nb) = 2 * 2 ^ (W - (nb + 1)) := by
      rw [← pow_succ']
      congr 1
      omega
    have hW : 2 ^ (W - nb) ≤ 2 ^ W := Nat.pow_le_pow_right (by decide) (by omega)
    have hpos : 0 < 2 ^ (W - (nb + 1)) := by positivity
    have e1 : (r * 2) % 2 ^ W = r * 2 := Nat.mod_eq_of_lt (by omega)
    have e0 : (0 * 2) % 2 ^ W = 0 * 2 := by simp
    rw [bitReverseLoop, bitReverseLoop, e1, e0, lor_bit r _ hj, lor_bit 0 _ hj]
    rw [ih (j / 2) (r * 2 + j % 2) (by omega) (by omega)]
    rw [ih (j / 2) (0 * 2 + j % 2) (by omega) (by omega)]
    rw [pow_succ]
    ring

theorem bitReverse_zero (W j : Nat) : bitReverse W j 0 = 0 := rfl

theorem bitReverse_succ (W nb j : Nat) (h : nb + 1 ≤ W) :
    bitReverse W j (nb + 1) = (j % 2) * 2 ^ nb + bitReverse W (j / 2) nb := by
  have hj : j % 2 < 2 := Nat.mod_lt _ (by decide)
  unfold bitReverse
  rw [bitReverseLoop]
  have e0 : (0 * 2) % 2 ^ W = 0 * 2 := by simp
  rw [e0, lor_bit 0 _ hj]
  have hpow : 2 ≤ 2 ^ (W - nb) := by
    calc 2 = 2 ^ 1 := by norm_num
      _ ≤ 2 ^ (W - nb) := Nat.pow_le_pow_right (by decide) (by omega)
  rw [bitReverseLoop_acc W nb (j / 2) (0 * 2 + j % 2) (by omega) (by omega)]
  simp

theorem bitReverse_lt (W : Nat) : ∀ (nb j : Nat), nb ≤ W → bitReverse W j nb < 2 ^ nb := by
  intro nb
  induction nb with
  | zero => intro j _; simp [bitReverse_zero]
  | succ nb ih =>
    intro j h
    rw [bitReverse_succ W nb j h]
    have := ih (j / 2) (by omega)
    have hj : j % 2 < 2 := Nat.mod_lt _ (by decide)
    rw [pow_succ]
    have : j % 2 * 2 ^ nb ≤ 1 * 2 ^ nb := Nat.mul_le_mul_right _ (by omega)
    omega

theorem bitReverse_even (W nb a : Nat) (h : nb + 1 ≤ W) :
    bitReverse W (2 * a) (nb + 1) = bitReverse W a nb := by
  rw [bitReverse_succ W nb _ h]
  simp

theorem bitReverse_odd (W nb a : Nat) (h : nb + 1 ≤ W) :
    bitReverse W (2 * a + 1) (nb + 1) = 2 ^ nb + bitReverse W a nb := by
  rw [bitReverse_succ W nb _ h]
  have e1 : (2 * a + 1) % 2 = 1 := by omega
  have e2 : (2 * a + 1) / 2 = a := by omega
  rw [e1, e2]
  simp

/-- The top bit of the argument becomes the lowest bit of the result. -/
theorem bitReverse_high (W : Nat) : ∀ (nb a b : Nat), nb + 1 ≤ W → a < 2 ^ nb →
    bitReverse W (a + 2 ^ nb * b) (nb + 1) = 2 * bitReverse W a nb + b % 2 := by
  intro nb
  induction nb with
  | zero =>
    intro a b h ha
    have : a = 0 := by simpa using ha
    subst this
    rw [bitReverse_succ W 0 _ h]
    simp [bitReverse_zero]
  | succ nb ih =>
    intro a b h ha
    rw [bitReverse_succ W (nb + 1) _ h, bitReverse_succ W nb a (by omega)]
    have e0 : a + 2 ^ (nb + 1) * b = a + 2 * (2 ^ nb * b) := by
      rw [pow_succ]; ring
    have e1 : (a + 2 ^ (nb + 1) * b) % 2 = a % 2 := by
      rw [e0]; omega
    have e2 : (a + 2 ^ (nb + 1) * b) / 2 = a / 2 + 2 ^ nb * b := by
      rw [e0]; omega
    have ha2 : a / 2 < 2 ^ nb := by
      rw [pow_succ] at ha; omega
    rw [e1, e2, ih (a / 2) b (by omega) ha2, pow_succ]
    ring

theorem bitReverse_involutive (W : Nat) : ∀ (nb a : Nat), nb ≤ W → a < 2 ^ nb →
    bitReverse W (bitReverse W a nb) nb = a := by
  intro nb
  induction nb with
  | zero =>
    intro a _ ha
    have : a = 0 := by simpa using ha
    subst this
    rfl
  | succ nb ih =>
    intro a h ha
    have ha2 : a / 2 < 2 ^ nb := by
      rw [pow_succ] at ha; omega
    have hlt := bitReverse_lt W nb (a / 2) (by omega)
    rw [bitReverse_succ W nb a h]
    have e : a % 2 * 2 ^ nb + bitReverse W (a / 2) nb
        = bitReverse W (a / 2) nb + 2 ^ nb * (a % 2) := by ring
    rw [e, bitReverse_high W nb _ _ h hlt, ih (a / 2) (by omega) ha2]
    omega

/-! ## The bit-reversal permutation -/

theorem permuteStep_length (t : Nat) (x : List Nat) (k : Nat) :
    (permuteStep t x k).length = x.length := by
  by_cases h : bitReverse 64 k t > k <;> simp [permuteStep, h]

theorem permute_loop_inv (t : Nat) (ht : t ≤ 64) (x : List Nat) (hn : x.length = 2 ^ t) :
    ∀ K, K ≤ 2 ^ t →
      ((List.range K).foldl (permuteStep t) x).length = 2 ^ t ∧
      ∀ i, i < 2 ^ t → ((List.range K).foldl (permuteStep t) x).getD i 0
        = if i < K ∨ bitReverse 64 i t < K then x.getD (bitReverse 64 i t) 0
          else x.getD i 0 := by
  intro K
  induction K with
  | zero =>
    intro _
    simp [hn]
  | succ K ih =>
    intro hK
    obtain ⟨hlen, hget⟩ := ih (by omega)
    rw [List.range_succ, List.foldl_append]
    simp only [List.foldl_cons, List.foldl_nil]
    generalize (List.range K).foldl (permuteStep t) x = y at hlen hget ⊢
    refine ⟨by rw [permuteStep_length, hlen], ?_⟩
    intro i hi
    have hKlt : K < 2 ^ t := by omega
    have hBK : bitReverse 64 K t < 2 ^ t := bitReverse_lt 64 t K ht
    have hBBK : bitReverse 64 (bitReverse 64 K t) t = K := bitReverse_involutive 64 t K ht hKlt
    have hBBi : bitReverse 64 (bitReverse 64 i t) t = i := bitReverse_involutive 64 t i ht hi
    have hyK := hget K hKlt
    have hyB := hget _ hBK
    have hyi := hget i hi
    rw [hBBK] at hyB
    unfold permuteStep
    by_cases hgt : bitReverse 64 K t > K
    · simp only [hgt, if_true]
      rw [getD_set, getD_set, List.length_set, hlen]
      rw [if_neg (by omega)] at hyK
      rw [if_neg (by omega)] at hyB
      by_cases h1 : K = i
      · subst h1
        rw [if_pos ⟨rfl, hKlt⟩, hyB, if_pos (Or.inl (by omega))]
      · rw [if_neg (by tauto)]
        by_cases h2 : bitReverse 64 K t = i
        · rw [if_pos ⟨h2, hBK⟩, hyK]
          subst h2
          rw [hBBK, if_pos (Or.inr (by omega))]
        · rw [if_neg (by tauto), hyi]
          have h3 : bitReverse 64 i t ≠ K := by
            intro h; apply h2; rw [← h, hBBi]
          by_cases hc : i < K ∨ bitReverse 64 i t < K
          · rw [if_pos hc, if_pos (by omega)]
          · rw [if_neg hc, if_neg (by omega)]
    · simp only [hgt, if_false]
      rw [hyi]
      by_cases h1 : K = i
      · subst h1
        by_cases h4 : bitReverse 64 K t = K
        · rw [h4]; simp
        · rw [if_pos (Or.inr (by omega)), if_pos (Or.inl (by omega))]
      · have h3 : bitReverse 64 i t = K → i < K := by
          intro h
          have : i = bitReverse 64 K t := by rw [← h, hBBi]
          omega
        by_cases hc : i < K ∨ bitReverse 64 i t < K
        · rw [if_pos hc, if_pos (by omega)]
        · rw [if_neg hc, if_neg]
          intro h
          apply hc
          rcases h with h | h
          · left; omega
          · by_cases h5 : bitReverse 64 i t = K
            · left; exact h3 h5
            · right; omega

/-- `permute` places at slot `i` the element of slot `bitReverse(i, t)`. -/
theorem permute_spec (t : Nat) (ht : t ≤ 64) (x : List Nat) (hn : x.length = 2 ^ t) :
    (permute x).length = 2 ^ t ∧
    ∀ i, i < 2 ^ t → (permute x).getD i 0 = x.getD (bitReverse 64 i t) 0 := by
  unfold permute
  simp only [hn, ceilLg_two_pow]
  obtain ⟨h1, h2⟩ := permute_loop_inv t ht x hn (2 ^ t) le_rfl
  refine ⟨h1, ?_⟩
  intro i hi
  rw [h2 i hi, if_pos (Or.inl hi)]

/-- C4 (permutation involution): for every sequence whose length is a power of two
(a `size_t`), applying `permute` twice returns every slot to its original element. -/
theorem permute_involution (x : List Nat) (t : Nat) (hn : x.length = 2 ^ t)
    (hsize : x.length < 2 ^ 64) : permute (permute x) = x := by
  have ht : t ≤ 64 := by
    rw [hn] at hsize
    have := (Nat.pow_lt_pow_iff_right (a := 2) (by decide)).mp hsize
    omega
  obtain ⟨h1, h2⟩ := permute_spec t ht x hn
  obtain ⟨h3, h4⟩ := permute_spec t ht (permute x) h1
  apply list_ext_getD
  · rw [h3, hn]
  · intro i hi
    rw [h3] at hi
    rw [h4 i hi, h2 _ (bitReverse_lt 64 t i ht), bitReverse_involutive 64 t i ht hi]

theorem permute_involution_witness :
    permute (permute [10, 11, 12, 13, 14, 15, 16, 17]) = [10, 11, 12, 13, 14, 15, 16, 17] :=
  permute_involution [10, 11, 12, 13, 14, 15, 16, 17] 3 (by decide) (by decide)

/-! ## Butterflies -/

theorem butterfly_length (F : zmod_t) (w i h : Nat) (x : List Nat) :
    (butterfly F w i h x).length = x.length := by
  simp [butterfly]

theorem butterfly_getD (F : zmod_t) (w i h : Nat) (x : List Nat) (p : Nat) (hh : 0 < h) :
    (butterfly F w i h x).getD p 0 =
      if p = i ∧ i < x.length then F.add (x.getD i 0) (F.mul w (x.getD (i + h) 0))
      else if p = i + h ∧ i + h < x.length then
        F.sub (x.getD i 0) (F.mul w (x.getD (i + h) 0))
      else x.getD p 0 := by
  unfold butterfly
  simp only [getD_set, List.length_set]
  split_ifs <;> first | rfl | omega

/-- Butterflies on disjoint pairs of slots commute. -/
theorem butterfly_comm (F : zmod_t) (w w' i i' h : Nat) (x : List Nat)
    (hh : 0 < h) (d1 : i ≠ i') (d2 : i ≠ i' + h) (d3 : i + h ≠ i') :
    butterfly F w i h (butterfly F w' i' h x) = butterfly F w' i' h (butterfly F w i h x) := by
  apply list_ext_getD
  · simp [butterfly_length]
  · intro p _
    have f1 : (i = i') = False := eq_false d1
    have f2 : (i = i' + h) = False := eq_false d2
    have f3 : (i + h = i') = False := eq_false d3
    have f4 : (i + h = i' + h) = False := eq_false (by omega)
    have f5 : (i' = i) = False := eq_false (Ne.symm d1)
    have f6 : (i' + h = i) = False := eq_false (Ne.symm d2)
    have f7 : (i' = i + h) = False := eq_false (Ne.symm d3)
    have f8 : (i' + h = i + h) = False := eq_false (by omega)
    simp only [butterfly_getD _ _ _ _ _ _ hh, butterfly_length, f1, f2, f3, f4, f5, f6, f7, f8,
      false_and, if_false]
    split_ifs <;> first | rfl | omega

/-! ## The two loop orders of a stage -/

theorem foldl_product {α β σ : Type} (g : σ → α × β → σ) (l1 : List α) (l2 : List β) :
    ∀ x : σ, (l1 ×ˢ l2).foldl g x
      = l1.foldl (fun y a => l2.foldl (fun y b => g y (a, b)) y) x := by
  induction l1 with
  | nil => intro x; rfl
  | cons a l1 ih =>
    intro x
    rw [List.product_cons, List.foldl_append, List.foldl_map, ih]
    rfl

/-- A `j` loop that carries `omegaPow` in its state computes the same sequence as the
loop that is handed `omegaPowAt j`. -/
theorem foldl_omegaPow (F : zmod_t) (omegaStep : Nat) (body : Nat → Nat → List Nat → List Nat)
    (x : List Nat) : ∀ J,
    (List.range J).foldl (fun (st : Nat × List Nat) j =>
        ((if j > 0 then F.mul st.1 omegaStep else st.1),
          body (if j > 0 then F.mul st.1 omegaStep else st.1) j st.2)) (F.ofRep 1, x)
      = (omegaPowAt F omegaStep (J - 1),
          (List.range J).foldl (fun y j => body (omegaPowAt F omegaStep j) j y) x) := by
  intro J
  induction J with
  | zero => rfl
  | succ J ih =>
    rw [List.range_succ, List.foldl_append, List.foldl_append, ih]
    simp only [List.foldl_cons, List.foldl_nil]
    cases J with
    | zero => rfl
    | succ J =>
      simp only [Nat.succ_pos, gt_iff_lt, if_true, Nat.add_sub_cancel]
      rfl

theorem stage1_eq_product (F : zmod_t) (omega n L : Nat) (x : List Nat) :
    stage1 F omega n L x
      = ((List.range (L / 2)) ×ˢ (List.range (n / L))).foldl
          (stageOp F (F.pow omega ((n / L) % 2 ^ F.w)) L) x := by
  unfold stage1
  simp only []
  rw [foldl_omegaPow F _ (fun w j y => (List.range (n / L)).foldl
    (fun y k => butterfly F w (k * L + j) (L / 2) y) y), foldl_product]
  rfl

theorem stage2_eq_product (F : zmod_t) (omega n L : Nat) (x : List Nat) :
    stage2 F omega n L x
      = (((List.range (n / L)) ×ˢ (List.range (L / 2))).map Prod.swap).foldl
          (stageOp F (F.pow omega ((n / L) % 2 ^ F.w)) L) x := by
  unfold stage2
  simp only []
  rw [List.foldl_map, foldl_product]
  congr 1
  funext y k
  rw [foldl_omegaPow F _ (fun w j y => butterfly F w (k * L + j) (L / 2) y)]
  rfl

theorem stage_pairs_perm (h r : Nat) :
    List.Perm ((List.range h) ×ˢ (List.range r))
      (((List.range r) ×ˢ (List.range h)).map Prod.swap) := by
  rw [List.perm_ext_iff_of_nodup]
  · intro p
    obtain ⟨j, k⟩ := p
    simp only [List.mem_product, List.mem_range, List.mem_map, Prod.exists, Prod.swap_prod_mk,
      Prod.mk.injEq]
    constructor
    · intro hp
      exact ⟨k, j, ⟨hp.2, hp.1⟩, rfl, rfl⟩
    · rintro ⟨a, b, ⟨h1, h2⟩, rfl, rfl⟩
      exact ⟨h2, h1⟩
  · exact (List.nodup_range h).product (List.nodup_range r)
  · exact ((List.nodup_range r).product (List.nodup_range h)).map Prod.swap_injective

theorem stageOp_comm (F : zmod_t) (omegaStep L : Nat) (p p' : Nat × Nat)
    (hp : p.1 < L / 2) (hp' : p'.1 < L / 2) (z : List Nat) :
    stageOp F omegaStep L (stageOp F omegaStep L z p) p'
      = stageOp F omegaStep L (stageOp F omegaStep L z p') p := by
  obtain ⟨j, k⟩ := p
  obtain ⟨j', k'⟩ := p'
  simp only at hp hp'
  by_cases he : j = j' ∧ k = k'
  · obtain ⟨rfl, rfl⟩ := he
    rfl
  · unfold stageOp
    simp only []
    have hL : 2 * (L / 2) ≤ L := by omega
    have sep : ∀ a b : Nat, a < b → a * L + L ≤ b * L := by
      intro a b hab
      calc a * L + L = (a + 1) * L := by ring
        _ ≤ b * L := Nat.mul_le_mul_right _ hab
    apply butterfly_comm F _ _ _ _ _ z (by omega)
    · intro h
      rcases Nat.lt_trichotomy k k' with hk | hk | hk
      · have := sep k k' hk; omega
      · subst hk; omega
      · have := sep k' k hk; omega
    · intro h
      rcases Nat.lt_trichotomy k k' with hk | hk | hk
      · have := sep k k' hk; omega
      · subst hk; omega
      · have := sep k' k hk; omega
    · intro h
      rcases Nat.lt_trichotomy k k' with hk | hk | hk
      · have := sep k k' hk; omega
      · subst hk; omega
      · have := sep k' k hk; omega

/-- One stage of `forwardFFT1` and one stage of `forwardFFT2` compute the same
sequence, whatever the values of `L`, `n` and `omega`. -/
theorem stage1_eq_stage2 (F : zmod_t) (omega n L : Nat) (x : List Nat) :
    stage1 F omega n L x = stage2 F omega n L x := by
  rw [stage1_eq_product, stage2_eq_product]
  apply List.Perm.foldl_eq' (stage_pairs_perm _ _)
  intro p hp p' hp' z
  rw [List.mem_product, List.mem_range] at hp hp'
  exact stageOp_comm F _ L p p' hp.1 hp'.1 z

theorem stageLoop_congr (s1 s2 : Nat → List Nat → List Nat) (h : ∀ L x, s1 L x = s2 L x) :
    ∀ cnt q x, stageLoop s1 cnt q x = stageLoop s2 cnt q x := by
  intro cnt
  induction cnt with
  | zero => intro q x; rfl
  | succ cnt ih =>
    intro q x
    unfold stageLoop
    cases shlInt q with
    | none => rfl
    | some L => simp only [h, ih]

theorem forwardFFT1_eq_forwardFFT2 (F : zmod_t) (x : List Nat) (omega : Nat) (check : Bool) :
    forwardFFT1 F x omega check = forwardFFT2 F x omega check := by
  unfold forwardFFT1 forwardFFT2
  simp only []
  cases (if check = true then checkParameters F x.length (ceilLg x.length) omega else none) with
  | some e => rfl
  | none => exact stageLoop_congr _ _ (stage1_eq_stage2 F omega x.length) _ _ _

/-- C3 (variant equivalence): for every sequence `x` and every `omega`, with no
assumption on the length or on the order of `omega`, `forwardFFT1(x, omega, false)`
and `forwardFFT2(x, omega, false)` end in the same state: the same contents in every
slot and the same outcome. -/
theorem forwardFFT_variants_agree (F : zmod_t) (x : List Nat) (omega : Nat) :
    forwardFFT1 F x omega false = forwardFFT2 F x omega false := by
  unfold forwardFFT1 forwardFFT2
  simp only [Bool.false_eq_true, if_false]
  exact stageLoop_congr _ _ (stage1_eq_stage2 F omega x.length) _ _ _

/-! ## What one stage computes -/

theorem stage_index_low (h k j : Nat) (hj : j < h) :
    (k * (2 * h) + j) % (2 * h) = j ∧ (k * (2 * h) + j) / (2 * h) = k := by
  have h2 : j < 2 * h := by omega
  constructor
  · rw [Nat.add_comm, Nat.add_mul_mod_self_right, Nat.mod_eq_of_lt h2]
  · rw [Nat.add_comm, Nat.add_mul_div_right _ _ (by omega : 0 < 2 * h), Nat.div_eq_of_lt h2]
    simp

theorem stage_index_high (h k j : Nat) (hj : j < h) :
    (k * (2 * h) + j + h) % (2 * h) = j + h ∧ (k * (2 * h) + j + h) / (2 * h) = k := by
  have h2 : j + h < 2 * h := by omega
  have e : k * (2 * h) + j + h = (j + h) + k * (2 * h) := by ring
  constructor
  · rw [e, Nat.add_mul_mod_self_right, Nat.mod_eq_of_lt h2]
  · rw [e, Nat.add_mul_div_right _ _ (by omega : 0 < 2 * h), Nat.div_eq_of_lt h2]
    simp

/-- After any duplicate-free list of butterflies of one stage, a slot of a processed
pair holds the butterfly of the original values and every other slot is unchanged. -/
theorem foldl_stageOp_getD (F : zmod_t) (s h : Nat) (hh : 0 < h) (x : List Nat) :
    ∀ ops : List (Nat × Nat), ops.Nodup →
      (∀ p ∈ ops, p.1 < h ∧ (p.2 + 1) * (2 * h) ≤ x.length) →
      (ops.foldl (stageOp F s (2 * h)) x).length = x.length ∧
      ∀ pos, (ops.foldl (stageOp F s (2 * h)) x).getD pos 0 =
        if pos % (2 * h) < h ∧ (pos % (2 * h), pos / (2 * h)) ∈ ops then
          F.add (x.getD pos 0) (F.mul (omegaPowAt F s (pos % (2 * h))) (x.getD (pos + h) 0))
        else if h ≤ pos % (2 * h) ∧ (pos % (2 * h) - h, pos / (2 * h)) ∈ ops then
          F.sub (x.getD (pos - h) 0)
            (F.mul (omegaPowAt F s (pos % (2 * h) - h)) (x.getD pos 0))
        else x.getD pos 0 := by
  intro ops
  induction ops using List.reverseRecOn with
  | nil =>
    intro _ _
    simp
  | append_singleton l p ih =>
    intro hnd hops
    obtain ⟨j, k⟩ := p
    have hnd' := List.nodup_append.mp hnd
    have hpl : (j, k) ∉ l := by
      intro hmem
      exact hnd'.2.2 hmem (List.mem_singleton_self _)
    obtain ⟨hlen, hget⟩ := ih hnd'.1 (fun q hq => hops q (List.mem_append_left _ hq))
    obtain ⟨hj, hk⟩ := hops (j, k) (List.mem_append_right _ (List.mem_singleton_self _))
    simp only at hj hk
    rw [List.foldl_append]
    simp only [List.foldl_cons, List.foldl_nil]
    generalize l.foldl (stageOp F s (2 * h)) x = y at hlen hget ⊢
    have hhalf : 2 * h / 2 = h := by omega
    have hi2 : k * (2 * h) + j + h < x.length := by
      have : (k + 1) * (2 * h) = k * (2 * h) + 2 * h := by ring
      omega
    obtain ⟨lo1, lo2⟩ := stage_index_low h k j hj
    obtain ⟨hi1, hi3⟩ := stage_index_high h k j hj
    have ylow : y.getD (k * (2 * h) + j) 0 = x.getD (k * (2 * h) + j) 0 := by
      rw [hget, lo1, lo2, if_neg (by tauto), if_neg (by omega)]
    have yhigh : y.getD (k * (2 * h) + j + h) 0 = x.getD (k * (2 * h) + j + h) 0 := by
      rw [hget, hi1, hi3, if_neg (by omega), if_neg]
      rintro ⟨-, hmem⟩
      apply hpl
      have : j + h - h = j := by omega
      rwa [this] at hmem
    refine ⟨by simp [stageOp, butterfly_length, hlen], ?_⟩
    intro pos
    unfold stageOp
    simp only [hhalf]
    rw [butterfly_getD F _ _ h y pos hh, hlen, ylow, yhigh]
    have hdecomp : pos = pos / (2 * h) * (2 * h) + pos % (2 * h) := by
      rw [Nat.mul_comm]; exact (Nat.div_add_mod pos (2 * h)).symm
    by_cases p1 : pos = k * (2 * h) + j
    · subst p1
      rw [if_pos ⟨rfl, by omega⟩, lo1, lo2, if_pos ⟨hj, by simp⟩]
    · rw [if_neg (by tauto)]
      by_cases p2 : pos = k * (2 * h) + j + h
      · subst p2
        rw [if_pos ⟨rfl, hi2⟩, hi1, hi3, if_neg (by omega), if_pos ⟨by omega, by simp⟩]
        have e1 : j + h - h = j := by omega
        have e2 : k * (2 * h) + j + h - h = k * (2 * h) + j := by omega
        rw [e1, e2]
      · rw [if_neg (by tauto), hget]
        have m1 : (pos % (2 * h), pos / (2 * h)) ≠ (j, k) ∨ ¬ pos % (2 * h) < h := by
          by_cases hc : pos % (2 * h) < h
          · left
            intro he
            rw [Prod.mk.injEq] at he
            apply p1
            rw [← he.1, ← he.2]
            exact hdecomp
          · right; exact hc
        have m2 : (pos % (2 * h) - h, pos / (2 * h)) ≠ (j, k) ∨ ¬ h ≤ pos % (2 * h) := by
          by_cases hc : h ≤ pos % (2 * h)
          · left
            intro he
            rw [Prod.mk.injEq] at he
            apply p2
            have : pos % (2 * h) = j + h := by omega
            rw [← he.2, Nat.add_assoc, ← this]
            exact hdecomp
          · right; exact hc
        have c1 : (pos % (2 * h) < h ∧ (pos % (2 * h), pos / (2 * h)) ∈ l ++ [(j, k)])
            ↔ (pos % (2 * h) < h ∧ (pos % (2 * h), pos / (2 * h)) ∈ l) := by
          constructor
          · rintro ⟨a, b⟩
            refine ⟨a, ?_⟩
            rcases List.mem_append.mp b with b | b
            · exact b
            · rw [List.mem_singleton] at b
              rcases m1 with m | m
              · exact absurd b m
              · exact absurd a m
          · rintro ⟨a, b⟩
            exact ⟨a, List.mem_append_left _ b⟩
        have c2 : (h ≤ pos % (2 * h) ∧ (pos % (2 * h) - h, pos / (2 * h)) ∈ l ++ [(j, k)])
            ↔ (h ≤ pos % (2 * h) ∧ (pos % (2 * h) - h, pos / (2 * h)) ∈ l) := by
          constructor
          · rintro ⟨a, b⟩
            refine ⟨a, ?_⟩
            rcases List.mem_append.mp b with b | b
            · exact b
            · rw [List.mem_singleton] at b
              rcases m2 with m | m
              · exact absurd b m
              · exact absurd a m
          · rintro ⟨a, b⟩
            exact ⟨a, List.mem_append_left _ b⟩
        simp only [c1, c2]

/-! ## The field operations in `ZMod` -/

theorem cast_add (F : zmod_t) (hm : F.modulus < 2 ^ F.w) (a b : Nat)
    (ha : a < F.modulus) (hb : b < F.modulus) :
    ((F.add a b : Nat) : ZMod F.modulus) = (a : ZMod F.modulus) + b := by
  rw [F.add_eq hm a b ha hb, ZMod.natCast_mod, Nat.cast_add]

theorem cast_sub (F : zmod_t) (hm : F.modulus < 2 ^ F.w) (a b : Nat)
    (ha : a < F.modulus) (hb : b < F.modulus) :
    ((F.sub a b : Nat) : ZMod F.modulus) = (a : ZMod F.modulus) - b := by
  rw [F.sub_eq hm a b ha hb, ZMod.natCast_mod, Nat.cast_sub (by omega), Nat.cast_add,
    ZMod.natCast_self, add_zero]

theorem cast_mul (F : zmod_t) (hm : F.modulus < 2 ^ F.w) (a b : Nat)
    (ha : a < F.modulus) (hb : b < F.modulus) :
    ((F.mul a b : Nat) : ZMod F.modulus) = (a : ZMod F.modulus) * b := by
  rw [F.mul_eq hm a b ha hb, ZMod.natCast_mod, Nat.cast_mul]

theorem cast_pow (F : zmod_t) (hm : F.modulus < 2 ^ F.w) (a n : Nat) (ha : a < F.modulus) :
    ((F.pow a n : Nat) : ZMod F.modulus) = (a : ZMod F.modulus) ^ n := by
  rw [F.pow_eq hm a n ha, ZMod.natCast_mod, Nat.cast_pow]

theorem add_lt (F : zmod_t) (hm : F.modulus < 2 ^ F.w) (a b : Nat)
    (ha : a < F.modulus) (hb : b < F.modulus) : F.add a b < F.modulus := by
  rw [F.add_eq hm a b ha hb]; exact Nat.mod_lt _ (by omega)

theorem sub_lt (F : zmod_t) (hm : F.modulus < 2 ^ F.w) (a b : Nat)
    (ha : a < F.modulus) (hb : b < F.modulus) : F.sub a b < F.modulus := by
  rw [F.sub_eq hm a b ha hb]; exact Nat.mod_lt _ (by omega)

theorem mul_lt (F : zmod_t) (hm : F.modulus < 2 ^ F.w) (a b : Nat)
    (ha : a < F.modulus) (hb : b < F.modulus) : F.mul a b < F.modulus := by
  rw [F.mul_eq hm a b ha hb]; exact Nat.mod_lt _ (by omega)

theorem pow_lt (F : zmod_t) (hm : F.modulus < 2 ^ F.w) (a n : Nat) (ha : a < F.modulus) :
    F.pow a n < F.modulus := by
  rw [F.pow_eq hm a n ha]; exact Nat.mod_lt _ (by omega)

theorem omegaPowAt_spec (F : zmod_t) (hm : F.modulus < 2 ^ F.w) (h1 : 1 < F.modulus)
    (s : Nat) (hs : s < F.modulus) :
    ∀ j, omegaPowAt F s j < F.modulus ∧
      ((omegaPowAt F s j : Nat) : ZMod F.modulus) = (s : ZMod F.modulus) ^ j := by
  intro j
  induction j with
  | zero =>
    simp [omegaPowAt, zmod_t.ofRep_eq, Nat.mod_eq_of_lt h1, h1]
  | succ j ih =>
    simp only [omegaPowAt]
    exact ⟨mul_lt F hm _ _ ih.1 hs, by rw [cast_mul F hm _ _ ih.1 hs, ih.2, pow_succ]⟩

/-- An inverse computed by `inv` is the inverse in the field `Z/pZ`. -/
theorem cast_invU (F : zmod_t) (hp : Nat.Prime F.modulus) (hm : F.modulus < 2 ^ F.w)
    (a : Nat) (ha : a < F.modulus) (ha0 : a ≠ 0) :
    F.invU a < F.modulus ∧
    ((F.invU a : Nat) : ZMod F.modulus) = ((a : Nat) : ZMod F.modulus)⁻¹ := by
  haveI := Fact.mk hp
  obtain ⟨-, e2, e3⟩ := F.inv_spec hm a ha false
  refine ⟨e2, ?_⟩
  have hg : Nat.gcd a F.modulus = 1 := by
    rw [Nat.gcd_comm]
    apply (Nat.Prime.coprime_iff_not_dvd hp).mpr
    intro hd
    have := Nat.le_of_dvd (Nat.pos_of_ne_zero ha0) hd
    omega
  rw [hg] at e3
  have h : ((a * F.invU a : Nat) : ZMod F.modulus) = ((1 : Nat) : ZMod F.modulus) := by
    rw [ZMod.eq_iff_modEq_nat]
    exact e3
  push_cast at h
  exact eq_inv_of_mul_eq_one_right h

theorem stage1_getD (F : zmod_t) (omega n h : Nat) (hh : 0 < h) (x : List Nat)
    (hx : x.length = n) (hdiv : n / (2 * h) * (2 * h) = n) :
    (stage1 F omega n (2 * h) x).length = n ∧
    ∀ pos, pos < n → (stage1 F omega n (2 * h) x).getD pos 0 =
      if pos % (2 * h) < h then
        F.add (x.getD pos 0)
          (F.mul (omegaPowAt F (F.pow omega ((n / (2 * h)) % 2 ^ F.w)) (pos % (2 * h)))
            (x.getD (pos + h) 0))
      else
        F.sub (x.getD (pos - h) 0)
          (F.mul (omegaPowAt F (F.pow omega ((n / (2 * h)) % 2 ^ F.w)) (pos % (2 * h) - h))
            (x.getD pos 0)) := by
  have hhalf : 2 * h / 2 = h := by omega
  rw [stage1_eq_product, hhalf]
  have hnd : ((List.range h) ×ˢ (List.range (n / (2 * h)))).Nodup :=
    (List.nodup_range h).product (List.nodup_range _)
  have hops : ∀ p ∈ (List.range h) ×ˢ (List.range (n / (2 * h))),
      p.1 < h ∧ (p.2 + 1) * (2 * h) ≤ x.length := by
    intro p hp
    rw [List.mem_product, List.mem_range, List.mem_range] at hp
    refine ⟨hp.1, ?_⟩
    rw [hx]
    calc (p.2 + 1) * (2 * h) ≤ n / (2 * h) * (2 * h) := Nat.mul_le_mul_right _ hp.2
      _ = n := hdiv
  obtain ⟨k1, k2⟩ := foldl_stageOp_getD F _ h hh x _ hnd hops
  refine ⟨by rw [k1, hx], ?_⟩
  intro pos hpos
  rw [k2 pos]
  have hq : pos / (2 * h) < n / (2 * h) := by
    rw [Nat.div_lt_iff_lt_mul (by omega), hdiv]
    exact hpos
  have hr : pos % (2 * h) < 2 * h := Nat.mod_lt _ (by omega)
  by_cases hc : pos % (2 * h) < h
  · rw [if_pos hc, if_pos]
    refine ⟨hc, ?_⟩
    rw [List.mem_product, List.mem_range, List.mem_range]
    exact ⟨hc, hq⟩
  · rw [if_neg hc, if_neg (by tauto), if_pos]
    refine ⟨by omega, ?_⟩
    rw [List.mem_product, List.mem_range, List.mem_range]
    exact ⟨by omega, hq⟩

/-- One stage in `Z/pZ`: the pair of slots `b*2h + j`, `b*2h + j + h` is replaced by
the butterfly of its old values with twiddle `omega^(r*j)`, `r = n / (2h)`. -/
theorem stage1_slot (F : zmod_t) (hm : F.modulus < 2 ^ F.w) (h1 : 1 < F.modulus)
    (omega n h : Nat) (hh : 0 < h) (x : List Nat)
    (hx : x.length = n) (hdiv : n / (2 * h) * (2 * h) = n) (hnw : n / (2 * h) < 2 ^ F.w)
    (hω : omega < F.modulus) (hred : Reduced F x) :
    (stage1 F omega n (2 * h) x).length = n ∧ Reduced F (stage1 F omega n (2 * h) x) ∧
    ∀ b j, b < n / (2 * h) → j < h →
      slot F (stage1 F omega n (2 * h) x) (b * (2 * h) + j)
        = slot F x (b * (2 * h) + j)
          + ((omega : ZMod F.modulus) ^ (n / (2 * h))) ^ j * slot F x (b * (2 * h) + j + h) ∧
      slot F (stage1 F omega n (2 * h) x) (b * (2 * h) + j + h)
        = slot F x (b * (2 * h) + j)
          - ((omega : ZMod F.modulus) ^ (n / (2 * h))) ^ j * slot F x (b * (2 * h) + j + h) := by
  obtain ⟨k1, k2⟩ := stage1_getD F omega n h hh x hx hdiv
  rw [Nat.mod_eq_of_lt hnw] at k2
  have hs : F.pow omega (n / (2 * h)) < F.modulus := pow_lt F hm _ _ hω
  have htw := omegaPowAt_spec F hm h1 _ hs
  refine ⟨k1, ?_, ?_⟩
  · intro pos
    by_cases hpos : pos < n
    · rw [k2 pos hpos]
      split
      · exact add_lt F hm _ _ (hred _) (mul_lt F hm _ _ (htw _).1 (hred _))
      · exact sub_lt F hm _ _ (hred _) (mul_lt F hm _ _ (htw _).1 (hred _))
    · rw [List.getD_eq_default _ _ (by omega)]
      omega
  · intro b j hb hj
    have hbn : (b + 1) * (2 * h) ≤ n := by
      calc (b + 1) * (2 * h) ≤ n / (2 * h) * (2 * h) := Nat.mul_le_mul_right _ hb
        _ = n := hdiv
    have e : (b + 1) * (2 * h) = b * (2 * h) + 2 * h := by ring
    obtain ⟨lo1, -⟩ := stage_index_low h b j hj
    obtain ⟨hi1, -⟩ := stage_index_high h b j hj
    constructor
    · unfold slot
      rw [k2 _ (by omega), lo1, if_pos hj,
        cast_add F hm _ _ (hred _) (mul_lt F hm _ _ (htw _).1 (hred _)),
        cast_mul F hm _ _ (htw _).1 (hred _), (htw j).2, cast_pow F hm _ _ hω]
    · unfold slot
      have e1 : j + h - h = j := by omega
      have e2 : b * (2 * h) + j + h - h = b * (2 * h) + j := by omega
      rw [k2 _ (by omega), hi1, if_neg (by omega), e1, e2,
        cast_sub F hm _ _ (hred _) (mul_lt F hm _ _ (htw _).1 (hred _)),
        cast_mul F hm _ _ (htw _).1 (hred _), (htw j).2, cast_pow F hm _ _ hω]

/-! ## The stages compute the discrete Fourier transform -/

theorem sum_range_even_odd {M : Type} [AddCommMonoid M] (f : Nat → M) (m : Nat) :
    ∑ a in Finset.range (2 * m), f a
      = ∑ a in Finset.range m, f (2 * a) + ∑ a in Finset.range m, f (2 * a + 1) := by
  induction m with
  | zero => simp
  | succ m ih =>
    have e : 2 * (m + 1) = 2 * m + 1 + 1 := by ring
    rw [e, Finset.sum_range_succ, Finset.sum_range_succ, ih, Finset.sum_range_succ,
      Finset.sum_range_succ]
    abel

theorem stageInv_zero (F : zmod_t) (t : Nat) (om : ZMod F.modulus) (x0 : List Nat) :
    StageInv F t om x0 0 x0 := by
  intro b j _ hj
  have : j = 0 := by simpa using hj
  subst this
  simp [bitReverse_zero]

theorem stageInv_step (F : zmod_t) (hm : F.modulus < 2 ^ F.w) (h1 : 1 < F.modulus)
    (t qd : Nat) (hq : qd < t) (ht : t ≤ 63) (omega : Nat) (hω : omega < F.modulus)
    (hneg : (omega : ZMod F.modulus) ^ (2 ^ (t - 1)) = -1)
    (hnw : 2 ^ t < 2 ^ F.w) (x0 y : List Nat) (hy : y.length = 2 ^ t) (hred : Reduced F y)
    (hinv : StageInv F t (omega : ZMod F.modulus) x0 qd y) :
    (stage1 F omega (2 ^ t) (2 ^ (qd + 1)) y).length = 2 ^ t ∧
    Reduced F (stage1 F omega (2 ^ t) (2 ^ (qd + 1)) y) ∧
    StageInv F t (omega : ZMod F.modulus) x0 (qd + 1)
      (stage1 F omega (2 ^ t) (2 ^ (qd + 1)) y) := by
  have e2h : 2 ^ (qd + 1) = 2 * 2 ^ qd := pow_succ' 2 qd
  have hh : 0 < 2 ^ qd := by positivity
  have etq : t = (t - (qd + 1)) + (qd + 1) := by omega
  have hr : 2 ^ t / (2 * 2 ^ qd) = 2 ^ (t - (qd + 1)) := by
    rw [← e2h]
    exact Nat.pow_div (by omega) (by decide)
  have hdiv : 2 ^ t / (2 * 2 ^ qd) * (2 * 2 ^ qd) = 2 ^ t := by
    rw [hr, ← e2h, ← pow_add]
    congr 1
    omega
  have hrlt : 2 ^ t / (2 * 2 ^ qd) < 2 ^ F.w := by
    have := Nat.div_le_self (2 ^ t) (2 * 2 ^ qd)
    omega
  rw [e2h]
  obtain ⟨k1, k2, k3⟩ := stage1_slot F hm h1 omega (2 ^ t) (2 ^ qd) hh y hy hdiv hrlt hω hred
  refine ⟨k1, k2, ?_⟩
  rw [hr] at k3
  -- the twiddle step `S` and its powers
  have hS2 : ((omega : ZMod F.modulus) ^ (2 ^ (t - (qd + 1)))) ^ 2
      = (omega : ZMod F.modulus) ^ (2 ^ (t - qd)) := by
    rw [← pow_mul, ← pow_succ]
    congr 2
    omega
  have hSh : ((omega : ZMod F.modulus) ^ (2 ^ (t - (qd + 1)))) ^ (2 ^ qd) = -1 := by
    rw [← pow_mul, ← pow_add, ← hneg]
    congr 2
    omega
  unfold StageInv
  generalize (omega : ZMod F.modulus) ^ (2 ^ (t - (qd + 1))) = S at k3 hS2 hSh ⊢
  -- the hypothesis on the two half blocks
  have hb2 : ∀ b, b < 2 ^ (t - (qd + 1)) → 2 * b + 1 < 2 ^ (t - qd) := by
    intro b hb
    have : 2 ^ (t - qd) = 2 * 2 ^ (t - (qd + 1)) := by
      rw [← pow_succ']
      congr 1
      omega
    omega
  have IHe : ∀ b j0, b < 2 ^ (t - (qd + 1)) → j0 < 2 ^ qd →
      slot F y (b * (2 * 2 ^ qd) + j0)
        = ∑ a in Finset.range (2 ^ qd),
            slot F x0 (b * (2 * 2 ^ qd) + bitReverse 64 a qd) * S ^ (2 * a * j0) := by
    intro b j0 hb hj0
    have := hinv (2 * b) j0 (by have := hb2 b hb; omega) hj0
    have e : 2 * b * 2 ^ qd = b * (2 * 2 ^ qd) := by ring
    rw [e] at this
    rw [this]
    apply Finset.sum_congr rfl
    intro a _
    have e4 : ((omega : ZMod F.modulus) ^ 2 ^ (t - qd)) ^ (a * j0) = S ^ (2 * a * j0) := by
      rw [← hS2, ← pow_mul]; congr 1; ring
    rw [e4]
  have IHo : ∀ b j0, b < 2 ^ (t - (qd + 1)) → j0 < 2 ^ qd →
      slot F y (b * (2 * 2 ^ qd) + j0 + 2 ^ qd)
        = ∑ a in Finset.range (2 ^ qd),
            slot F x0 (b * (2 * 2 ^ qd) + (2 ^ qd + bitReverse 64 a qd)) * S ^ (2 * a * j0) := by
    intro b j0 hb hj0
    have := hinv (2 * b + 1) j0 (hb2 b hb) hj0
    have e : (2 * b + 1) * 2 ^ qd + j0 = b * (2 * 2 ^ qd) + j0 + 2 ^ qd := by ring
    rw [e] at this
    rw [this]
    apply Finset.sum_congr rfl
    intro a _
    have e3 : (2 * b + 1) * 2 ^ qd + bitReverse 64 a qd
        = b * (2 * 2 ^ qd) + (2 ^ qd + bitReverse 64 a qd) := by ring
    have e4 : ((omega : ZMod F.modulus) ^ 2 ^ (t - qd)) ^ (a * j0) = S ^ (2 * a * j0) := by
      rw [← hS2, ← pow_mul]; congr 1; ring
    rw [e3, e4]
  intro b j hb hj
  rw [e2h, sum_range_even_odd]
  have hev : ∀ a, bitReverse 64 (2 * a) (qd + 1) = bitReverse 64 a qd :=
    fun a => bitReverse_even 64 qd a (by omega)
  have hod : ∀ a, bitReverse 64 (2 * a + 1) (qd + 1) = 2 ^ qd + bitReverse 64 a qd :=
    fun a => bitReverse_odd 64 qd a (by omega)
  simp only [hev, hod]
  by_cases hjl : j < 2 ^ qd
  · obtain ⟨f1, -⟩ := k3 b j hb hjl
    rw [f1, IHe b j hb hjl, IHo b j hb hjl, Finset.mul_sum]
    congr 1
    apply Finset.sum_congr rfl
    intro a _
    have : S ^ ((2 * a + 1) * j) = S ^ j * S ^ (2 * a * j) := by
      rw [← pow_add]; congr 1; ring
    rw [this]; ring
  · obtain ⟨j0, rfl⟩ : ∃ j0, j = j0 + 2 ^ qd := ⟨j - 2 ^ qd, by omega⟩
    have hj0 : j0 < 2 ^ qd := by omega
    obtain ⟨-, f2⟩ := k3 b j0 hb hj0
    rw [← Nat.add_assoc, f2, IHe b j0 hb hj0, IHo b j0 hb hj0, Finset.mul_sum, sub_eq_add_neg,
      ← Finset.sum_neg_distrib]
    congr 1
    · apply Finset.sum_congr rfl
      intro a _
      have : S ^ (2 * a * (j0 + 2 ^ qd)) = S ^ (2 * a * j0) * (S ^ (2 ^ qd)) ^ (2 * a) := by
        rw [← pow_mul, ← pow_add]; congr 1; ring
      rw [this, hSh, pow_mul]
      simp
    · apply Finset.sum_congr rfl
      intro a _
      have : S ^ ((2 * a + 1) * (j0 + 2 ^ qd))
          = S ^ j0 * S ^ (2 * a * j0) * (S ^ (2 ^ qd)) ^ (2 * a + 1) := by
        rw [← pow_mul, ← pow_add, ← pow_add]; congr 1; ring
      rw [this, hSh, pow_succ, pow_mul]
      simp
      ring

theorem shlInt_of_lt (q : Nat) (hq : q < 31) : shlInt q = some (2 ^ q) := by
  simp [shlInt, hq]

theorem stageLoop_dft (F : zmod_t) (hm : F.modulus < 2 ^ F.w) (h1 : 1 < F.modulus)
    (t : Nat) (ht : t ≤ 30) (omega : Nat) (hω : omega < F.modulus)
    (hneg : 1 ≤ t → (omega : ZMod F.modulus) ^ (2 ^ (t - 1)) = -1)
    (hnw : 2 ^ t < 2 ^ F.w) (x0 : List Nat) :
    ∀ cnt qd y, qd + cnt = t → y.length = 2 ^ t → Reduced F y →
      StageInv F t (omega : ZMod F.modulus) x0 qd y →
      ∃ z, stageLoop (stage1 F omega (2 ^ t)) cnt (qd + 1) y = (z, none) ∧
        z.length = 2 ^ t ∧ Reduced F z ∧ StageInv F t (omega : ZMod F.modulus) x0 t z := by
  intro cnt
  induction cnt with
  | zero =>
    intro qd y hq hy hred hinv
    have : qd = t := by omega
    subst this
    exact ⟨y, rfl, hy, hred, hinv⟩
  | succ cnt ih =>
    intro qd y hq hy hred hinv
    obtain ⟨k1, k2, k3⟩ := stageInv_step F hm h1 t qd (by omega) (by omega) omega hω
      (hneg (by omega)) hnw x0 y hy hred hinv
    rw [stageLoop, shlInt_of_lt (qd + 1) (by omega)]
    exact ih (qd + 1) _ (by omega) k1 k2 k3

theorem permute_reduced (F : zmod_t) (h1 : 1 < F.modulus) (t : Nat) (ht : t ≤ 64)
    (x : List Nat) (hx : x.length = 2 ^ t) (hred : Reduced F x) : Reduced F (permute x) := by
  obtain ⟨p1, p2⟩ := permute_spec t ht x hx
  intro i
  by_cases hi : i < 2 ^ t
  · rw [p2 i hi]; exact hred _
  · rw [List.getD_eq_default _ _ (by omega)]; omega

/-- `forwardFFT1` without validation computes the discrete Fourier transform when
`omega ^ (n/2) = -1`. -/
theorem forwardFFT1_dft (F : zmod_t) (hm : F.modulus < 2 ^ F.w) (h1 : 1 < F.modulus)
    (t : Nat) (ht : t ≤ 30) (x : List Nat) (hx : x.length = 2 ^ t) (hred : Reduced F x)
    (omega : Nat) (hω : omega < F.modulus)
    (hneg : 1 ≤ t → (omega : ZMod F.modulus) ^ (2 ^ (t - 1)) = -1)
    (hnw : 2 ^ t < 2 ^ F.w) :
    ∃ y, forwardFFT1 F x omega false = (y, none) ∧ y.length = 2 ^ t ∧ Reduced F y ∧
      ∀ j, j < 2 ^ t → slot F y j
        = ∑ a in Finset.range (2 ^ t), slot F x a * (omega : ZMod F.modulus) ^ (a * j) := by
  obtain ⟨p1, p2⟩ := permute_spec t (by omega) x hx
  obtain ⟨z, z1, z2, z3, z4⟩ := stageLoop_dft F hm h1 t ht omega hω hneg hnw (permute x) t 0
    (permute x) (by omega) p1 (permute_reduced F h1 t (by omega) x hx hred)
    (stageInv_zero F t _ _)
  refine ⟨z, ?_, z2, z3, ?_⟩
  · unfold forwardFFT1
    simp only [Bool.false_eq_true, if_false, hx, ceilLg_two_pow]
    exact z1
  · intro j hj
    have := z4 0 j (by simp) hj
    simp only [Nat.sub_self, pow_zero, pow_one, zero_mul, zero_add] at this
    rw [this]
    apply Finset.sum_congr rfl
    intro a ha
    rw [Finset.mem_range] at ha
    unfold slot
    rw [p2 _ (bitReverse_lt 64 t a (by omega)), bitReverse_involutive 64 t a (by omega) ha]

/-! ## Orthogonality of the powers of a root of unity -/

theorem pow_eq_of_order {K : Type} [Field K] (w : K) (n : Nat)
    (h2 : ∀ k, 0 < k → k < n → w ^ k ≠ 1) (hw : w ≠ 0) (a i : Nat) (ha : a < n) (hi : i < n)
    (h : w ^ a = w ^ i) : a = i := by
  by_contra hne
  rcases Nat.lt_or_gt_of_ne hne with hlt | hlt
  · apply h2 (i - a) (by omega) (by omega)
    have e : w ^ i = w ^ a * w ^ (i - a) := by rw [← pow_add]; congr 1; omega
    rw [e] at h
    have := mul_left_cancel₀ (pow_ne_zero a hw) (h.symm.trans (mul_one _).symm)
    exact this
  · apply h2 (a - i) (by omega) (by omega)
    have e : w ^ a = w ^ i * w ^ (a - i) := by rw [← pow_add]; congr 1; omega
    rw [e] at h
    have := mul_left_cancel₀ (pow_ne_zero i hw) (h.trans (mul_one _).symm)
    exact this

theorem root_orthogonality {K : Type} [Field K] (w : K) (n : Nat) (hn : 0 < n)
    (h1 : w ^ n = 1) (h2 : ∀ k, 0 < k → k < n → w ^ k ≠ 1) (e i : Nat) (hi : i < n) :
    ∑ j in Finset.range n, w ^ (e * j) * (w⁻¹) ^ (j * i)
      = if e % n = i then (n : K) else 0 := by
  have hw : w ≠ 0 := by
    intro h0
    rw [h0, zero_pow (by omega)] at h1
    exact zero_ne_one h1
  have hterm : ∀ j, w ^ (e * j) * (w⁻¹) ^ (j * i) = (w ^ (e % n) * (w⁻¹) ^ i) ^ j := by
    intro j
    calc w ^ (e * j) * (w⁻¹) ^ (j * i)
        = (w ^ e) ^ j * ((w⁻¹) ^ i) ^ j := by rw [pow_mul, Nat.mul_comm j i, pow_mul]
      _ = (w ^ (e % n)) ^ j * ((w⁻¹) ^ i) ^ j := by rw [pow_eq_pow_mod e h1]
      _ = (w ^ (e % n) * (w⁻¹) ^ i) ^ j := (mul_pow _ _ _).symm
  simp only [hterm]
  by_cases hc : e % n = i
  · rw [if_pos hc, hc, ← mul_pow, mul_inv_cancel₀ hw]
    simp
  · rw [if_neg hc]
    have hz : w ^ (e % n) * (w⁻¹) ^ i ≠ 1 := by
      intro hz
      apply hc
      apply pow_eq_of_order w n h2 hw _ _ (Nat.mod_lt _ hn) hi
      have := congrArg (fun z => z * w ^ i) hz
      simp only [one_mul] at this
      rw [mul_assoc, ← mul_pow, inv_mul_cancel₀ hw, one_pow, mul_one] at this
      exact this
    rw [geom_sum_eq hz, mul_pow, ← pow_mul, Nat.mul_comm, pow_mul, h1, one_pow, ← pow_mul,
      Nat.mul_comm, pow_mul, inv_pow, h1]
    simp

/-- Transforming back a sequence whose slots are sums of powers of the root: the
slot `i` keeps the terms whose exponent is `i` modulo `n`. -/
theorem idft_of_sum {K : Type} [Field K] {ι : Type} (w : K) (n : Nat) (hn : 0 < n)
    (h1 : w ^ n = 1) (h2 : ∀ k, 0 < k → k < n → w ^ k ≠ 1) (hn0 : (n : K) ≠ 0)
    (s : Finset ι) (f : ι → K) (e : ι → Nat) (y : Nat → K)
    (hy : ∀ j, j < n → y j = ∑ c in s, f c * w ^ (e c * j)) (i : Nat) (hi : i < n) :
    (n : K)⁻¹ * ∑ j in Finset.range n, y j * (w⁻¹) ^ (j * i)
      = ∑ c in s, if e c % n = i then f c else 0 := by
  have step : ∑ j in Finset.range n, y j * (w⁻¹) ^ (j * i)
      = ∑ c in s, f c * (if e c % n = i then (n : K) else 0) := by
    calc ∑ j in Finset.range n, y j * (w⁻¹) ^ (j * i)
        = ∑ j in Finset.range n, ∑ c in s, f c * (w ^ (e c * j) * (w⁻¹) ^ (j * i)) := by
          apply Finset.sum_congr rfl
          intro j hj
          rw [hy j (Finset.mem_range.mp hj), Finset.sum_mul]
          apply Finset.sum_congr rfl
          intro c _
          ring
      _ = ∑ c in s, ∑ j in Finset.range n, f c * (w ^ (e c * j) * (w⁻¹) ^ (j * i)) :=
          Finset.sum_comm
      _ = ∑ c in s, f c * (if e c % n = i then (n : K) else 0) := by
          apply Finset.sum_congr rfl
          intro c _
          rw [← Finset.mul_sum, root_orthogonality w n hn h1 h2 (e c) i hi]
  rw [step, Finset.mul_sum]
  apply Finset.sum_congr rfl
  intro c _
  split
  · rw [mul_comm, mul_assoc, mul_inv_cancel₀ hn0, mul_one]
  · simp

/-! ## The inverse transform -/

theorem scale_getD (F : zmod_t) (c : Nat) (y : List Nat) : ∀ K, K ≤ y.length →
    ((List.range K).foldl (fun z i => z.set i (F.mul c (z.getD i 0))) y).length = y.length ∧
    ∀ i, ((List.range K).foldl (fun z i => z.set i (F.mul c (z.getD i 0))) y).getD i 0
      = if i < K then F.mul c (y.getD i 0) else y.getD i 0 := by
  intro K
  induction K with
  | zero => intro _; simp
  | succ K ih =>
    intro hK
    obtain ⟨k1, k2⟩ := ih (by omega)
    rw [List.range_succ, List.foldl_append]
    simp only [List.foldl_cons, List.foldl_nil]
    generalize (List.range K).foldl (fun z i => z.set i (F.mul c (z.getD i 0))) y = z at k1 k2 ⊢
    refine ⟨by simp [k1], ?_⟩
    intro i
    have hKK : z.getD K 0 = y.getD K 0 := by rw [k2 K, if_neg (by omega)]
    rw [getD_set, k1, hKK]
    by_cases hi : K = i
    · subst hi
      rw [if_pos ⟨rfl, by omega⟩, if_pos (by omega)]
    · rw [if_neg (fun hh => hi hh.1), k2 i]
      by_cases h3 : i < K
      · rw [if_pos h3, if_pos (by omega)]
      · rw [if_neg h3, if_neg (by omega)]

/-- What "order exactly `2 ^ t` modulo the prime `p`" gives in the field `Z/pZ`. -/
theorem root_facts (F : zmod_t) (hp : Nat.Prime F.modulus) (hm : F.modulus < 2 ^ F.w)
    (t omega : Nat)
    (hord1 : omega ^ (2 ^ t) % F.modulus = 1)
    (hord2 : ∀ k, 0 < k → k < 2 ^ t → omega ^ k % F.modulus ≠ 1) :
    (omega : ZMod F.modulus) ^ (2 ^ t) = 1 ∧
    (∀ k, 0 < k → k < 2 ^ t → (omega : ZMod F.modulus) ^ k ≠ 1) ∧
    omega ≠ 0 ∧
    (1 ≤ t → (omega : ZMod F.modulus) ^ (2 ^ (t - 1)) = -1) ∧
    ((2 ^ t : Nat) : ZMod F.modulus) ≠ 0 ∧
    2 ^ t < 2 ^ F.w := by
  haveI := Fact.mk hp
  have h1 : 1 < F.modulus := hp.one_lt
  have c1 : (omega : ZMod F.modulus) ^ (2 ^ t) = 1 := by
    have : ((omega ^ (2 ^ t) % F.modulus : Nat) : ZMod F.modulus) = ((1 : Nat) : ZMod F.modulus) := by
      rw [hord1]
    rw [ZMod.natCast_mod, Nat.cast_pow, Nat.cast_one] at this
    exact this
  have c2 : ∀ k, 0 < k → k < 2 ^ t → (omega : ZMod F.modulus) ^ k ≠ 1 := by
    intro k hk0 hk hc
    apply hord2 k hk0 hk
    have : ((omega ^ k : Nat) : ZMod F.modulus) = ((1 : Nat) : ZMod F.modulus) := by
      rw [Nat.cast_pow, Nat.cast_one]; exact hc
    rw [ZMod.eq_iff_modEq_nat] at this
    rw [this, Nat.mod_eq_of_lt h1]
  have c3 : omega ≠ 0 := by
    intro h0
    rw [h0, zero_pow (by positivity)] at hord1
    simp at hord1
  have c4 : 1 ≤ t → (omega : ZMod F.modulus) ^ (2 ^ (t - 1)) = -1 := by
    intro ht
    have hlt : 2 ^ (t - 1) < 2 ^ t := Nat.pow_lt_pow_right (by decide) (by omega)
    have hsq : (omega : ZMod F.modulus) ^ (2 ^ (t - 1)) * (omega : ZMod F.modulus) ^ (2 ^ (t - 1))
        = 1 := by
      rw [← pow_add, ← c1]
      congr 1
      have : 2 ^ t = 2 * 2 ^ (t - 1) := by
        rw [← pow_succ']; congr 1; omega
      omega
    rcases mul_self_eq_one_iff.mp hsq with h | h
    · exact absurd h (c2 _ (by positivity) hlt)
    · exact h
  have c5 : ((2 ^ t : Nat) : ZMod F.modulus) ≠ 0 := by
    by_cases ht : 1 ≤ t
    · rw [Nat.cast_pow]
      apply pow_ne_zero
      intro h2
      have hlt : 2 ^ (t - 1) < 2 ^ t := Nat.pow_lt_pow_right (by decide) (by omega)
      apply c2 _ (by positivity) hlt
      rw [c4 ht]
      have : (1 : ZMod F.modulus) + 1 = 0 := by
        have e : ((2 : Nat) : ZMod F.modulus) = 1 + 1 := by norm_num
        rw [← e]; exact h2
      exact neg_eq_of_add_eq_zero_left this
    · have ht0 : t = 0 := by omega
      subst ht0
      simp
  have c6 : 2 ^ t < 2 ^ F.w := by
    have ho : orderOf (omega : ZMod F.modulus) = 2 ^ t :=
      (orderOf_eq_iff (by positivity)).mpr ⟨c1, fun m hm hm0 => c2 m hm0 hm⟩
    have := orderOf_le_card_univ (x := (omega : ZMod F.modulus))
    rw [ho, ZMod.card] at this
    omega
  exact ⟨c1, c2, c3, c4, c5, c6⟩

/-- `inverseFFT1` without validation: the forward transform with the inverse root,
scaled by the inverse of the length. -/
theorem inverseFFT1_spec (F : zmod_t) (hp : Nat.Prime F.modulus) (hm : F.modulus < 2 ^ F.w)
    (t : Nat) (ht : t ≤ 30) (y : List Nat) (hy : y.length = 2 ^ t) (hred : Reduced F y)
    (omega : Nat) (hω : omega < F.modulus) (hω0 : omega ≠ 0)
    (hneg : 1 ≤ t → (omega : ZMod F.modulus) ^ (2 ^ (t - 1)) = -1)
    (hn0 : ((2 ^ t : Nat) : ZMod F.modulus) ≠ 0) (hnw : 2 ^ t < 2 ^ F.w) :
    ∃ out, inverseFFT1 F y omega false = (out, none) ∧ out.length = 2 ^ t ∧ Reduced F out ∧
      ∀ i, i < 2 ^ t → slot F out i
        = ((2 ^ t : Nat) : ZMod F.modulus)⁻¹
          * ∑ j in Finset.range (2 ^ t), slot F y j * ((omega : ZMod F.modulus)⁻¹) ^ (j * i) := by
  haveI := Fact.mk hp
  have h1 : 1 < F.modulus := hp.one_lt
  obtain ⟨w1, w2⟩ := cast_invU F hp hm omega hω hω0
  have hneg2 : 1 ≤ t → ((F.invU omega : Nat) : ZMod F.modulus) ^ (2 ^ (t - 1)) = -1 := by
    intro h
    rw [w2, inv_pow, hneg h, inv_neg_one]
  obtain ⟨z, z1, z2, z3, z4⟩ := forwardFFT1_dft F hm h1 t ht y hy hred (F.invU omega) w1 hneg2 hnw
  -- the scaling factor
  have hnmod : 2 ^ t % 2 ^ F.w = 2 ^ t := Nat.mod_eq_of_lt hnw
  have hc0 : F.ofRep (2 ^ t) ≠ 0 := by
    intro h0
    apply hn0
    rw [zmod_t.ofRep_eq] at h0
    rw [← ZMod.natCast_mod, h0]
    simp
  have hclt : F.ofRep (2 ^ t) < F.modulus := by
    rw [zmod_t.ofRep_eq]; exact Nat.mod_lt _ (by omega)
  obtain ⟨n1, n2⟩ := cast_invU F hp hm (F.ofRep (2 ^ t)) hclt hc0
  have n3 : ((F.ofRep (2 ^ t) : Nat) : ZMod F.modulus) = ((2 ^ t : Nat) : ZMod F.modulus) := by
    rw [zmod_t.ofRep_eq, ZMod.natCast_mod]
  rw [n3] at n2
  obtain ⟨s1, s2⟩ := scale_getD F (F.invU (F.ofRep (2 ^ t))) z (2 ^ t) (by omega)
  refine ⟨(List.range (2 ^ t)).foldl
    (fun z i => z.set i (F.mul (F.invU (F.ofRep (2 ^ t))) (z.getD i 0))) z, ?_, ?_, ?_, ?_⟩
  · unfold inverseFFT1 inverseFFT
    simp only [hy, hnmod, z1]
  · rw [s1, z2]
  · intro i
    rw [s2 i]
    split
    · exact mul_lt F hm _ _ n1 (z3 i)
    · exact z3 i
  · intro i hi
    unfold slot
    rw [s2 i, if_pos hi, cast_mul F hm _ _ n1 (z3 i), n2]
    congr 1
    have := z4 i hi
    unfold slot at this
    rw [this, w2]

theorem cast_inj_of_lt (p a b : Nat) (ha : a < p) (hb : b < p)
    (h : (a : ZMod p) = (b : ZMod p)) : a = b := by
  rw [ZMod.eq_iff_modEq_nat] at h
  exact Nat.ModEq.eq_of_lt_of_lt h ha hb

theorem reduced_of_forall_mem (F : zmod_t) (h0 : 0 < F.modulus) (x : List Nat)
    (h : ∀ v ∈ x, v < F.modulus) : Reduced F x := by
  intro i
  by_cases hi : i < x.length
  · rw [List.getD_eq_getElem _ _ hi]
    exact h _ (List.getElem_mem hi)
  · rw [List.getD_eq_default _ _ (by omega)]
    exact h0

theorem inverseFFT2_eq_inverseFFT1 (F : zmod_t) (x : List Nat) (omega : Nat) (check : Bool) :
    inverseFFT2 F x omega check = inverseFFT1 F x omega check := by
  unfold inverseFFT2 inverseFFT1 inverseFFT
  simp only [forwardFFT1_eq_forwardFFT2]

/-- The round trip for lengths up to `2 ^ 30`, where every `1 << q` is exact. -/
theorem round_trip_core (F : zmod_t) (hp : Nat.Prime F.modulus) (hm : F.modulus < 2 ^ F.w)
    (t : Nat) (ht : t ≤ 30) (x : List Nat) (hx : x.length = 2 ^ t)
    (hred : ∀ v ∈ x, v < F.modulus) (omega : Nat) (hω : omega < F.modulus)
    (hord1 : omega ^ (2 ^ t) % F.modulus = 1)
    (hord2 : ∀ k, 0 < k → k < 2 ^ t → omega ^ k % F.modulus ≠ 1) :
    ∃ y, forwardFFT1 F x omega false = (y, none) ∧ inverseFFT1 F y omega false = (x, none) := by
  haveI := Fact.mk hp
  have h1 : 1 < F.modulus := hp.one_lt
  obtain ⟨c1, c2, c3, c4, c5, c6⟩ := root_facts F hp hm t omega hord1 hord2
  have hr := reduced_of_forall_mem F (by omega) x hred
  obtain ⟨y, y1, y2, y3, y4⟩ := forwardFFT1_dft F hm h1 t ht x hx hr omega hω c4 c6
  obtain ⟨out, o1, o2, o3, o4⟩ := inverseFFT1_spec F hp hm t ht y y2 y3 omega hω c3 c4 c5 c6
  refine ⟨y, y1, ?_⟩
  rw [o1]
  congr 1
  apply list_ext_getD
  · rw [o2, hx]
  · intro i hi
    rw [o2] at hi
    apply cast_inj_of_lt F.modulus _ _ (o3 i) (hr i)
    have key := idft_of_sum (omega : ZMod F.modulus) (2 ^ t) (by positivity) c1 c2
      (by exact_mod_cast c5) (Finset.range (2 ^ t)) (fun a => slot F x a) (fun a => a)
      (fun j => slot F y j) (fun j hj => y4 j hj) i hi
    have e := o4 i hi
    unfold slot at e key
    rw [e]
    push_cast at key ⊢
    rw [key]
    have : ∀ a ∈ Finset.range (2 ^ t),
        (if a % 2 ^ t = i then ((x.getD a 0 : Nat) : ZMod F.modulus) else 0)
          = if a = i then ((x.getD a 0 : Nat) : ZMod F.modulus) else 0 := by
      intro a ha
      rw [Nat.mod_eq_of_lt (Finset.mem_range.mp ha)]
    rw [Finset.sum_congr rfl this, Finset.sum_ite_eq' (Finset.range (2 ^ t)) i,
      if_pos (Finset.mem_range.mpr hi)]

theorem getD_map_range (n : Nat) (f : Nat → Nat) (i : Nat) :
    ((List.range n).map f).getD i 0 = if i < n then f i else 0 := by
  by_cases hi : i < n
  · rw [if_pos hi, List.getD_eq_getElem _ _ (by simpa using hi)]
    simp
  · rw [if_neg hi, List.getD_eq_default _ _ (by simpa using hi)]

/-- The transform of a slot-wise product, transformed back, is the cyclic convolution;
lengths up to `2 ^ 30`. -/
theorem convolution_core (F : zmod_t) (hp : Nat.Prime F.modulus) (hm : F.modulus < 2 ^ F.w)
    (t : Nat) (ht : t ≤ 30) (a b : List Nat) (ha : a.length = 2 ^ t) (hb : b.length = 2 ^ t)
    (hreda : ∀ v ∈ a, v < F.modulus) (hredb : ∀ v ∈ b, v < F.modulus)
    (omega : Nat) (hω : omega < F.modulus)
    (hord1 : omega ^ (2 ^ t) % F.modulus = 1)
    (hord2 : ∀ k, 0 < k → k < 2 ^ t → omega ^ k % F.modulus ≠ 1) :
    ∃ fa fb out, forwardFFT1 F a omega false = (fa, none) ∧
      forwardFFT1 F b omega false = (fb, none) ∧
      inverseFFT1 F ((List.range (2 ^ t)).map (fun i => F.mul (fa.getD i 0) (fb.getD i 0)))
        omega false = (out, none) ∧
      out.length = 2 ^ t ∧
      ∀ i, i < 2 ^ t → out.getD i 0
        = (∑ j in Finset.range (2 ^ t), ∑ k in Finset.range (2 ^ t),
            if (j + k) % 2 ^ t = i then a.getD j 0 * b.getD k 0 else 0) % F.modulus := by
  haveI := Fact.mk hp
  have h1 : 1 < F.modulus := hp.one_lt
  obtain ⟨c1, c2, c3, c4, c5, c6⟩ := root_facts F hp hm t omega hord1 hord2
  have hra := reduced_of_forall_mem F (by omega) a hreda
  have hrb := reduced_of_forall_mem F (by omega) b hredb
  obtain ⟨fa, fa1, fa2, fa3, fa4⟩ := forwardFFT1_dft F hm h1 t ht a ha hra omega hω c4 c6
  obtain ⟨fb, fb1, fb2, fb3, fb4⟩ := forwardFFT1_dft F hm h1 t ht b hb hrb omega hω c4 c6
  -- the slot-wise product
  have hf3len : ((List.range (2 ^ t)).map (fun i => F.mul (fa.getD i 0) (fb.getD i 0))).length
      = 2 ^ t := by simp
  have hf3red : Reduced F
      ((List.range (2 ^ t)).map (fun i => F.mul (fa.getD i 0) (fb.getD i 0))) := by
    intro i
    rw [getD_map_range]
    split
    · exact mul_lt F hm _ _ (fa3 i) (fb3 i)
    · omega
  have hf3 : ∀ j, j < 2 ^ t →
      slot F ((List.range (2 ^ t)).map (fun i => F.mul (fa.getD i 0) (fb.getD i 0))) j
        = ∑ c in (Finset.range (2 ^ t)) ×ˢ (Finset.range (2 ^ t)),
            (slot F a c.1 * slot F b c.2) * (omega : ZMod F.modulus) ^ ((c.1 + c.2) * j) := by
    intro j hj
    have e1 : slot F ((List.range (2 ^ t)).map (fun i => F.mul (fa.getD i 0) (fb.getD i 0))) j
        = slot F fa j * slot F fb j := by
      unfold slot
      rw [getD_map_range, if_pos hj, cast_mul F hm _ _ (fa3 j) (fb3 j)]
    rw [e1, fa4 j hj, fb4 j hj, Finset.sum_mul_sum, Finset.sum_product]
    apply Finset.sum_congr rfl
    intro x _
    apply Finset.sum_congr rfl
    intro y _
    rw [Nat.add_mul, pow_add]
    ring
  obtain ⟨out, o1, o2, o3, o4⟩ := inverseFFT1_spec F hp hm t ht _ hf3len hf3red omega hω
    c3 c4 c5 c6
  refine ⟨fa, fb, out, fa1, fb1, o1, o2, ?_⟩
  intro i hi
  apply cast_inj_of_lt F.modulus _ _ (o3 i) (Nat.mod_lt _ (by omega))
  have key := idft_of_sum (omega : ZMod F.modulus) (2 ^ t) (by positivity) c1 c2
    (by exact_mod_cast c5) ((Finset.range (2 ^ t)) ×ˢ (Finset.range (2 ^ t)))
    (fun c => slot F a c.1 * slot F b c.2) (fun c => c.1 + c.2)
    (fun j => slot F ((List.range (2 ^ t)).map (fun i => F.mul (fa.getD i 0) (fb.getD i 0))) j)
    (fun j hj => hf3 j hj) i hi
  have e := o4 i hi
  unfold slot at e
  rw [e]
  unfold slot at key
  push_cast at key ⊢
  rw [key, ZMod.natCast_mod, Finset.sum_product]
  push_cast
  apply Finset.sum_congr rfl
  intro x _
  apply Finset.sum_congr rfl
  intro y _
  split <;> simp

/-! ## Cyclic and ordinary convolution -/

theorem mod_of_lt_two_mul (n a : Nat) (h : a < 2 * n) :
    a % n = if a < n then a else a - n := by
  split
  · rename_i h1
    exact Nat.mod_eq_of_lt h1
  · rename_i h1
    rw [Nat.mod_eq_sub_mod (by omega), Nat.mod_eq_of_lt (by omega)]

/-- With both factors zero from slot `n / 2` on, no product wraps around: the cyclic
convolution is the ordinary one. -/
theorem cyclic_eq_ordinary (n : Nat) (A B : Nat → Nat)
    (hA : ∀ j, n / 2 ≤ j → A j = 0) (hB : ∀ j, n / 2 ≤ j → B j = 0) (i : Nat) (hi : i < n) :
    (∑ j in Finset.range n, ∑ k in Finset.range n,
        if (j + k) % n = i then A j * B k else 0)
      = ∑ j in Finset.range (i + 1), A j * B (i - j) := by
  have inner : ∀ j ∈ Finset.range n,
      (∑ k in Finset.range n, if (j + k) % n = i then A j * B k else 0)
        = if j ≤ i then A j * B (i - j) else 0 := by
    intro j hj
    rw [Finset.mem_range] at hj
    have hterm : ∀ k ∈ Finset.range n,
        (if (j + k) % n = i then A j * B k else 0) = if k = i - j ∧ j ≤ i then A j * B k else 0 := by
      intro k hk
      rw [Finset.mem_range] at hk
      rw [mod_of_lt_two_mul n (j + k) (by omega)]
      by_cases h1 : j + k < n
      · rw [if_pos h1]
        by_cases h2 : j + k = i
        · rw [if_pos h2, if_pos (by omega)]
        · rw [if_neg h2, if_neg (by omega)]
      · rw [if_neg h1]
        have hz : A j * B k = 0 := by
          by_cases hj2 : n / 2 ≤ j
          · rw [hA j hj2, Nat.zero_mul]
          · rw [hB k (by omega), Nat.mul_zero]
        rw [hz]
        simp
    rw [Finset.sum_congr rfl hterm]
    by_cases hji : j ≤ i
    · rw [if_pos hji]
      have : ∀ k ∈ Finset.range n,
          (if k = i - j ∧ j ≤ i then A j * B k else 0) = if i - j = k then A j * B k else 0 := by
        intro k _
        by_cases hk : k = i - j
        · rw [if_pos ⟨hk, hji⟩, if_pos hk.symm]
        · rw [if_neg (fun h => hk h.1), if_neg (fun h => hk h.symm)]
      rw [Finset.sum_congr rfl this, Finset.sum_ite_eq (Finset.range n) (i - j),
        if_pos (Finset.mem_range.mpr (by omega))]
    · rw [if_neg hji]
      apply Finset.sum_eq_zero
      intro k _
      rw [if_neg (fun h => hji h.2)]
  rw [Finset.sum_congr rfl inner]
  symm
  have hsub : Finset.range (i + 1) ⊆ Finset.range n := by
    intro j hj
    rw [Finset.mem_range] at hj ⊢
    omega
  rw [← Finset.sum_subset hsub]
  · apply Finset.sum_congr rfl
    intro j hj
    rw [Finset.mem_range] at hj
    rw [if_pos (by omega)]
  · intro j _ hj
    rw [Finset.mem_range] at hj
    rw [if_neg (by omega)]

/-! ## Validation of the root -/

theorem pow_mod_eq_one_iff (m : Nat) (h1 : 1 < m) (a k : Nat) :
    a ^ k % m = 1 ↔ (a : ZMod m) ^ k = 1 := by
  constructor
  · intro h
    have : ((a ^ k % m : Nat) : ZMod m) = ((1 : Nat) : ZMod m) := by rw [h]
    rw [ZMod.natCast_mod, Nat.cast_pow, Nat.cast_one] at this
    exact this
  · intro h
    have : ((a ^ k : Nat) : ZMod m) = ((1 : Nat) : ZMod m) := by
      rw [Nat.cast_pow, Nat.cast_one]; exact h
    rw [ZMod.eq_iff_modEq_nat] at this
    rw [this, Nat.mod_eq_of_lt h1]

/-- In a monoid, `x ^ (2^t) = 1` and `x ^ (2^(t-1)) ≠ 1` exclude every smaller
positive exponent. -/
theorem no_smaller_exponent {M : Type} [Monoid M] (x : M) (t : Nat) (ht : 1 ≤ t)
    (h1 : x ^ (2 ^ t) = 1) (h2 : x ^ (2 ^ (t - 1)) ≠ 1) (k : Nat) (hk0 : 0 < k)
    (hk : k < 2 ^ t) : x ^ k ≠ 1 := by
  intro hc
  apply h2
  have d1 : orderOf x ∣ 2 ^ t := orderOf_dvd_of_pow_eq_one h1
  have d2 : orderOf x ∣ k := orderOf_dvd_of_pow_eq_one hc
  obtain ⟨i, hi, he⟩ := (Nat.dvd_prime_pow Nat.prime_two).mp d1
  have hlt : i < t := by
    by_contra hge
    have : i = t := by omega
    rw [this] at he
    have := Nat.le_of_dvd hk0 d2
    omega
  apply orderOf_dvd_iff_pow_eq_one.mp
  rw [he]
  exact pow_dvd_pow 2 (by omega)

/-- An element of order exactly `n` modulo `m` has `n ≤ m`. -/
theorem order_le_modulus (m : Nat) (h1 : 1 < m) (a n : Nat) (hn : 0 < n)
    (hord1 : a ^ n % m = 1) (hord2 : ∀ k, 0 < k → k < n → a ^ k % m ≠ 1) : n ≤ m := by
  haveI : NeZero m := ⟨by omega⟩
  have ho : orderOf (a : ZMod m) = n := by
    rw [orderOf_eq_iff hn]
    refine ⟨(pow_mod_eq_one_iff m h1 a n).mp hord1, ?_⟩
    intro k hk hk0 hc
    exact hord2 k hk0 hk ((pow_mod_eq_one_iff m h1 a k).mpr hc)
  have := orderOf_le_card_univ (x := (a : ZMod m))
  rw [ho, ZMod.card] at this
  exact this

/-- `checkParameters` for lengths `2 ^ t`, `1 ≤ t ≤ 30`, where `1 << t` is exact:
it returns normally exactly for the roots of order `2 ^ t`, and otherwise throws
the root-order error. -/
theorem checkParameters_small (F : zmod_t) (h1 : 1 < F.modulus) (hm : F.modulus < 2 ^ F.w)
    (t : Nat) (ht1 : 1 ≤ t) (ht : t ≤ 30) (omega : Nat) (hω : omega < F.modulus) :
    (checkParameters F (2 ^ t) (ceilLg (2 ^ t)) omega = none ↔
      (omega ^ (2 ^ t) % F.modulus = 1 ∧
        ∀ k, 0 < k → k < 2 ^ t → omega ^ k % F.modulus ≠ 1)) ∧
    (checkParameters F (2 ^ t) (ceilLg (2 ^ t)) omega ≠ none →
      checkParameters F (2 ^ t) (ceilLg (2 ^ t)) omega = some .invalidRootOrder) := by
  have hone : F.ofRep 1 = 1 := by rw [zmod_t.ofRep_eq, Nat.mod_eq_of_lt h1]
  have hhalf : 2 ^ t / 2 = 2 ^ (t - 1) := by
    obtain ⟨s, rfl⟩ : ∃ s, t = s + 1 := ⟨t - 1, by omega⟩
    rw [pow_succ]; simp
  have hdef : checkParameters F (2 ^ t) (ceilLg (2 ^ t)) omega
      = if F.pow omega (2 ^ (t - 1) % 2 ^ F.w) = 1 ∨
          F.mul (F.pow omega (2 ^ (t - 1) % 2 ^ F.w)) (F.pow omega (2 ^ (t - 1) % 2 ^ F.w)) ≠ 1
        then some .invalidRootOrder else none := by
    unfold checkParameters
    rw [ceilLg_two_pow, shlInt_of_lt t (by omega)]
    simp only [ne_eq, not_true_eq_false, if_false, hone, hhalf, Bool.or_eq_true,
      decide_eq_true_eq]
  have hsplit : checkParameters F (2 ^ t) (ceilLg (2 ^ t)) omega = none ↔
      ¬ (F.pow omega (2 ^ (t - 1) % 2 ^ F.w) = 1 ∨
          F.mul (F.pow omega (2 ^ (t - 1) % 2 ^ F.w)) (F.pow omega (2 ^ (t - 1) % 2 ^ F.w)) ≠ 1) := by
    rw [hdef]
    split <;> simp_all
  constructor
  · rw [hsplit]
    by_cases hfit : 2 ^ (t - 1) < 2 ^ F.w
    · rw [Nat.mod_eq_of_lt hfit]
      have hplt := pow_lt F hm omega (2 ^ (t - 1)) hω
      rw [F.mul_eq hm _ _ hplt hplt, F.pow_eq hm _ _ hω]
      have hsq : omega ^ 2 ^ (t - 1) % F.modulus * (omega ^ 2 ^ (t - 1) % F.modulus) % F.modulus
          = omega ^ 2 ^ t % F.modulus := by
        rw [← Nat.mul_mod, ← pow_add]
        congr 2
        obtain ⟨s, rfl⟩ : ∃ s, t = s + 1 := ⟨t - 1, by omega⟩
        rw [pow_succ]; simp; ring
      rw [hsq]
      constructor
      · intro h
        push_neg at h
        refine ⟨h.2, ?_⟩
        intro k hk0 hk hc
        have a1 := (pow_mod_eq_one_iff _ h1 omega (2 ^ t)).mp h.2
        have a2 : (omega : ZMod F.modulus) ^ 2 ^ (t - 1) ≠ 1 :=
          fun hh => h.1 ((pow_mod_eq_one_iff _ h1 omega _).mpr hh)
        exact no_smaller_exponent _ t ht1 a1 a2 k hk0 hk
          ((pow_mod_eq_one_iff _ h1 omega k).mp hc)
      · rintro ⟨a1, a2⟩
        push_neg
        exact ⟨a2 _ (by positivity) (Nat.pow_lt_pow_right (by decide) (by omega)), a1⟩
    · -- `n / 2` does not fit `rep_t`: the exponent is truncated to `0`
      have hge : F.w ≤ t - 1 := by
        by_contra hlt
        exact hfit (Nat.pow_lt_pow_right (by decide) (by omega))
      have hz : 2 ^ (t - 1) % 2 ^ F.w = 0 :=
        Nat.mod_eq_zero_of_dvd (pow_dvd_pow 2 hge)
      rw [hz]
      have hp0 : F.pow omega 0 = 1 := by
        rw [F.pow_eq hm _ _ hω, pow_zero, Nat.mod_eq_of_lt h1]
      rw [hp0]
      constructor
      · intro h
        exact absurd (Or.inl rfl) h
      · rintro ⟨a1, a2⟩
        exfalso
        have hle := order_le_modulus F.modulus h1 omega (2 ^ t) (by positivity) a1 a2
        have : 2 ^ F.w ≤ 2 ^ (t - 1) := Nat.pow_le_pow_right (by decide) hge
        have : 2 ^ (t - 1) < 2 ^ t := Nat.pow_lt_pow_right (by decide) (by omega)
        omega
  · intro _
    rw [hdef] at *
    split <;> simp_all

theorem omega31_order :
    omega31 < Fp64.modulus ∧ omega31 ^ (2 ^ 31) % Fp64.modulus = 1 ∧
    ∀ k, 0 < k → k < 2 ^ 31 → omega31 ^ k % Fp64.modulus ≠ 1 := by
  have hm : Fp64.modulus < 2 ^ Fp64.w := by decide
  have h1 : 1 < Fp64.modulus := by decide
  have hlt : omega31 < Fp64.modulus := by decide
  have e1 : Fp64.pow omega31 (2 ^ 31) = 1 := by decide
  have e2 : Fp64.pow omega31 (2 ^ 30) = 4179340454199820288 := by decide
  rw [Fp64.pow_eq hm _ _ hlt] at e1 e2
  refine ⟨hlt, e1, ?_⟩
  intro k hk0 hk hc
  have a1 := (pow_mod_eq_one_iff _ h1 omega31 (2 ^ 31)).mp e1
  have a2 : (omega31 : ZMod Fp64.modulus) ^ 2 ^ (31 - 1) ≠ 1 := by
    intro hh
    have := (pow_mod_eq_one_iff _ h1 omega31 _).mpr hh
    rw [show 31 - 1 = 30 from rfl, e2] at this
    exact absurd this (by decide)
  exact no_smaller_exponent _ 31 (by decide) a1 a2 k hk0 hk
    ((pow_mod_eq_one_iff _ h1 omega31 k).mp hc)

/-- C10 at the failing input: for the length `2 ^ 31` and a root of order exactly
`2 ^ 31` of the 64-bit field, `checkParameters` throws the length error, because
`1 << 31` is evaluated in `int`. -/
theorem checkParameters_rejects_valid_root :
    checkParameters Fp64 (2 ^ 31) (ceilLg (2 ^ 31)) omega31 = some .invalidLength ∧
    omega31 < Fp64.modulus ∧ omega31 ^ (2 ^ 31) % Fp64.modulus = 1 ∧
    ∀ k, 0 < k → k < 2 ^ 31 → omega31 ^ k % Fp64.modulus ≠ 1 := by
  refine ⟨?_, omega31_order⟩
  rw [ceilLg_two_pow]
  decide

/-! ## Length `2 ^ 31`: the last stage is lost

For `q = 31` the expression `1 << q` is `INT_MIN`, so `L = 2 ^ 64 - 2 ^ 31` and
`r = n / L = 0`: the stage performs no butterfly. -/

theorem stageLoop_prefix (F : zmod_t) (hm : F.modulus < 2 ^ F.w) (h1 : 1 < F.modulus)
    (t : Nat) (ht : t ≤ 63) (omega : Nat) (hω : omega < F.modulus)
    (hneg : (omega : ZMod F.modulus) ^ (2 ^ (t - 1)) = -1)
    (hnw : 2 ^ t < 2 ^ F.w) (x0 : List Nat) (rest : Nat) :
    ∀ cnt qd y, qd + cnt ≤ t → qd + cnt ≤ 30 → y.length = 2 ^ t → Reduced F y →
      StageInv F t (omega : ZMod F.modulus) x0 qd y →
      ∃ z, stageLoop (stage1 F omega (2 ^ t)) (cnt + rest) (qd + 1) y
          = stageLoop (stage1 F omega (2 ^ t)) rest (qd + cnt + 1) z ∧
        z.length = 2 ^ t ∧ Reduced F z ∧
        StageInv F t (omega : ZMod F.modulus) x0 (qd + cnt) z := by
  intro cnt
  induction cnt with
  | zero =>
    intro qd y _ _ hy hred hinv
    exact ⟨y, by simp, hy, hred, hinv⟩
  | succ cnt ih =>
    intro qd y hq hq30 hy hred hinv
    by_cases hqt : qd < t
    · obtain ⟨k1, k2, k3⟩ := stageInv_step F hm h1 t qd hqt ht omega hω hneg hnw x0 y hy hred hinv
      have e : cnt + 1 + rest = (cnt + rest) + 1 := by omega
      rw [e, stageLoop, shlInt_of_lt (qd + 1) (by omega)]
      obtain ⟨z, z1, z2, z3, z4⟩ := ih (qd + 1) _ (by omega) (by omega) k1 k2 k3
      refine ⟨z, ?_, z2, z3, ?_⟩
      · show stageLoop (stage1 F omega (2 ^ t)) (cnt + rest) (qd + 1 + 1)
            (stage1 F omega (2 ^ t) (2 ^ (qd + 1)) y) = _
        rw [z1]
        congr 1
        omega
      · have e2 : qd + (cnt + 1) = qd + 1 + cnt := by omega
        rw [e2]; exact z4
    · omega

theorem stage1_of_lt (F : zmod_t) (omega n L : Nat) (x : List Nat) (h : n < L) :
    stage1 F omega n L x = x := by
  rw [stage1_eq_product, Nat.div_eq_of_lt h]
  simp

/-- `forwardFFT1` on a sequence of length `2 ^ 31`: the outcome is the state after
30 stages. -/
theorem forwardFFT1_length_2_31 (F : zmod_t) (hm : F.modulus < 2 ^ F.w) (h1 : 1 < F.modulus)
    (x : List Nat) (hx : x.length = 2 ^ 31) (hred : Reduced F x)
    (omega : Nat) (hω : omega < F.modulus)
    (hneg : (omega : ZMod F.modulus) ^ (2 ^ 30) = -1) (hnw : 2 ^ 31 < 2 ^ F.w) :
    ∃ z, forwardFFT1 F x omega false = (z, none) ∧ z.length = 2 ^ 31 ∧ Reduced F z ∧
      ∀ b j, b < 2 → j < 2 ^ 30 →
        slot F z (b * 2 ^ 30 + j)
          = ∑ a in Finset.range (2 ^ 30),
              slot F x (2 * a + b) * ((omega : ZMod F.modulus) ^ 2) ^ (a * j) := by
  obtain ⟨p1, p2⟩ := permute_spec 31 (by omega) x hx
  obtain ⟨z, z1, z2, z3, z4⟩ := stageLoop_prefix F hm h1 31 (by omega) omega hω hneg hnw
    (permute x) 1 30 0 (permute x) (by omega) (by omega) p1
    (permute_reduced F h1 31 (by omega) x hx hred) (stageInv_zero F 31 _ _)
  refine ⟨z, ?_, z2, z3, ?_⟩
  · unfold forwardFFT1
    simp only [Bool.false_eq_true, if_false, hx, ceilLg_two_pow]
    rw [z1]
    have hs : shlInt 31 = some (2 ^ 64 - 2 ^ 31) := by decide
    rw [stageLoop, hs]
    show stageLoop (stage1 F omega (2 ^ 31)) 0 (31 + 1)
      (stage1 F omega (2 ^ 31) (2 ^ 64 - 2 ^ 31) z) = (z, none)
    rw [stage1_of_lt _ _ _ _ _ (by norm_num)]
    rfl
  · intro b j hb hj
    have := z4 b j (by simpa using hb) (by simpa using hj)
    simp only [Nat.zero_add] at this
    rw [this]
    apply Finset.sum_congr rfl
    intro a ha
    rw [Finset.mem_range] at ha
    have hc := bitReverse_lt 64 30 a (by omega)
    have hidx : b * 2 ^ 30 + bitReverse 64 a 30 < 2 ^ 31 := by omega
    have hrev : bitReverse 64 (b * 2 ^ 30 + bitReverse 64 a 30) 31 = 2 * a + b := by
      have e : b * 2 ^ 30 + bitReverse 64 a 30 = bitReverse 64 a 30 + 2 ^ 30 * b := by ring
      rw [e, bitReverse_high 64 30 _ b (by omega) hc,
        bitReverse_involutive 64 30 a (by omega) ha, Nat.mod_eq_of_lt hb]
    have e30 : (omega : ZMod F.modulus) ^ 2 ^ (31 - 30) = (omega : ZMod F.modulus) ^ 2 := by
      norm_num
    unfold slot
    rw [p2 _ hidx, hrev, e30]

set_option maxRecDepth 100000 in
theorem prime_p64 : Nat.Prime Fp64.modulus := by
  have hm : Fp64.modulus < 2 ^ Fp64.w := by decide
  have h1 : 1 < Fp64.modulus := by decide
  have hfac : Fp64.modulus - 1 = 29 * 2 ^ 57 := by decide
  have e1 : Fp64.pow 3 (Fp64.modulus - 1) = 1 := by decide
  have e2 : Fp64.pow 3 ((Fp64.modulus - 1) / 2) ≠ 1 := by decide
  have e3 : Fp64.pow 3 ((Fp64.modulus - 1) / 29) ≠ 1 := by decide
  rw [Fp64.pow_eq hm _ _ (by decide)] at e1 e2 e3
  apply lucas_primality Fp64.modulus ((3 : Nat) : ZMod Fp64.modulus)
  · exact (pow_mod_eq_one_iff _ h1 3 _).mp e1
  · intro q hq hdvd
    rw [hfac] at hdvd
    have hq2 : q = 29 ∨ q = 2 := by
      rcases (Nat.Prime.dvd_mul hq).mp hdvd with h | h
      · left
        exact (Nat.prime_dvd_prime_iff_eq hq (by norm_num)).mp h
      · right
        exact (Nat.prime_dvd_prime_iff_eq hq Nat.prime_two).mp (hq.dvd_of_dvd_pow h)
    rcases hq2 with rfl | rfl
    · intro hc
      exact e3 ((pow_mod_eq_one_iff _ h1 3 _).mpr hc)
    · intro hc
      exact e2 ((pow_mod_eq_one_iff _ h1 3 _).mpr hc)

theorem delta31_length : delta31.length = 2 ^ 31 := by
  unfold delta31
  rw [List.length_cons, List.length_replicate]
  norm_num

theorem delta31_getD (i : Nat) : delta31.getD i 0 = if i = 0 then 1 else 0 := by
  unfold delta31
  cases i with
  | zero => rfl
  | succ k =>
    rw [if_neg (by omega), List.getD_cons_succ, List.getD_eq_getElem?_getD,
      List.getElem?_replicate]
    split <;> rfl

theorem half_ones_reduced (z : List Nat) (hz : z.length = 2 ^ 31)
    (hval : ∀ i, i < 2 ^ 31 → z.getD i 0 = if i < 2 ^ 30 then 1 else 0) :
    Reduced Fp64 z := by
  have h1 : 1 < Fp64.modulus := by decide
  intro i
  by_cases hi : i < 2 ^ 31
  · rw [hval i hi]
    split <;> omega
  · rw [List.getD_eq_default _ _ (by omega)]
    omega

/-- On `delta31` the transform that lost its last stage leaves `1` in the first half
and `0` in the second half. -/
theorem forwardFFT1_delta31 :
    ∃ z, forwardFFT1 Fp64 delta31 omega31 false = (z, none) ∧ z.length = 2 ^ 31 ∧
      ∀ i, i < 2 ^ 31 → z.getD i 0 = if i < 2 ^ 30 then 1 else 0 := by
  have hm : Fp64.modulus < 2 ^ Fp64.w := by decide
  have h1 : 1 < Fp64.modulus := by decide
  have hlt : omega31 < Fp64.modulus := by decide
  have hred : Reduced Fp64 delta31 := by
    intro i
    rw [delta31_getD]
    split <;> omega
  have hneg : (omega31 : ZMod Fp64.modulus) ^ (2 ^ 30) = -1 := by
    have e2 : Fp64.pow omega31 (2 ^ 30) = Fp64.modulus - 1 := by decide
    have := cast_pow Fp64 hm omega31 (2 ^ 30) hlt
    rw [e2, Nat.cast_sub (by omega), ZMod.natCast_self] at this
    rw [← this]
    simp
  obtain ⟨z, z1, z2, z3, z4⟩ := forwardFFT1_length_2_31 Fp64 hm h1 delta31 delta31_length hred
    omega31 hlt hneg (by decide)
  refine ⟨z, z1, z2, ?_⟩
  intro i hi
  have hslot : ∀ b j, b < 2 → j < 2 ^ 30 →
      slot Fp64 z (b * 2 ^ 30 + j) = if b = 0 then 1 else 0 := by
    intro b j hb hj
    rw [z4 b j hb hj]
    have hterm : ∀ a ∈ Finset.range (2 ^ 30),
        slot Fp64 delta31 (2 * a + b) * ((omega31 : ZMod Fp64.modulus) ^ 2) ^ (a * j)
          = if a = 0 then (if b = 0 then 1 else 0) else 0 := by
      intro a _
      unfold slot
      rw [delta31_getD]
      by_cases ha : a = 0
      · subst ha
        by_cases hb0 : b = 0
        · subst hb0; simp
        · rw [if_neg (by omega), if_pos rfl, if_neg hb0]; simp
      · rw [if_neg (by omega), if_neg ha]; simp
    rw [Finset.sum_congr rfl hterm, Finset.sum_ite_eq' (Finset.range (2 ^ 30)) 0,
      if_pos (Finset.mem_range.mpr (by positivity))]
  have hcast : ((z.getD i 0 : Nat) : ZMod Fp64.modulus)
      = (((if i < 2 ^ 30 then 1 else 0 : Nat)) : ZMod Fp64.modulus) := by
    by_cases hlo : i < 2 ^ 30
    · have := hslot 0 i (by omega) hlo
      unfold slot at this
      rw [Nat.zero_mul, Nat.zero_add] at this
      rw [this, if_pos rfl, if_pos hlo]
      simp
    · have := hslot 1 (i - 2 ^ 30) (by omega) (by omega)
      unfold slot at this
      have e : 1 * 2 ^ 30 + (i - 2 ^ 30) = i := by omega
      rw [e] at this
      rw [this, if_neg (by omega), if_neg hlo]
      simp
  apply cast_inj_of_lt Fp64.modulus _ _ (z3 i) _ hcast
  split <;> omega

set_option maxRecDepth 100000 in
/-- The inverse transform that lost its last stage, on the sequence of `2 ^ 30` ones
followed by `2 ^ 30` zeros: slot `0` ends as `4⁻¹ mod p`. -/
theorem inverseFFT1_half_ones (z : List Nat) (hz : z.length = 2 ^ 31)
    (hval : ∀ i, i < 2 ^ 31 → z.getD i 0 = if i < 2 ^ 30 then 1 else 0) :
    ∃ out, inverseFFT1 Fp64 z omega31 false = (out, none) ∧
      out.getD 0 0 = 3134505340649865217 := by
  have hm : Fp64.modulus < 2 ^ Fp64.w := by decide
  have h1 : 1 < Fp64.modulus := by decide
  have hzred := half_ones_reduced z hz hval
  have hW : Fp64.invU omega31 = 3782876452850024232 := by decide
  have hN : Fp64.invU (Fp64.ofRep (2 ^ 31 % 2 ^ Fp64.w)) = 4179340452253663233 := by decide
  have hWlt : (3782876452850024232 : Nat) < Fp64.modulus := by decide
  have hneg : ((3782876452850024232 : Nat) : ZMod Fp64.modulus) ^ (2 ^ 30) = -1 := by
    have e2 : Fp64.pow 3782876452850024232 (2 ^ 30) = Fp64.modulus - 1 := by decide
    have := cast_pow Fp64 hm 3782876452850024232 (2 ^ 30) hWlt
    rw [e2, Nat.cast_sub (by omega), ZMod.natCast_self] at this
    rw [← this]
    simp
  obtain ⟨u, u1, u2, u3, u4⟩ := forwardFFT1_length_2_31 Fp64 hm h1 z hz hzred
    3782876452850024232 hWlt hneg (by decide)
  -- slot 0 of the forward pass is the number of ones in the even slots
  have hu0 : u.getD 0 0 = 2 ^ 29 := by
    apply cast_inj_of_lt Fp64.modulus _ _ (u3 0) (by decide)
    have := u4 0 0 (by omega) (by positivity)
    unfold slot at this
    rw [Nat.zero_mul, Nat.zero_add] at this
    rw [this]
    have hterm : ∀ a ∈ Finset.range (2 ^ 30),
        ((z.getD (2 * a + 0) 0 : Nat) : ZMod Fp64.modulus)
            * (((3782876452850024232 : Nat) : ZMod Fp64.modulus) ^ 2) ^ (a * 0)
          = if a < 2 ^ 29 then 1 else 0 := by
      intro a ha
      rw [Finset.mem_range] at ha
      rw [Nat.add_zero, Nat.mul_zero, pow_zero, mul_one, hval (2 * a) (by omega)]
      by_cases h : a < 2 ^ 29
      · rw [if_pos (by omega), if_pos h]; simp
      · rw [if_neg (by omega), if_neg h]; simp
    rw [Finset.sum_congr rfl hterm]
    have hsub : Finset.range (2 ^ 29) ⊆ Finset.range (2 ^ 30) := by
      intro a ha
      rw [Finset.mem_range] at ha ⊢
      omega
    rw [← Finset.sum_subset hsub]
    · rw [Finset.sum_congr rfl (fun a ha => if_pos (Finset.mem_range.mp ha))]
      rw [Finset.sum_const, Finset.card_range]
      simp
    · intro a _ ha
      rw [Finset.mem_range] at ha
      rw [if_neg ha]
  obtain ⟨s1, s2⟩ := scale_getD Fp64 4179340452253663233 u (2 ^ 31) (by omega)
  refine ⟨(List.range (2 ^ 31)).foldl
    (fun y i => y.set i (Fp64.mul 4179340452253663233 (y.getD i 0))) u, ?_, ?_⟩
  · unfold inverseFFT1 inverseFFT
    simp only [hz, hN, hW, u1]
  · rw [s2 0, if_pos (by positivity), hu0]
    decide

theorem delta31_mem_lt : ∀ v ∈ delta31, v < Fp64.modulus := by
  have h1 : 1 < Fp64.modulus := by decide
  intro v hv
  unfold delta31 at hv
  rw [List.mem_cons, List.mem_replicate] at hv
  rcases hv with rfl | ⟨-, rfl⟩ <;> omega

/-- C1 at the failing input: in the 64-bit field (prime modulus), with the root
`omega31` of order exactly `2 ^ 31` and the sequence `delta31` of length `2 ^ 31`,
`forwardFFT1` followed by `inverseFFT1` (and `forwardFFT2` followed by `inverseFFT2`)
returns normally with `4⁻¹ mod p` in slot `0`, where the original sequence holds `1`:
for `q = 31` the `int` expression `1 << q` makes the last stage perform no butterfly. -/
theorem round_trip_fails_at_length_2_31 :
    Nat.Prime Fp64.modulus ∧ delta31.length = 2 ^ 31 ∧ (∀ v ∈ delta31, v < Fp64.modulus) ∧
    omega31 < Fp64.modulus ∧ omega31 ^ (2 ^ 31) % Fp64.modulus = 1 ∧
    (∀ k, 0 < k → k < 2 ^ 31 → omega31 ^ k % Fp64.modulus ≠ 1) ∧
    delta31.getD 0 0 = 1 ∧
    (∃ y out, forwardFFT1 Fp64 delta31 omega31 false = (y, none) ∧
      inverseFFT1 Fp64 y omega31 false = (out, none) ∧ out.getD 0 0 = 3134505340649865217) ∧
    (∃ y out, forwardFFT2 Fp64 delta31 omega31 false = (y, none) ∧
      inverseFFT2 Fp64 y omega31 false = (out, none) ∧ out.getD 0 0 = 3134505340649865217) := by
  obtain ⟨o1, o2, o3⟩ := omega31_order
  obtain ⟨z, z1, z2, z3⟩ := forwardFFT1_delta31
  obtain ⟨out, q1, q2⟩ := inverseFFT1_half_ones z z2 z3
  refine ⟨prime_p64, delta31_length, delta31_mem_lt, o1, o2, o3, by rw [delta31_getD, if_pos rfl],
    ⟨z, out, z1, q1, q2⟩, ⟨z, out, ?_, ?_, q2⟩⟩
  · rw [← forwardFFT1_eq_forwardFFT2]; exact z1
  · rw [inverseFFT2_eq_inverseFFT1]; exact q1

/-- C2 at the failing input: in the 64-bit field, with the root `omega31` of order
exactly `2 ^ 31` and `a = b = delta31` (length `2 ^ 31`, zero beyond slot `0`), the
forward transforms, the slot-wise product and the inverse transform return normally
with `4⁻¹ mod p` in slot `0`, where the cyclic (and ordinary) convolution has `1`:
for `q = 31` the `int` expression `1 << q` makes the last stage perform no butterfly. -/
theorem convolution_fails_at_length_2_31 :
    Nat.Prime Fp64.modulus ∧ delta31.length = 2 ^ 31 ∧ (∀ v ∈ delta31, v < Fp64.modulus) ∧
    omega31 < Fp64.modulus ∧ omega31 ^ (2 ^ 31) % Fp64.modulus = 1 ∧
    (∀ k, 0 < k → k < 2 ^ 31 → omega31 ^ k % Fp64.modulus ≠ 1) ∧
    (∑ j in Finset.range (2 ^ 31), ∑ k in Finset.range (2 ^ 31),
        if (j + k) % 2 ^ 31 = 0 then delta31.getD j 0 * delta31.getD k 0 else 0)
      % Fp64.modulus = 1 ∧
    ∃ fa out, forwardFFT1 Fp64 delta31 omega31 false = (fa, none) ∧
      inverseFFT1 Fp64
        ((List.range (2 ^ 31)).map (fun i => Fp64.mul (fa.getD i 0) (fa.getD i 0)))
        omega31 false = (out, none) ∧
      out.getD 0 0 = 3134505340649865217 := by
  obtain ⟨o1, o2, o3⟩ := omega31_order
  obtain ⟨z, z1, z2, z3⟩ := forwardFFT1_delta31
  have hf3len : ((List.range (2 ^ 31)).map (fun i => Fp64.mul (z.getD i 0) (z.getD i 0))).length
      = 2 ^ 31 := by
    rw [List.length_map, List.length_range]
  have m1 : Fp64.mul 1 1 = 1 := by decide
  have m0 : Fp64.mul 0 0 = 0 := by decide
  have hf3 : ∀ i, i < 2 ^ 31 →
      ((List.range (2 ^ 31)).map (fun i => Fp64.mul (z.getD i 0) (z.getD i 0))).getD i 0
        = if i < 2 ^ 30 then 1 else 0 := by
    intro i hi
    rw [getD_map_range, if_pos hi, z3 i hi]
    split
    · exact m1
    · exact m0
  obtain ⟨out, q1, q2⟩ := inverseFFT1_half_ones _ hf3len hf3
  refine ⟨prime_p64, delta31_length, delta31_mem_lt, o1, o2, o3, ?_, z, out, z1, q1, q2⟩
  have hsum : (∑ j in Finset.range (2 ^ 31), ∑ k in Finset.range (2 ^ 31),
      if (j + k) % 2 ^ 31 = 0 then delta31.getD j 0 * delta31.getD k 0 else 0) = 1 := by
    rw [Finset.sum_eq_single 0]
    · rw [Finset.sum_eq_single 0]
      · rw [delta31_getD, if_pos rfl]; rfl
      · intro k _ hk
        rw [delta31_getD k, if_neg hk, Nat.mul_zero, ite_self]
      · intro h
        exact absurd (Finset.mem_range.mpr (by positivity)) h
    · intro j _ hj
      apply Finset.sum_eq_zero
      intro k _
      rw [delta31_getD j, if_neg hj, Nat.zero_mul, ite_self]
    · intro h
      exact absurd (Finset.mem_range.mpr (by positivity)) h
  rw [hsum]
  decide

/-- For factors that are zero from slot `n / 2` on and ordinary convolution
coefficients below `p`, the result is the ordinary convolution; lengths up to `2 ^ 30`. -/
theorem convolution_zero_padded (F : zmod_t) (hp : Nat.Prime F.modulus)
    (hm : F.modulus < 2 ^ F.w)
    (t : Nat) (ht : t ≤ 30) (a b : List Nat) (ha : a.length = 2 ^ t) (hb : b.length = 2 ^ t)
    (hreda : ∀ v ∈ a, v < F.modulus) (hredb : ∀ v ∈ b, v < F.modulus)
    (omega : Nat) (hω : omega < F.modulus)
    (hord1 : omega ^ (2 ^ t) % F.modulus = 1)
    (hord2 : ∀ k, 0 < k → k < 2 ^ t → omega ^ k % F.modulus ≠ 1)
    (hza : ∀ j, 2 ^ t / 2 ≤ j → a.getD j 0 = 0) (hzb : ∀ j, 2 ^ t / 2 ≤ j → b.getD j 0 = 0) :
    ∃ fa fb out, forwardFFT1 F a omega false = (fa, none) ∧
      forwardFFT1 F b omega false = (fb, none) ∧
      inverseFFT1 F ((List.range (2 ^ t)).map (fun i => F.mul (fa.getD i 0) (fb.getD i 0)))
        omega false = (out, none) ∧
      out.length = 2 ^ t ∧
      ∀ i, i < 2 ^ t →
        (∑ j in Finset.range (i + 1), a.getD j 0 * b.getD (i - j) 0) < F.modulus →
        out.getD i 0 = ∑ j in Finset.range (i + 1), a.getD j 0 * b.getD (i - j) 0 := by
  obtain ⟨fa, fb, out, h1, h2, h3, h4, h5⟩ :=
    convolution_core F hp hm t ht a b ha hb hreda hredb omega hω hord1 hord2
  refine ⟨fa, fb, out, h1, h2, h3, h4, ?_⟩
  intro i hi hlt
  rw [h5 i hi, cyclic_eq_ordinary (2 ^ t) (fun j => a.getD j 0) (fun j => b.getD j 0) hza hzb i hi,
    Nat.mod_eq_of_lt hlt]

set_option maxRecDepth 100000 in
/-- The fixed test of `checkFFT<uint16_t>`: `p = 40961`, root `12 ^ (2 ^ (13 - 4))`,
`n = 16`; both variants map `in1_16`, `in2_16` to `out_16`. -/
theorem checkFFT_16 :
    testRoot Fp16 FftPrime16 16 = 12 ^ (2 ^ (13 - 4)) % Fp16.modulus ∧
    checkFFT_single Fp16 FftPrime16 (forwardFFT1 Fp16) (inverseFFT1 Fp16) 16 in1_16 in2_16
      = (out_16, none) ∧
    checkFFT_single Fp16 FftPrime16 (forwardFFT2 Fp16) (inverseFFT2 Fp16) 16 in1_16 in2_16
      = (out_16, none) := by
  refine ⟨?_, ?_, ?_⟩
  · have hm : Fp16.modulus < 2 ^ Fp16.w := by decide
    have e : testRoot Fp16 FftPrime16 16 = Fp16.pow 12 (2 ^ (13 - 4)) := by decide
    rw [e, Fp16.pow_eq hm _ _ (by decide)]
  · decide
  · decide

/-- The round trip of `forwardFFT2` and `inverseFFT2` for lengths up to `2 ^ 30`. -/
theorem round_trip_core_variant2 (F : zmod_t) (hp : Nat.Prime F.modulus)
    (hm : F.modulus < 2 ^ F.w)
    (t : Nat) (ht : t ≤ 30) (x : List Nat) (hx : x.length = 2 ^ t)
    (hred : ∀ v ∈ x, v < F.modulus) (omega : Nat) (hω : omega < F.modulus)
    (hord1 : omega ^ (2 ^ t) % F.modulus = 1)
    (hord2 : ∀ k, 0 < k → k < 2 ^ t → omega ^ k % F.modulus ≠ 1) :
    ∃ y, forwardFFT2 F x omega false = (y, none) ∧ inverseFFT2 F y omega false = (x, none) := by
  obtain ⟨y, h1, h2⟩ := round_trip_core F hp hm t ht x hx hred omega hω hord1 hord2
  refine ⟨y, ?_, ?_⟩
  · rw [← forwardFFT1_eq_forwardFFT2]; exact h1
  · rw [inverseFFT2_eq_inverseFFT1]; exact h2

/-! ## `ceilLg` and `is2pow` on every argument -/

/-- The loop of `ceilLg` started on `n ≥ 1` at bit position `i`: with `e` the position
of the highest set bit of `n`, it ends with `lastSeen = i + e` and has counted at least
one set bit, exactly one when `n = 2 ^ e`. -/
theorem ceilLgLoop_spec : ∀ (fuel n i ls ns : Nat), 1 ≤ n → n ≤ fuel →
    ∃ e c, 2 ^ e ≤ n ∧ n < 2 ^ (e + 1) ∧ 1 ≤ c ∧ (c = 1 ↔ n = 2 ^ e) ∧
      ceilLgLoop fuel i n ls ns = (i + e, ns + c) := by
  intro fuel
  induction fuel with
  | zero => intro n i ls ns h1 h2; omega
  | succ fuel ih =>
    intro n i ls ns h1 h2
    have hn0 : n ≠ 0 := by omega
    rw [ceilLgLoop]
    simp only [hn0, ne_eq, not_false_eq_true, if_true]
    by_cases hone : n = 1
    · subst hone
      refine ⟨0, 1, by simp, by simp, le_rfl, by simp, ?_⟩
      simp [ceilLgLoop_zero]
    · by_cases hodd : n % 2 = 1
      · simp only [hodd, if_true]
        obtain ⟨e, c, b1, b2, b3, b4, b5⟩ :=
          ih (n / 2) (i + 1) i (ns + 1) (by omega) (by omega)
        have p1 : 2 ^ (e + 1) = 2 * 2 ^ e := pow_succ' 2 e
        have p2 : 2 ^ (e + 1 + 1) = 2 * 2 ^ (e + 1) := pow_succ' 2 (e + 1)
        refine ⟨e + 1, 1 + c, by omega, by omega, by omega, ?_, ?_⟩
        · constructor
          · intro h; omega
          · intro h; omega
        · rw [b5]
          congr 1 <;> omega
      · simp only [hodd, if_false]
        obtain ⟨e, c, b1, b2, b3, b4, b5⟩ :=
          ih (n / 2) (i + 1) ls ns (by omega) (by omega)
        have p1 : 2 ^ (e + 1) = 2 * 2 ^ e := pow_succ' 2 e
        have p2 : 2 ^ (e + 1 + 1) = 2 * 2 ^ (e + 1) := pow_succ' 2 (e + 1)
        refine ⟨e + 1, c, by omega, by omega, b3, ?_, ?_⟩
        · rw [b4]
          constructor
          · intro h; omega
          · intro h; omega
        · rw [b5]
          congr 1
          omega

/-- The value of `ceilLg` in terms of the highest set bit. -/
theorem ceilLg_cases (n : Nat) (hn : 1 ≤ n) :
    ∃ e, 2 ^ e ≤ n ∧ n < 2 ^ (e + 1) ∧ ceilLg n = if n = 2 ^ e then e else e + 1 := by
  obtain ⟨e, c, b1, b2, b3, b4, b5⟩ := ceilLgLoop_spec n n 0 0 0 hn le_rfl
  refine ⟨e, b1, b2, ?_⟩
  unfold ceilLg
  rw [b5]
  simp only [Nat.zero_add]
  by_cases h : n = 2 ^ e
  · rw [if_pos h, if_neg (by have := b4.mpr h; omega)]
  · rw [if_neg h, if_pos]
    by_contra hc
    exact h (b4.mp (by omega))

/-- `ceilLg n` is the least `t` with `n ≤ 2 ^ t`. -/
theorem ceilLg_least (n : Nat) (hn : 1 ≤ n) :
    n ≤ 2 ^ ceilLg n ∧ ∀ t, n ≤ 2 ^ t → ceilLg n ≤ t := by
  obtain ⟨e, b1, b2, b3⟩ := ceilLg_cases n hn
  rw [b3]
  by_cases h : n = 2 ^ e
  · rw [if_pos h]
    refine ⟨by omega, ?_⟩
    intro t ht
    by_contra hlt
    have : 2 ^ (t + 1) ≤ 2 ^ e := Nat.pow_le_pow_right (by decide) (by omega)
    have : 2 ^ (t + 1) = 2 * 2 ^ t := pow_succ' 2 t
    have : 0 < 2 ^ t := by positivity
    omega
  · rw [if_neg h]
    refine ⟨by omega, ?_⟩
    intro t ht
    by_contra hlt
    have : 2 ^ t ≤ 2 ^ e := Nat.pow_le_pow_right (by decide) (by omega)
    omega

/-- C13 (`ceilLg`): for every `n ≥ 1`, `ceilLg(n)` is the ceiling of `log2(n)`, the
least `t` with `2 ^ t ≥ n`; in particular `ceilLg(1) = 0`, `ceilLg(2) = 1`,
`ceilLg(3) = 2`. -/
theorem ceilLg_is_ceiling_log2 (n : Nat) (hn : 1 ≤ n) :
    n ≤ 2 ^ ceilLg n ∧ (∀ t, n ≤ 2 ^ t → ceilLg n ≤ t) ∧
    ceilLg 1 = 0 ∧ ceilLg 2 = 1 ∧ ceilLg 3 = 2 := by
  obtain ⟨h1, h2⟩ := ceilLg_least n hn
  exact ⟨h1, h2, by decide, by decide, by decide⟩

theorem ceilLg_is_ceiling_log2_witness :
    5 ≤ 2 ^ ceilLg 5 ∧ (∀ t, 5 ≤ 2 ^ t → ceilLg 5 ≤ t) ∧
    ceilLg 1 = 0 ∧ ceilLg 2 = 1 ∧ ceilLg 3 = 2 :=
  ceilLg_is_ceiling_log2 5 (by decide)

theorem is2powLoop_spec : ∀ (fuel n : Nat), n ≤ fuel →
    (is2powLoop fuel n true = true ↔ n = 0) ∧
    (is2powLoop fuel n false = true ↔ ∃ k, n = 2 ^ k) := by
  intro fuel
  induction fuel with
  | zero =>
    intro n hn
    have : n = 0 := by omega
    subst this
    refine ⟨by simp [is2powLoop], ?_⟩
    simp only [is2powLoop, Bool.false_eq_true, false_iff, not_exists]
    intro k hk
    have : 0 < 2 ^ k := by positivity
    omega
  | succ fuel ih =>
    intro n hn
    by_cases hn0 : n = 0
    · subst hn0
      refine ⟨by simp [is2powLoop], ?_⟩
      simp only [is2powLoop, ne_eq, not_true_eq_false, if_false, Bool.false_eq_true, false_iff,
        not_exists]
      intro k hk
      have : 0 < 2 ^ k := by positivity
      omega
    · obtain ⟨ihA, ihB⟩ := ih (n / 2) (by omega)
      by_cases hodd : n % 2 = 1
      · constructor
        · simp [is2powLoop, hn0, hodd]
        · rw [is2powLoop]
          simp only [hn0, ne_eq, not_false_eq_true, if_true, hodd, Bool.false_eq_true, if_false]
          rw [ihA]
          constructor
          · intro h
            exact ⟨0, by omega⟩
          · rintro ⟨k, hk⟩
            cases k with
            | zero => simp at hk; omega
            | succ k => rw [pow_succ] at hk; omega
      · constructor
        · rw [is2powLoop]
          simp only [hn0, ne_eq, not_false_eq_true, if_true, hodd, if_false]
          rw [ihA]
          constructor
          · intro h; omega
          · intro h; exact h.elim
        · rw [is2powLoop]
          simp only [hn0, ne_eq, not_false_eq_true, if_true, hodd, if_false]
          rw [ihB]
          constructor
          · rintro ⟨k, hk⟩
            exact ⟨k + 1, by rw [pow_succ]; omega⟩
          · rintro ⟨k, hk⟩
            cases k with
            | zero => simp at hk; omega
            | succ k => exact ⟨k, by rw [pow_succ] at hk; omega⟩

/-- `is2pow(n)` is true exactly for the powers of two. -/
theorem is2pow_iff (n : Nat) : is2pow n = true ↔ ∃ k, n = 2 ^ k :=
  (is2powLoop_spec n n le_rfl).2

/-- A length `n` equals `2 ^ ceilLg(n)` exactly when it is a power of two. -/
theorem ceilLg_eq_iff_pow (n : Nat) : n = 2 ^ ceilLg n ↔ ∃ k, n = 2 ^ k := by
  constructor
  · intro h
    exact ⟨_, h⟩
  · rintro ⟨k, rfl⟩
    rw [ceilLg_two_pow]

theorem ceilLg_le_of_le (n t : Nat) (h : n ≤ 2 ^ t) : ceilLg n ≤ t := by
  by_cases hn : 1 ≤ n
  · exact (ceilLg_least n hn).2 t h
  · have : n = 0 := by omega
    subst this
    have : ceilLg 0 = 0 := by decide
    omega

/-- The length test of `checkParameters` for `n ≤ 2 ^ 30`: it throws the length error
exactly when `n` is not a power of two, which is when `is2pow(n)` is false. -/
theorem length_test_small (F : zmod_t) (n omega : Nat) (hn : n ≤ 2 ^ 30) :
    (checkParameters F n (ceilLg n) omega = some .invalidLength ↔ ¬ ∃ k, n = 2 ^ k) ∧
    ((¬ ∃ k, n = 2 ^ k) ↔ is2pow n = false) := by
  have ht : ceilLg n ≤ 30 := ceilLg_le_of_le n 30 hn
  constructor
  · rw [← ceilLg_eq_iff_pow]
    unfold checkParameters
    rw [shlInt_of_lt _ (by omega)]
    simp only []
    by_cases h : n = 2 ^ ceilLg n
    · rw [if_neg (fun hc => hc h)]
      constructor
      · intro hc
        split at hc <;> simp at hc
      · intro hc
        exact absurd h hc
    · rw [if_pos h]
      simp [h]
  · rw [← is2pow_iff]
    simp

/-- The boundary values of `is2pow`, and the length `0`, which the length test rejects. -/
theorem is2pow_boundary (F : zmod_t) (omega : Nat) :
    is2pow 0 = false ∧ is2pow 1 = true ∧ is2pow 6 = false ∧
    checkParameters F 0 (ceilLg 0) omega = some .invalidLength := by
  refine ⟨by decide, by decide, by decide, ?_⟩
  have e : ceilLg 0 = 0 := by decide
  have hs : shlInt 0 = some 1 := by decide
  rw [e]
  unfold checkParameters
  rw [hs]
  simp only []
  rw [if_pos (by decide)]

/-- C11 at the failing input: for the length `n = 2 ^ 31`, a power of two for which
`is2pow` is true, the length test `n != 1 << ceilLg(n)` of `checkParameters` throws the
length error, for every field and every `omega`: `1 << 31` is evaluated in `int`. -/
theorem length_test_rejects_power_of_two (F : zmod_t) (omega : Nat) :
    checkParameters F (2 ^ 31) (ceilLg (2 ^ 31)) omega = some .invalidLength ∧
    is2pow (2 ^ 31) = true ∧ ceilLg (2 ^ 31) = 31 := by
  have hs : shlInt 31 = some (2 ^ 64 - 2 ^ 31) := by decide
  refine ⟨?_, (is2pow_iff _).mpr ⟨31, rfl⟩, ceilLg_two_pow 31⟩
  rw [ceilLg_two_pow]
  unfold checkParameters
  rw [hs]
  simp only []
  rw [if_pos (by decide)]

/-! ## `bitReverse` bit by bit -/

theorem bitReverse_testBit (W : Nat) : ∀ (nb j i : Nat), nb ≤ W → i < nb →
    (bitReverse W j nb).testBit i = j.testBit (nb - 1 - i) := by
  intro nb
  induction nb with
  | zero => intro j i _ hi; omega
  | succ nb ih =>
    intro j i hnb hi
    have hlt := bitReverse_lt W nb (j / 2) (by omega)
    rw [bitReverse_succ W nb j hnb, Nat.mul_comm, Nat.testBit_mul_pow_two_add _ hlt]
    by_cases hc : i < nb
    · rw [if_pos hc, ih (j / 2) i (by omega) hc, Nat.testBit_div_two]
      congr 1
      omega
    · have hi2 : i = nb := by omega
      subst hi2
      rw [if_neg hc]
      have e1 : i - i = 0 := by omega
      have e2 : i + 1 - 1 - i = 0 := by omega
      rw [e1, e2, Nat.testBit_zero, Nat.testBit_zero, Nat.mod_mod]

theorem bitReverse_mod (W : Nat) : ∀ (nb j : Nat), nb ≤ W →
    bitReverse W (j % 2 ^ nb) nb = bitReverse W j nb := by
  intro nb
  induction nb with
  | zero => intro j _; rfl
  | succ nb ih =>
    intro j hnb
    rw [bitReverse_succ W nb _ hnb, bitReverse_succ W nb j hnb, pow_succ', Nat.mod_mul_right_mod,
      Nat.mod_mul_right_div_self, ih (j / 2) (by omega)]

/-- C14 (`bitReverse`): for every bit count `nb` not above the width `W` of the integer
type and every `j`, `bitReverse(j, nb)` is below `2 ^ nb`, its bit `i` is bit
`nb - 1 - i` of `j` for every `i < nb`, the bits of `j` from position `nb` on are
ignored, and `bitReverse(bitReverse(j, nb), nb) = j` for `j < 2 ^ nb`. -/
theorem bitReverse_reverses_bits (W nb j : Nat) (hnb : nb ≤ W) :
    bitReverse W j nb < 2 ^ nb ∧
    (∀ i, i < nb → (bitReverse W j nb).testBit i = j.testBit (nb - 1 - i)) ∧
    bitReverse W (j % 2 ^ nb) nb = bitReverse W j nb ∧
    (j < 2 ^ nb → bitReverse W (bitReverse W j nb) nb = j) :=
  ⟨bitReverse_lt W nb j hnb, fun i hi => bitReverse_testBit W nb j i hnb hi,
    bitReverse_mod W nb j hnb, fun hj => bitReverse_involutive W nb j hnb hj⟩

theorem bitReverse_reverses_bits_witness :
    bitReverse 64 13 5 < 2 ^ 5 ∧
    (∀ i, i < 5 → (bitReverse 64 13 5).testBit i = (13 : Nat).testBit (5 - 1 - i)) ∧
    bitReverse 64 (13 % 2 ^ 5) 5 = bitReverse 64 13 5 ∧
    (13 < 2 ^ 5 → bitReverse 64 (bitReverse 64 13 5) 5 = 13) :=
  bitReverse_reverses_bits 64 5 13 (by decide)

/-! ## The table of primes -/

set_option maxRecDepth 100000 in
theorem prime_p16 : Nat.Prime Fp16.modulus := by
  have hm : Fp16.modulus < 2 ^ Fp16.w := by decide
  have h1 : 1 < Fp16.modulus := by decide
  have hfac : Fp16.modulus - 1 = 5 * 2 ^ 13 := by decide
  have e1 : Fp16.pow 3 (Fp16.modulus - 1) = 1 := by decide
  have e2 : Fp16.pow 3 ((Fp16.modulus - 1) / 2) ≠ 1 := by decide
  have e3 : Fp16.pow 3 ((Fp16.modulus - 1) / 5) ≠ 1 := by decide
  rw [Fp16.pow_eq hm _ _ (by decide)] at e1 e2 e3
  apply lucas_primality Fp16.modulus ((3 : Nat) : ZMod Fp16.modulus)
  · exact (pow_mod_eq_one_iff _ h1 3 _).mp e1
  · intro q hq hdvd
    rw [hfac] at hdvd
    have hq2 : q = 5 ∨ q = 2 := by
      rcases (Nat.Prime.dvd_mul hq).mp hdvd with h | h
      · left
        exact (Nat.prime_dvd_prime_iff_eq hq (by norm_num)).mp h
      · right
        exact (Nat.prime_dvd_prime_iff_eq hq Nat.prime_two).mp (hq.dvd_of_dvd_pow h)
    rcases hq2 with rfl | rfl
    · intro hc
      exact e3 ((pow_mod_eq_one_iff _ h1 3 _).mpr hc)
    · intro hc
      exact e2 ((pow_mod_eq_one_iff _ h1 3 _).mpr hc)

set_option maxRecDepth 100000 in
theorem prime_p32 : Nat.Prime Fp32.modulus := by
  have hm : Fp32.modulus < 2 ^ Fp32.w := by decide
  have h1 : 1 < Fp32.modulus := by decide
  have hfac : Fp32.modulus - 1 = 3 * 2 ^ 30 := by decide
  have e1 : Fp32.pow 5 (Fp32.modulus - 1) = 1 := by decide
  have e2 : Fp32.pow 5 ((Fp32.modulus - 1) / 2) ≠ 1 := by decide
  have e3 : Fp32.pow 5 ((Fp32.modulus - 1) / 3) ≠ 1 := by decide
  rw [Fp32.pow_eq hm _ _ (by decide)] at e1 e2 e3
  apply lucas_primality Fp32.modulus ((5 : Nat) : ZMod Fp32.modulus)
  · exact (pow_mod_eq_one_iff _ h1 5 _).mp e1
  · intro q hq hdvd
    rw [hfac] at hdvd
    have hq2 : q = 3 ∨ q = 2 := by
      rcases (Nat.Prime.dvd_mul hq).mp hdvd with h | h
      · left
        exact (Nat.prime_dvd_prime_iff_eq hq (by norm_num)).mp h
      · right
        exact (Nat.prime_dvd_prime_iff_eq hq Nat.prime_two).mp (hq.dvd_of_dvd_pow h)
    rcases hq2 with rfl | rfl
    · intro hc
      exact e3 ((pow_mod_eq_one_iff _ h1 5 _).mpr hc)
    · intro hc
      exact e2 ((pow_mod_eq_one_iff _ h1 5 _).mpr hc)

set_option maxRecDepth 100000 in
theorem gen16 : Fp16.pow FftPrime16.g (2 ^ FftPrime16.n) = 1 ∧
    Fp16.pow FftPrime16.g (2 ^ (FftPrime16.n - 1)) ≠ 1 := by
  constructor <;> decide

set_option maxRecDepth 100000 in
theorem gen32 : Fp32.pow FftPrime32.g (2 ^ FftPrime32.n) = 1 ∧
    Fp32.pow FftPrime32.g (2 ^ (FftPrime32.n - 1)) ≠ 1 := by
  constructor <;> decide

set_option maxRecDepth 100000 in
theorem gen64 : Fp64.pow FftPrime64.g (2 ^ FftPrime64.n) = 1 ∧
    Fp64.pow FftPrime64.g (2 ^ (FftPrime64.n - 1)) ≠ 1 := by
  constructor <;> decide

/-- The generator of a table entry has order `2 ^ n`: its `2 ^ n`-th power is `1` and
its `2 ^ (n-1)`-th power is not. -/
theorem generator_order (F : zmod_t) (hm : F.modulus < 2 ^ F.w) (p : Nat)
    (hp : F.modulus = p) (g a b : Nat) (hg : g < F.modulus)
    (e : F.pow g a = 1 ∧ F.pow g b ≠ 1) :
    g ^ a % p = 1 ∧ g ^ b % p ≠ 1 := by
  rw [F.pow_eq hm _ _ hg, F.pow_eq hm _ _ hg, hp] at e
  exact e

/-- C12 (prime-parameter table): for each of the three `FftPrime` specialisations
(`uint16_t`: n=13, k=5, p=40961, g=12; `uint32_t`: n=30, k=3, p=3221225473, g=13;
`uint64_t`: n=57, k=29, p=4179340454199820289, g=21), `p = k * 2^n + 1`, `p` is prime,
`g^(2^n) ≡ 1 (mod p)` and `g^(2^(n-1)) ≢ 1 (mod p)`. -/
theorem fftPrime_table_valid :
    (FftPrime16 = ⟨.u16, 13, 5, 40961, 12, 1000000000⟩ ∧
      FftPrime16.p = FftPrime16.k * 2 ^ FftPrime16.n + 1 ∧ Nat.Prime FftPrime16.p ∧
      FftPrime16.g ^ (2 ^ FftPrime16.n) % FftPrime16.p = 1 ∧
      FftPrime16.g ^ (2 ^ (FftPrime16.n - 1)) % FftPrime16.p ≠ 1) ∧
    (FftPrime32 = ⟨.u32, 30, 3, 3221225473, 13, 2 ^ 15⟩ ∧
      FftPrime32.p = FftPrime32.k * 2 ^ FftPrime32.n + 1 ∧ Nat.Prime FftPrime32.p ∧
      FftPrime32.g ^ (2 ^ FftPrime32.n) % FftPrime32.p = 1 ∧
      FftPrime32.g ^ (2 ^ (FftPrime32.n - 1)) % FftPrime32.p ≠ 1) ∧
    (FftPrime64 = ⟨.u64, 57, 29, 4179340454199820289, 21, 100⟩ ∧
      FftPrime64.p = FftPrime64.k * 2 ^ FftPrime64.n + 1 ∧ Nat.Prime FftPrime64.p ∧
      FftPrime64.g ^ (2 ^ FftPrime64.n) % FftPrime64.p = 1 ∧
      FftPrime64.g ^ (2 ^ (FftPrime64.n - 1)) % FftPrime64.p ≠ 1) := by
  have g16 := generator_order Fp16 (by decide) FftPrime16.p rfl FftPrime16.g
    (2 ^ FftPrime16.n) (2 ^ (FftPrime16.n - 1)) (by decide) gen16
  have g32 := generator_order Fp32 (by decide) FftPrime32.p rfl FftPrime32.g
    (2 ^ FftPrime32.n) (2 ^ (FftPrime32.n - 1)) (by decide) gen32
  have g64 := generator_order Fp64 (by decide) FftPrime64.p rfl FftPrime64.g
    (2 ^ FftPrime64.n) (2 ^ (FftPrime64.n - 1)) (by decide) gen64
  exact ⟨⟨rfl, rfl, prime_p16, g16⟩, ⟨rfl, rfl, prime_p32, g32⟩, ⟨rfl, rfl, prime_p64, g64⟩⟩

/-! ## Inverses in the configured fields -/

theorem configured_prime (F : zmod_t) (hF : F = Fp16 ∨ F = Fp32 ∨ F = Fp64) :
    Nat.Prime F.modulus := by
  rcases hF with rfl | rfl | rfl
  · exact prime_p16
  · exact prime_p32
  · exact prime_p64

theorem cast_ne_zero_of_lt (p a : Nat) (ha : a < p) (ha0 : a ≠ 0) :
    ((a : Nat) : ZMod p) ≠ 0 := by
  intro h
  rw [ZMod.natCast_zmod_eq_zero_iff_dvd] at h
  have := Nat.le_of_dvd (Nat.pos_of_ne_zero ha0) h
  omega

theorem ne_zero_of_cast_ne_zero (p a : Nat) (h : ((a : Nat) : ZMod p) ≠ 0) : a ≠ 0 := by
  rintro rfl
  exact h (by simp)

theorem gcd_eq_one_of_prime (p a : Nat) (hp : Nat.Prime p) (ha : a < p) (ha0 : a ≠ 0) :
    Nat.gcd a p = 1 := by
  rw [Nat.gcd_comm]
  apply (Nat.Prime.coprime_iff_not_dvd hp).mpr
  intro hd
  have := Nat.le_of_dvd (Nat.pos_of_ne_zero ha0) hd
  omega

/-- In a configured field the inverse of a nonzero reduced element, checked or not, is
returned normally and equals the unchecked result `invU`. -/
theorem inv_ok (F : zmod_t) (hp : Nat.Prime F.modulus) (hm : F.modulus < 2 ^ F.w)
    (a : Nat) (ha : a < F.modulus) (ha0 : a ≠ 0) (check : Bool) :
    F.inv a check = .ok (F.invU a) := by
  obtain ⟨e1, -, -⟩ := F.inv_spec hm a ha check
  rw [e1]
  simp [gcd_eq_one_of_prime _ _ hp ha ha0]

theorem invU_ne_zero (F : zmod_t) (hp : Nat.Prime F.modulus) (hm : F.modulus < 2 ^ F.w)
    (a : Nat) (ha : a < F.modulus) (ha0 : a ≠ 0) : F.invU a ≠ 0 := by
  haveI := Fact.mk hp
  obtain ⟨-, e⟩ := cast_invU F hp hm a ha ha0
  apply ne_zero_of_cast_ne_zero F.modulus
  rw [e]
  exact inv_ne_zero (cast_ne_zero_of_lt _ _ ha ha0)

theorem invU_invU (F : zmod_t) (hp : Nat.Prime F.modulus) (hm : F.modulus < 2 ^ F.w)
    (a : Nat) (ha : a < F.modulus) (ha0 : a ≠ 0) : F.invU (F.invU a) = a := by
  haveI := Fact.mk hp
  obtain ⟨l1, e1⟩ := cast_invU F hp hm a ha ha0
  obtain ⟨l2, e2⟩ := cast_invU F hp hm _ l1 (invU_ne_zero F hp hm a ha ha0)
  apply cast_inj_of_lt F.modulus _ _ l2 ha
  rw [e2, e1, inv_inv]

theorem pow_ne_zero_of_ne_zero (F : zmod_t) (hp : Nat.Prime F.modulus)
    (hm : F.modulus < 2 ^ F.w) (a i : Nat) (ha : a < F.modulus) (ha0 : a ≠ 0) :
    F.pow a i ≠ 0 := by
  haveI := Fact.mk hp
  apply ne_zero_of_cast_ne_zero F.modulus
  rw [cast_pow F hm a i ha]
  exact pow_ne_zero _ (cast_ne_zero_of_lt _ _ ha ha0)

theorem invU_pow (F : zmod_t) (hp : Nat.Prime F.modulus) (hm : F.modulus < 2 ^ F.w)
    (a i : Nat) (ha : a < F.modulus) (ha0 : a ≠ 0) :
    F.invU (F.pow a i) = F.pow (F.invU a) i := by
  haveI := Fact.mk hp
  obtain ⟨l1, e1⟩ := cast_invU F hp hm a ha ha0
  have lp := pow_lt F hm a i ha
  obtain ⟨l2, e2⟩ := cast_invU F hp hm _ lp (pow_ne_zero_of_ne_zero F hp hm a i ha ha0)
  apply cast_inj_of_lt F.modulus _ _ l2 (pow_lt F hm _ i l1)
  rw [e2, cast_pow F hm a i ha, cast_pow F hm _ i l1, e1, inv_pow]

theorem mul_pow_invU (F : zmod_t) (hp : Nat.Prime F.modulus) (hm : F.modulus < 2 ^ F.w)
    (a i : Nat) (ha : a < F.modulus) (ha0 : a ≠ 0) :
    F.mul (F.pow (F.invU a) i) (F.pow a i) = 1 := by
  haveI := Fact.mk hp
  have h1 : 1 < F.modulus := hp.one_lt
  obtain ⟨l1, e1⟩ := cast_invU F hp hm a ha ha0
  have lp := pow_lt F hm a i ha
  have lq := pow_lt F hm _ i l1
  apply cast_inj_of_lt F.modulus _ _ (mul_lt F hm _ _ lq lp) h1
  rw [cast_mul F hm _ _ lq lp, cast_pow F hm a i ha, cast_pow F hm _ i l1, e1, ← mul_pow,
    inv_mul_cancel₀ (cast_ne_zero_of_lt _ _ ha ha0), one_pow, Nat.cast_one]

/-- C15 (inverse of inverse): for each configured prime modulus and every nonzero reduced
`ω` (in particular every root of unity), `inv(ω)`, checked or unchecked, returns a nonzero
reduced `s`, and `inv(s)`, checked or unchecked, returns `ω`. -/
theorem inv_inv_eq (F : zmod_t) (hF : F = Fp16 ∨ F = Fp32 ∨ F = Fp64)
    (ω : Nat) (hω : ω < F.modulus) (h0 : ω ≠ 0) (c1 c2 : Bool) :
    ∃ s, F.inv ω c1 = .ok s ∧ s < F.modulus ∧ s ≠ 0 ∧ F.inv s c2 = .ok ω := by
  obtain ⟨-, hm⟩ := configured_modulus_lt F hF
  have hp := configured_prime F hF
  have l1 := (cast_invU F hp hm ω hω h0).1
  have n1 := invU_ne_zero F hp hm ω hω h0
  refine ⟨F.invU ω, inv_ok F hp hm ω hω h0 c1, l1, n1, ?_⟩
  rw [inv_ok F hp hm _ l1 n1 c2, invU_invU F hp hm ω hω h0]

set_option maxRecDepth 100000 in
theorem inv_inv_eq_witness :
    ∃ s, Fp16.inv 101 true = .ok s ∧ s < Fp16.modulus ∧ s ≠ 0 ∧ Fp16.inv s false = .ok 101 :=
  inv_inv_eq Fp16 (Or.inl rfl) 101 (by decide) (by decide) true false

/-- C16 (inverse commutes with power): for each configured prime modulus, every nonzero
reduced `x` and every exponent `i`, `inv(pow(x, i))`, checked or unchecked, returns
`pow(inv(x), i)`, and `pow(inv(x), i) * pow(x, i)` is `1`; so for every value `i` of the
loop counter of `checkZmod` (`x = Zp(101)`, `i` from `0` up to `checkLimit = p + 4`)
neither "bad power" nor "bad inv" is reported. -/
theorem inv_commutes_with_pow (F : zmod_t) (hF : F = Fp16 ∨ F = Fp32 ∨ F = Fp64)
    (x i : Nat) (hx : x < F.modulus) (h0 : x ≠ 0) :
    (∀ c, F.inv (F.pow x i) c = .ok (F.pow (F.invU x) i)) ∧
    F.invU (F.pow x i) = F.pow (F.invU x) i ∧
    F.mul (F.pow (F.invU x) i) (F.pow x i) = F.ofRep 1 ∧ F.ofRep 1 = 1 ∧
    F.ofRep 101 = 101 ∧ checkLimit F = F.modulus + 4 ∧
    checkZmod_badPower F i = false ∧ checkZmod_badInv F i = false := by
  obtain ⟨h1, hm⟩ := configured_modulus_lt F hF
  have hp := configured_prime F hF
  have one : F.ofRep 1 = 1 := by
    unfold zmod_t.ofRep
    rw [if_pos h1]
  have l101 : 101 < F.modulus := by
    rcases hF with rfl | rfl | rfl <;> decide
  have lol : F.ofRep 101 = 101 := by
    unfold zmod_t.ofRep
    rw [if_pos l101]
  have lim : checkLimit F = F.modulus + 4 := by
    unfold checkLimit
    apply Nat.mod_eq_of_lt
    rcases hF with rfl | rfl | rfl <;> decide
  have lp := pow_lt F hm x i hx
  have np := pow_ne_zero_of_ne_zero F hp hm x i hx h0
  refine ⟨fun c => ?_, invU_pow F hp hm x i hx h0, ?_, one, lol, lim, ?_, ?_⟩
  · rw [inv_ok F hp hm _ lp np c, invU_pow F hp hm x i hx h0]
  · rw [one, mul_pow_invU F hp hm x i hx h0]
  · unfold checkZmod_badPower
    simp only [lol]
    rw [invU_pow F hp hm 101 i l101 (by decide)]
    simp
  · unfold checkZmod_badInv
    simp only [lol, one]
    rw [mul_pow_invU F hp hm 101 i l101 (by decide)]
    simp

set_option maxRecDepth 100000 in
theorem inv_commutes_with_pow_witness :
    (∀ c, Fp16.inv (Fp16.pow 101 40964) c = .ok (Fp16.pow (Fp16.invU 101) 40964)) ∧
    Fp16.invU (Fp16.pow 101 40964) = Fp16.pow (Fp16.invU 101) 40964 ∧
    Fp16.mul (Fp16.pow (Fp16.invU 101) 40964) (Fp16.pow 101 40964) = Fp16.ofRep 1 ∧
    Fp16.ofRep 1 = 1 ∧ Fp16.ofRep 101 = 101 ∧ checkLimit Fp16 = Fp16.modulus + 4 ∧
    checkZmod_badPower Fp16 40964 = false ∧ checkZmod_badInv Fp16 40964 = false :=
  inv_commutes_with_pow Fp16 (Or.inl rfl) 101 40964 (by decide) (by decide)

/-! ## The digit base of the table -/

/-- C17 at the failing input: the digit base of `FftPrime<uint16_t>` is `1000000000`,
whose square is not below `p = 40961`; the bases of the 32-bit and 64-bit entries
satisfy `base * base < p`.  The bound would hold for every width with the bases of the
16-bit and 64-bit entries exchanged. -/
theorem base_bound_fails_for_uint16 :
    FftPrime16.base = 1000000000 ∧ FftPrime16.p = 40961 ∧
    ¬ (FftPrime16.base * FftPrime16.base < FftPrime16.p) ∧
    FftPrime32.base * FftPrime32.base < FftPrime32.p ∧
    FftPrime64.base * FftPrime64.base < FftPrime64.p ∧
    FftPrime64.base * FftPrime64.base < FftPrime16.p ∧
    FftPrime16.base * FftPrime16.base < FftPrime64.p := by
  decide

/-! ## The forward transform as a discrete Fourier transform -/

/-- For lengths `2 ^ t`, `t ≤ 30`, where `1 << q` is exact in every stage, `forwardFFT1`
without validation leaves in slot `k` the sum of `x[j] * omega ^ (j * k)` modulo `p`. -/
theorem forwardFFT1_dft_small (F : zmod_t) (hp : Nat.Prime F.modulus)
    (hm : F.modulus < 2 ^ F.w) (t : Nat) (ht : t ≤ 30) (x : List Nat)
    (hx : x.length = 2 ^ t) (hred : ∀ v ∈ x, v < F.modulus) (omega : Nat)
    (hω : omega < F.modulus) (hord1 : omega ^ (2 ^ t) % F.modulus = 1)
    (hord2 : ∀ k, 0 < k → k < 2 ^ t → omega ^ k % F.modulus ≠ 1) :
    ∃ y, forwardFFT1 F x omega false = (y, none) ∧ y.length = 2 ^ t ∧
      ∀ k, k < 2 ^ t → y.getD k 0
        = (∑ j in Finset.range (2 ^ t), x.getD j 0 * omega ^ (j * k)) % F.modulus := by
  haveI := Fact.mk hp
  have h1 : 1 < F.modulus := hp.one_lt
  obtain ⟨-, -, -, c4, -, c6⟩ := root_facts F hp hm t omega hord1 hord2
  have hr := reduced_of_forall_mem F (by omega) x hred
  obtain ⟨y, y1, y2, y3, y4⟩ := forwardFFT1_dft F hm h1 t ht x hx hr omega hω c4 c6
  refine ⟨y, y1, y2, ?_⟩
  intro k hk
  apply cast_inj_of_lt F.modulus _ _ (y3 k) (Nat.mod_lt _ (by omega))
  have := y4 k hk
  unfold slot at this
  rw [this, ZMod.natCast_mod]
  push_cast
  rfl

/-- C18 at the failing input: in the 64-bit field (prime modulus), with the root
`omega31` of order exactly `2 ^ 31` and the sequence `delta31` of length `2 ^ 31`,
`forwardFFT1` returns normally with `0` in slot `2 ^ 30`, where the discrete Fourier
transform `∑ x[j] * omega ^ (j * k) mod p` is `1`: for `q = 31` the `int` expression
`1 << q` makes the last stage perform no butterfly. -/
theorem forwardFFT1_not_dft_at_length_2_31 :
    Nat.Prime Fp64.modulus ∧ delta31.length = 2 ^ 31 ∧ (∀ v ∈ delta31, v < Fp64.modulus) ∧
    omega31 < Fp64.modulus ∧ omega31 ^ (2 ^ 31) % Fp64.modulus = 1 ∧
    (∀ k, 0 < k → k < 2 ^ 31 → omega31 ^ k % Fp64.modulus ≠ 1) ∧
    (∃ y, forwardFFT1 Fp64 delta31 omega31 false = (y, none) ∧ y.getD (2 ^ 30) 0 = 0) ∧
    (∑ j in Finset.range (2 ^ 31), delta31.getD j 0 * omega31 ^ (j * 2 ^ 30))
      % Fp64.modulus = 1 := by
  obtain ⟨o1, o2, o3⟩ := omega31_order
  obtain ⟨z, z1, z2, z3⟩ := forwardFFT1_delta31
  refine ⟨prime_p64, delta31_length, delta31_mem_lt, o1, o2, o3, ⟨z, z1, ?_⟩, ?_⟩
  · rw [z3 (2 ^ 30) (Nat.pow_lt_pow_right (by decide) (by decide)), if_neg (lt_irrefl _)]
  · have hs : (∑ j in Finset.range (2 ^ 31), delta31.getD j 0 * omega31 ^ (j * 2 ^ 30)) = 1 := by
      rw [Finset.sum_eq_single 0]
      · rw [delta31_getD, if_pos rfl, Nat.zero_mul, pow_zero, Nat.mul_one]
      · intro j _ hj
        rw [delta31_getD, if_neg hj, Nat.zero_mul]
      · intro h
        exact absurd (Finset.mem_range.mpr (Nat.pos_pow_of_pos 31 (by decide))) h
    rw [hs]
    exact Nat.mod_eq_of_lt (by decide)

/-! ## Sequences of length one -/

/-- C20 (length-1 edge): for a sequence of length 1 and every `omega`, `forwardFFT1` and
`forwardFFT2` with `check = true` throw the root-order error and leave the sequence as it
was (`omega.pow(0)` is `1`), and with `check = false` they return normally with the
single element unchanged. -/
theorem length_one_edge (F : zmod_t) (v omega : Nat) :
    forwardFFT1 F [v] omega true = ([v], some .invalidRootOrder) ∧
    forwardFFT2 F [v] omega true = ([v], some .invalidRootOrder) ∧
    forwardFFT1 F [v] omega false = ([v], none) ∧
    forwardFFT2 F [v] omega false = ([v], none) ∧
    checkParameters F 1 (ceilLg 1) omega = some .invalidRootOrder := by
  have hc : checkParameters F 1 (ceilLg 1) omega = some .invalidRootOrder := by
    have e : ceilLg 1 = 0 := by decide
    rw [e]
    unfold checkParameters
    have s : shlInt 0 = some 1 := by decide
    rw [s]
    simp [zmod_t.pow]
  have hperm : permute [v] = [v] := by
    have e : ceilLg 1 = 0 := by decide
    simp [permute, e, permuteStep, List.range_succ, bitReverse_zero]
  have e : ceilLg 1 = 0 := by decide
  refine ⟨?_, ?_, ?_, ?_, hc⟩
  · unfold forwardFFT1
    simp only [List.length_singleton, if_true, hc]
  · unfold forwardFFT2
    simp only [List.length_singleton, if_true, hc]
  · unfold forwardFFT1
    simp only [List.length_singleton, Bool.false_eq_true, if_false, hperm, e, stageLoop]
  · unfold forwardFFT2
    simp only [List.length_singleton, Bool.false_eq_true, if_false, hperm, e, stageLoop]

/-! ## Index safety -/

theorem permuteIndices_lt (t : Nat) (ht : t < 64) :
    ∀ i ∈ permuteIndices (2 ^ t), i < 2 ^ t := by
  intro i hi
  unfold permuteIndices at hi
  rw [ceilLg_two_pow] at hi
  simp only [List.mem_flatMap, List.mem_range] at hi
  obtain ⟨k, hk, hmem⟩ := hi
  unfold permuteStepIndices at hmem
  have hj := bitReverse_lt 64 t k (by omega)
  simp only [] at hmem
  split at hmem
  · simp only [List.mem_cons, List.mem_singleton, List.not_mem_nil, or_false] at hmem
    rcases hmem with h | h | h | h <;> omega
  · simp at hmem

/-- Whatever the value `L` of `1 << q`, the subscripts of a butterfly with `j < L/2` and
`k < n/L` are below `n`. -/
theorem butterflyIndices_lt (n L k j : Nat) (hn : n < 2 ^ 64) (hj : j < L / 2)
    (hk : k < n / L) : ∀ i ∈ butterflyIndices L k j, i < n := by
  have hL : 0 < L := by omega
  have h1 : (k + 1) * L ≤ n := by
    have := Nat.div_mul_le_self n L
    have : (k + 1) * L ≤ n / L * L := Nat.mul_le_mul_right L hk
    omega
  have h2 : k * L + j + L / 2 < n := by
    have : (k + 1) * L = k * L + L := by ring
    omega
  have e1 : (k * L + j) % 2 ^ 64 = k * L + j := Nat.mod_eq_of_lt (by omega)
  have e2 : (k * L + j + L / 2) % 2 ^ 64 = k * L + j + L / 2 := Nat.mod_eq_of_lt (by omega)
  intro i hi
  unfold butterflyIndices at hi
  simp only [e1, e2, List.mem_cons, List.mem_singleton, List.not_mem_nil, or_false] at hi
  rcases hi with h | h | h | h | h <;> omega

theorem stage1Indices_lt (n L : Nat) (hn : n < 2 ^ 64) : ∀ i ∈ stage1Indices n L, i < n := by
  intro i hi
  unfold stage1Indices at hi
  simp only [List.mem_flatMap, List.mem_range] at hi
  obtain ⟨j, hj, k, hk, hmem⟩ := hi
  exact butterflyIndices_lt n L k j hn hj hk i hmem

theorem stage2Indices_lt (n L : Nat) (hn : n < 2 ^ 64) : ∀ i ∈ stage2Indices n L, i < n := by
  intro i hi
  unfold stage2Indices at hi
  simp only [List.mem_flatMap, List.mem_range] at hi
  obtain ⟨k, hk, j, hj, hmem⟩ := hi
  exact butterflyIndices_lt n L k j hn hj hk i hmem

theorem stageLoopIndices_lt (n : Nat) (stageIndices : Nat → List Nat)
    (h : ∀ L, ∀ i ∈ stageIndices L, i < n) :
    ∀ cnt q, ∀ i ∈ (stageLoopIndices stageIndices cnt q).1, i < n := by
  intro cnt
  induction cnt with
  | zero =>
    intro q i hi
    simp [stageLoopIndices] at hi
  | succ cnt ih =>
    intro q i hi
    unfold stageLoopIndices at hi
    cases hs : shlInt q with
    | none =>
      rw [hs] at hi
      simp at hi
    | some L =>
      rw [hs] at hi
      simp only [List.mem_append] at hi
      rcases hi with hi | hi
      · exact h L i hi
      · exact ih (q + 1) i hi

/-- Up to 30 stages every shift is defined and the loop runs to its end. -/
theorem stageLoopIndices_complete (stageIndices : Nat → List Nat) :
    ∀ cnt q, q + cnt ≤ 31 → (stageLoopIndices stageIndices cnt q).2 = none := by
  intro cnt
  induction cnt with
  | zero => intro q _; rfl
  | succ cnt ih =>
    intro q hq
    unfold stageLoopIndices
    rw [shlInt_of_lt q (by omega)]
    exact ih (q + 1) (by omega)

/-- The subscripts of the two transforms on a sequence of length 4. -/
theorem forwardFFT_indices_four :
    forwardFFT1Indices 4 = ([2, 1, 2, 1, 1, 0, 1, 0, 0, 3, 2, 3, 2, 2,
      2, 0, 2, 0, 0, 3, 1, 3, 1, 1], none) ∧
    forwardFFT2Indices 4 = ([2, 1, 2, 1, 1, 0, 1, 0, 0, 3, 2, 3, 2, 2,
      2, 0, 2, 0, 0, 3, 1, 3, 1, 1], none) := by
  decide

/-- C19 (index safety): for every sequence whose length `n` is a power of two (a
`size_t`), every subscript evaluated by `permute` (`bitReverse(k, ceilLg n)` and `k`) and
by the stages of `forwardFFT1` and `forwardFFT2` (`k*L + j` and `k*L + j + L/2`) is
below `n`, whatever the value of `1 << q`; for lengths up to `2 ^ 30` every shift is
defined and the stage loop runs to its end. -/
theorem index_safety (x : List Nat) (t : Nat) (hn : x.length = 2 ^ t)
    (hsize : x.length < 2 ^ 64) :
    (∀ i ∈ permuteIndices x.length, i < x.length) ∧
    (∀ i ∈ (forwardFFT1Indices x.length).1, i < x.length) ∧
    (∀ i ∈ (forwardFFT2Indices x.length).1, i < x.length) ∧
    (t ≤ 30 → (forwardFFT1Indices x.length).2 = none ∧
      (forwardFFT2Indices x.length).2 = none) := by
  have ht : t < 64 := by
    rw [hn] at hsize
    exact (Nat.pow_lt_pow_iff_right (a := 2) (by decide)).mp hsize
  have hp := permuteIndices_lt t ht
  rw [hn] at hsize ⊢
  refine ⟨hp, ?_, ?_, ?_⟩
  · intro i hi
    unfold forwardFFT1Indices at hi
    simp only [List.mem_append] at hi
    rcases hi with hi | hi
    · exact hp i hi
    · exact stageLoopIndices_lt _ _ (fun L => stage1Indices_lt _ L hsize) _ _ i hi
  · intro i hi
    unfold forwardFFT2Indices at hi
    simp only [List.mem_append] at hi
    rcases hi with hi | hi
    · exact hp i hi
    · exact stageLoopIndices_lt _ _ (fun L => stage2Indices_lt _ L hsize) _ _ i hi
  · intro h30
    unfold forwardFFT1Indices forwardFFT2Indices
    simp only [ceilLg_two_pow]
    exact ⟨stageLoopIndices_complete _ t 1 (by omega), stageLoopIndices_complete _ t 1 (by omega)⟩

theorem index_safety_witness :
    (∀ i ∈ permuteIndices [5, 6, 7, 8].length, i < [5, 6, 7, 8].length) ∧
    (∀ i ∈ (forwardFFT1Indices [5, 6, 7, 8].length).1, i < [5, 6, 7, 8].length) ∧
    (∀ i ∈ (forwardFFT2Indices [5, 6, 7, 8].length).1, i < [5, 6, 7, 8].length) ∧
    (2 ≤ 30 → (forwardFFT1Indices [5, 6, 7, 8].length).2 = none ∧
      (forwardFFT2Indices [5, 6, 7, 8].length).2 = none) :=
  index_safety [5, 6, 7, 8] 2 (by decide) (by decide)

end NTT

/-! ## Prime sieve: correctness -/

namespace PrimeSieve

theorem writeAt_spec (primes : List Bool) (i : Nat) (b : Bool) (h : i < primes.length) :
    writeAt primes i b = some (primes.set i b) := by
  unfold writeAt
  rw [if_pos h]

theorem getD_set_false (primes : List Bool) (i m : Nat) :
    (primes.set i false).getD m false = true ↔ (primes.getD m false = true ∧ m ≠ i) := by
  rw [List.getD_eq_getElem?_getD, List.getD_eq_getElem?_getD, List.getElem?_set]
  by_cases h : i = m
  · subst h
    by_cases h2 : i < primes.length
    · simp [h2]
    · simp [h2]
  · rw [if_neg h]
    constructor
    · intro hh; exact ⟨hh, fun hc => h hc.symm⟩
    · intro hh; exact hh.1

theorem getD_true_lt (primes : List Bool) (m : Nat) (h : primes.getD m false = true) :
    m < primes.length := by
  by_contra hc
  rw [List.getD_eq_default _ _ (by omega)] at h
  exact absurd h (by decide)

theorem innerLoop_spec (num i : Nat) (hi : 1 ≤ i) (hnum : num < 2 ^ 31) (hin : i < num) :
    ∀ fuel j primes, j ≤ num + 1 → num + 2 ≤ j + fuel → primes.length = num →
      ∃ out, innerLoop num i fuel j primes = some out ∧ out.length = num ∧
        ∀ m, out.getD m false = true ↔
          (primes.getD m false = true ∧ ¬ ∃ e, j ≤ e ∧ i * e = m) := by
  intro fuel
  induction fuel with
  | zero =>
    intro j primes h1 h2 _
    omega
  | succ fuel ih =>
    intro j primes h1 h2 hlen
    have hov : i * j < 2 ^ 63 := by
      have : i * j ≤ 2 ^ 31 * 2 ^ 31 := Nat.mul_le_mul (by omega) (by omega)
      have e : (2 : Nat) ^ 31 * 2 ^ 31 < 2 ^ 63 := by norm_num
      omega
    unfold innerLoop
    rw [if_neg (by omega)]
    by_cases hlt : i * j < num
    · rw [if_pos hlt, writeAt_spec _ _ _ (by omega)]
      have hj : j ≤ i * j := Nat.le_mul_of_pos_left j hi
      obtain ⟨out, o1, o2, o3⟩ := ih (j + 1) (primes.set (i * j) false) (by omega) (by omega)
        (by rw [List.length_set]; exact hlen)
      refine ⟨out, o1, o2, ?_⟩
      intro m
      rw [o3 m, getD_set_false]
      constructor
      · rintro ⟨⟨a, b⟩, c⟩
        refine ⟨a, ?_⟩
        rintro ⟨e, he, hm⟩
        by_cases hej : e = j
        · subst hej; exact b hm.symm
        · exact c ⟨e, by omega, hm⟩
      · rintro ⟨a, c⟩
        refine ⟨⟨a, ?_⟩, ?_⟩
        · intro hm
          exact c ⟨j, le_rfl, hm.symm⟩
        · rintro ⟨e, he, hm⟩
          exact c ⟨e, by omega, hm⟩
    · rw [if_neg hlt]
      refine ⟨primes, rfl, hlen, ?_⟩
      intro m
      constructor
      · intro a
        refine ⟨a, ?_⟩
        rintro ⟨e, he, hm⟩
        have := getD_true_lt primes m a
        have : i * j ≤ i * e := Nat.mul_le_mul_left i he
        omega
      · intro a
        exact a.1

theorem prime_of_no_small_factor (i : Nat) (h2 : 2 ≤ i)
    (h : ∀ p, Nat.Prime p → p < i → p * p ≤ i → ¬ p ∣ i) : Nat.Prime i := by
  by_contra hc
  have hp := Nat.minFac_prime (show i ≠ 1 by omega)
  have hsq := Nat.minFac_sq_le_self (show 0 < i by omega) hc
  rw [pow_two] at hsq
  have h2p := hp.two_le
  have hlt : i.minFac < i := by
    by_contra hge
    have : i * 2 ≤ i.minFac * i.minFac := Nat.mul_le_mul (by omega) h2p
    omega
  exact h _ hp hlt hsq (Nat.minFac_dvd i)

theorem outerLoop_spec (num : Nat) (hnum : num < 2 ^ 31) :
    ∀ fuel i primes, 2 ≤ i → i ≤ num → num + 1 ≤ i + fuel → primes.length = num →
      SieveInv num i primes →
      ∃ out, outerLoop num fuel i primes = some out ∧ out.length = num ∧
        SieveInv num num out := by
  intro fuel
  induction fuel with
  | zero =>
    intro i primes h1 h2 h3 _ _
    omega
  | succ fuel ih =>
    intro i primes h1 h2 h3 hlen hinv
    unfold outerLoop
    by_cases hlt : i < num
    · rw [if_pos hlt]
      have hr : readAt primes i = some (primes.getD i false) := by
        unfold readAt
        rw [List.getD_eq_getElem _ _ (by omega), List.getElem?_eq_getElem]
      rw [hr]
      simp only []
      by_cases hb : primes.getD i false = true
      · have hpi : Nat.Prime i := by
          obtain ⟨-, a, b⟩ := (hinv i).mp hb
          exact prime_of_no_small_factor i a b
        rw [hb, if_pos (by decide)]
        obtain ⟨out1, o1, o2, o3⟩ := innerLoop_spec num i (by omega) hnum hlt num i primes
          (by omega) (by omega) hlen
        rw [o1]
        simp only []
        apply ih (i + 1) out1 (by omega) (by omega) (by omega) o2
        intro m
        rw [o3 m, hinv m]
        constructor
        · rintro ⟨⟨a, b, c⟩, d⟩
          refine ⟨a, b, ?_⟩
          intro p hp hpl hsq hdvd
          by_cases hpi2 : p = i
          · subst hpi2
            obtain ⟨e, he⟩ := hdvd
            apply d
            refine ⟨e, ?_, he.symm⟩
            rw [he] at hsq
            exact Nat.le_of_mul_le_mul_left hsq (by omega)
          · exact c p hp (by omega) hsq hdvd
        · rintro ⟨a, b, c⟩
          refine ⟨⟨a, b, fun p hp hpl => c p hp (by omega)⟩, ?_⟩
          rintro ⟨e, he, hm⟩
          apply c i hpi (by omega)
          · rw [← hm]
            exact Nat.mul_le_mul_left i he
          · exact ⟨e, hm.symm⟩
      · have hbf : primes.getD i false = false := by
          cases h : primes.getD i false
          · rfl
          · exact absurd h hb
        have hnp : ¬ Nat.Prime i := by
          intro hpi
          apply hb
          rw [hinv i]
          refine ⟨hlt, h1, ?_⟩
          intro p hp hpl _ hdvd
          have := (Nat.prime_dvd_prime_iff_eq hp hpi).mp hdvd
          omega
        rw [hbf, if_neg (by decide)]
        apply ih (i + 1) primes (by omega) (by omega) (by omega) hlen
        intro m
        rw [hinv m]
        constructor
        · rintro ⟨a, b, c⟩
          refine ⟨a, b, ?_⟩
          intro p hp hpl
          have : p ≠ i := by
            rintro rfl
            exact hnp hp
          exact c p hp (by omega)
        · rintro ⟨a, b, c⟩
          exact ⟨a, b, fun p hp hpl => c p hp (by omega)⟩
    · rw [if_neg hlt]
      have : i = num := by omega
      subst this
      exact ⟨primes, rfl, hlen, hinv⟩

theorem sieveInv_final (num : Nat) (out : List Bool) (h : SieveInv num num out) (m : Nat)
    (hm : m < num) : out.getD m false = true ↔ Nat.Prime m := by
  rw [h m]
  constructor
  · rintro ⟨-, a, b⟩
    exact prime_of_no_small_factor m a (fun p hp hlt => b p hp (by omega))
  · intro hp
    refine ⟨hm, hp.two_le, ?_⟩
    intro p hpp _ hsq hdvd
    have := (Nat.prime_dvd_prime_iff_eq hpp hp).mp hdvd
    subst this
    have := hpp.two_le
    have : p * 2 ≤ p * p := Nat.mul_le_mul_left p this
    omega

theorem sieveInv_init (num : Nat) :
    SieveInv num 2 (((List.replicate num true).set 0 false).set 1 false) := by
  intro m
  rw [getD_set_false, getD_set_false]
  constructor
  · rintro ⟨⟨a, b⟩, c⟩
    have := getD_true_lt _ m a
    rw [List.length_replicate] at this
    refine ⟨this, by omega, ?_⟩
    intro p hp hpl
    have := hp.two_le
    omega
  · rintro ⟨a, b, -⟩
    refine ⟨⟨?_, by omega⟩, by omega⟩
    rw [List.getD_eq_getElem _ _ (by rw [List.length_replicate]; exact a)]
    simp

/-- The result of `primeSieve(10)`. -/
theorem primeSieve_ten :
    primeSieve 10 = some [false, false, true, true, false, true, false, true, false, false] := by
  decide

/-- C21 (sieve correctness): for every `num ≥ 2` (an `int`), `primeSieve(num)` returns
a vector of length `num` whose entry `i` is `true` if and only if `i` is a prime number,
for every `i < num`; no subscript is out of range and no product overflows. -/
theorem primeSieve_correct (num : Nat) (h2 : 2 ≤ num) (hint : num < 2 ^ 31) :
    ∃ v, primeSieve num = some v ∧ v.length = num ∧
      (∀ i, i < num → v[i]? = some (decide (Nat.Prime i))) ∧
      (∀ i, i < num → (v.getD i false = true ↔ Nat.Prime i)) := by
  have hlen : (((List.replicate num true).set 0 false).set 1 false).length = num := by
    rw [List.length_set, List.length_set, List.length_replicate]
  obtain ⟨out, o1, o2, o3⟩ := outerLoop_spec num hint num 2 _ le_rfl h2 (by omega) hlen
    (sieveInv_init num)
  have hv : ∀ i, i < num → (out.getD i false = true ↔ Nat.Prime i) :=
    fun i hi => sieveInv_final num out o3 i hi
  refine ⟨out, ?_, o2, ?_, hv⟩
  · unfold primeSieve
    simp only []
    rw [writeAt_spec _ _ _ (by rw [List.length_replicate]; omega)]
    simp only []
    rw [writeAt_spec _ _ _ (by rw [List.length_set, List.length_replicate]; omega)]
    exact o1
  · intro i hi
    have h := hv i hi
    rw [List.getD_eq_getElem _ _ (by omega)] at h
    rw [List.getElem?_eq_getElem (by omega)]
    congr 1
    by_cases hp : Nat.Prime i
    · rw [h.mpr hp]; simp [hp]
    · have : out[i] = false := by
        cases hb : out[i]
        · rfl
        · exact absurd (h.mp hb) hp
      rw [this]; simp [hp]

theorem primeSieve_correct_witness :
    ∃ v, primeSieve 10 = some v ∧ v.length = 10 ∧
      (∀ i, i < 10 → v[i]? = some (decide (Nat.Prime i))) ∧
      (∀ i, i < 10 → (v.getD i false = true ↔ Nat.Prime i)) :=
  primeSieve_correct 10 (by decide) (by decide)

end PrimeSieve
